import Mathlib

/-!
Verification of the OpenThread `Flash` key-value store (`src/core/utils/flash.cpp`,
`src/core/utils/flash.hpp`) against its natural-language specification.

The development shallowly embeds the C++ code:
* machine integers (`uint16_t`, `uint32_t`) become `Nat` with explicit masking /
  `% 2^w` exactly where the C code can overflow or truncate;
* the two flash swap regions become lists of byte values (`List Nat`, each < 256);
  `otPlatFlashRead` / `otPlatFlashWrite` / `otPlatFlashErase` become `readBytes`,
  `writeBytes` and `List.replicate _ 255`.  The platform write contract (spec §6)
  only allows clearing bits; the driver writes either to erased (all-ones) space or
  rewrites a header image with one more bit cleared, and for such writes plain byte
  replacement coincides with the NOR-flash bit-clearing behaviour, so `writeBytes`
  replaces bytes;
* the C `for` loops whose step (`record.GetSize()`) depends on data read from flash
  are embedded with an explicit fuel argument (the C loop can diverge on corrupt
  images whose decoded record size is 0; every theorem below instantiates the fuel
  above the actual number of iterations, where the embedding and the C loop agree);
* fallible operations return a value of the `OtError` type mirroring `otError`.

Definitions are transcribed from the source; `Rec`, `encodeRecs` and the `*Recs`
list-level functions form the record-list abstraction used to state and prove the
claims, connected to the byte level by the `..._eq_...` correspondence theorems.
-/

namespace OtFlash

/-- Error codes used by the store, mirroring `otError` values
`OT_ERROR_NONE`, `OT_ERROR_NOT_FOUND`, `OT_ERROR_NO_BUFS` (the spec's
`OK`, `NotFound`, `NoSpace`). -/
inductive OtError where
  | None
  | NotFound
  | NoBufs
deriving DecidableEq, Repr, BEq

/-- Flash word size in bytes (`kFlashWordSize` in flash.cpp). -/
def kFlashWordSize : Nat := 4

/-- `SwapHeader::kActive` marker value. -/
def kActive : Nat := 0xbe5cc5ee

/-- `SwapHeader::kInactive` marker value. -/
def kInactive : Nat := 0xbe5cc5ec

/-- `RecordHeader::kFlagsInit`: flags initialize to all-ones. -/
def kFlagsInit : Nat := 0xffff

/-- `RecordHeader::kFlagAddBegin` (bit 0): 0 indicates record write has started. -/
def kFlagAddBegin : Nat := 1

/-- `RecordHeader::kFlagAddComplete` (bit 1): 0 indicates record write has completed. -/
def kFlagAddComplete : Nat := 2

/-- `RecordHeader::kFlagDelete` (bit 2): 0 indicates record was deleted. -/
def kFlagDelete : Nat := 4

/-- `RecordHeader::kFlagFirst` (bit 3): 0 indicates first record for key. -/
def kFlagFirst : Nat := 8

/-- `Record::kMaxDataSize`. -/
def kMaxDataSize : Nat := 256

/-- `mFlags &= ~bit` on the 16-bit flags field: for a single-bit mask `bit`,
`~bit` truncated to 16 bits is `0xffff - bit`. -/
def clearBit16 (flags bit : Nat) : Nat := flags &&& (0xffff - bit)

/-- The packed `RecordHeader` structure: four 16-bit fields. -/
structure RecordHeader where
  mKey : Nat
  mFlags : Nat
  mLength : Nat
  mReserved : Nat
deriving DecidableEq, Repr

namespace RecordHeader

/-- `RecordHeader::Init(aKey, aFirst)`: flags start at `kFlagsInit & ~kFlagAddBegin`,
additionally clearing `kFlagFirst` when `aFirst`; length 0, reserved all-ones. -/
def InitHeader (aKey : Nat) (aFirst : Bool) : RecordHeader :=
  let flags := clearBit16 kFlagsInit kFlagAddBegin
  let flags := if aFirst then clearBit16 flags kFlagFirst else flags
  { mKey := aKey, mFlags := flags, mLength := 0, mReserved := 0xffff }

/-- `RecordHeader::GetSize()`: `sizeof(*this) + ((mLength + 3) & 0xfffc)`, returned
as `uint16_t` (hence the truncation `% 2^16`). -/
def GetSize (h : RecordHeader) : Nat := (8 + ((h.mLength + 3) &&& 0xfffc)) % 65536

/-- `RecordHeader::IsValid()`: `(mFlags & (kFlagAddComplete | kFlagDelete)) == kFlagDelete`. -/
def IsValid (h : RecordHeader) : Bool :=
  (h.mFlags &&& (kFlagAddComplete ||| kFlagDelete)) == kFlagDelete

/-- `RecordHeader::IsAddBeginSet()`: `(mFlags & kFlagAddBegin) == 0`. -/
def IsAddBeginSet (h : RecordHeader) : Bool := (h.mFlags &&& kFlagAddBegin) == 0

/-- `RecordHeader::IsAddCompleteSet()`: `(mFlags & kFlagAddComplete) == 0`. -/
def IsAddCompleteSet (h : RecordHeader) : Bool := (h.mFlags &&& kFlagAddComplete) == 0

/-- `RecordHeader::IsDeleted()`: `(mFlags & kFlagDelete) == 0`. -/
def IsDeleted (h : RecordHeader) : Bool := (h.mFlags &&& kFlagDelete) == 0

/-- `RecordHeader::IsFirst()`: `(mFlags & kFlagFirst) == 0`. -/
def IsFirst (h : RecordHeader) : Bool := (h.mFlags &&& kFlagFirst) == 0

/-- `RecordHeader::SetAddCompleteFlag()`: `mFlags &= ~kFlagAddComplete`. -/
def SetAddCompleteFlag (h : RecordHeader) : RecordHeader :=
  { h with mFlags := clearBit16 h.mFlags kFlagAddComplete }

/-- `RecordHeader::SetDeleted()`: `mFlags &= ~kFlagDelete`. -/
def SetDeleted (h : RecordHeader) : RecordHeader :=
  { h with mFlags := clearBit16 h.mFlags kFlagDelete }

/-- `RecordHeader::SetFirst()`: `mFlags &= ~kFlagFirst`. -/
def SetFirst (h : RecordHeader) : RecordHeader :=
  { h with mFlags := clearBit16 h.mFlags kFlagFirst }

end RecordHeader

/-- The validity predicate exactly as the specification words it for claim C3:
"flag bits 1 (AddComplete) and 2 (Delete) are both 0".
Modelled from the spec, to be compared with `RecordHeader.IsValid` from the source. -/
def specValid (h : RecordHeader) : Prop :=
  Nat.testBit h.mFlags 1 = false ∧ Nat.testBit h.mFlags 2 = false

instance (h : RecordHeader) : Decidable (specValid h) := by
  unfold specValid; infer_instance

/-- Claim C3 (counterexample): the spec's validity predicate ("flag bits 1 and 2
both 0") disagrees with the code's `RecordHeader::IsValid` at the concrete header
with flags 0: the spec calls it valid, the code does not (the code requires the
`Delete` bit to still be 1, i.e. the record not tombstoned). -/
theorem C3_counterexample :
    ¬ ((RecordHeader.IsValid ⟨0, 0, 0, 0xffff⟩ = true) ↔ specValid ⟨0, 0, 0, 0xffff⟩) := by
  decide

/-- Bit-level characterization of `x &&& 6 = 4`. -/
theorem land_six_eq_four_iff (x : Nat) :
    x &&& 6 = 4 ↔ (Nat.testBit x 1 = false ∧ Nat.testBit x 2 = true) := by
  constructor
  · intro hv
    refine ⟨?_, ?_⟩
    · have t1 := congrArg (fun n => Nat.testBit n 1) hv
      have e6 : Nat.testBit 6 1 = true := by decide
      have e4 : Nat.testBit 4 1 = false := by decide
      simp only [Nat.testBit_land, e6, e4, Bool.and_true] at t1
      exact t1
    · have t2 := congrArg (fun n => Nat.testBit n 2) hv
      have e6 : Nat.testBit 6 2 = true := by decide
      have e4 : Nat.testBit 4 2 = true := by decide
      simp only [Nat.testBit_land, e6, e4, Bool.and_true] at t2
      exact t2
  · rintro ⟨h1, h2⟩
    apply Nat.eq_of_testBit_eq
    intro i
    rw [Nat.testBit_land]
    rcases i with _ | _ | _ | i
    · have e6 : Nat.testBit 6 0 = false := by decide
      have e4 : Nat.testBit 4 0 = false := by decide
      rw [e6, e4, Bool.and_false]
    · have e4 : Nat.testBit 4 1 = false := by decide
      rw [h1, e4, Bool.false_and]
    · have e6 : Nat.testBit 6 2 = true := by decide
      have e4 : Nat.testBit 4 2 = true := by decide
      rw [h2, e6, e4, Bool.and_true]
    · have h6 : Nat.testBit 6 (i + 3) = false := by
        apply Nat.testBit_lt_two_pow
        calc (6 : Nat) < 2 ^ 3 := by norm_num
          _ ≤ 2 ^ (i + 3) := Nat.pow_le_pow_right (by norm_num) (by omega)
      have h4 : Nat.testBit 4 (i + 3) = false := by
        apply Nat.testBit_lt_two_pow
        calc (4 : Nat) < 2 ^ 3 := by norm_num
          _ ≤ 2 ^ (i + 3) := Nat.pow_le_pow_right (by norm_num) (by omega)
      rw [h6, h4, Bool.and_false]

/-- Claim C3 (amended): a record is valid if and only if its `AddComplete` flag bit
(bit 1) is 0 and its `Delete` flag bit (bit 2) is 1 — i.e. the add was committed and
the record was not tombstoned.  (`Get`, `Delete` and `Swap` all select records with
this `RecordHeader.IsValid` predicate; see `Flash.getLoop`, `Flash.deleteLoop`,
`Flash.swapLoop` below, each of which filters on it.) -/
theorem C3_amended (h : RecordHeader) :
    h.IsValid = true ↔ (Nat.testBit h.mFlags 1 = false ∧ Nat.testBit h.mFlags 2 = true) := by
  have hor : (kFlagAddComplete ||| kFlagDelete) = 6 := by decide
  rw [RecordHeader.IsValid, hor, kFlagDelete, beq_iff_eq]
  exact land_six_eq_four_iff h.mFlags

/-- Witness for `C3_amended` at a concrete committed, non-deleted header. -/
theorem C3_amended_witness :
    (RecordHeader.IsValid ⟨7, 0xfff4, 2, 0xffff⟩ = true) ↔
      (Nat.testBit (0xfff4 : Nat) 1 = false ∧ Nat.testBit (0xfff4 : Nat) 2 = true) :=
  C3_amended ⟨7, 0xfff4, 2, 0xffff⟩

/-! ### Byte-level flash primitives

A flash region is a `List Nat` of byte values.  `readBytes` models
`otPlatFlashRead` (a synchronous read of `len` bytes at `offset`), `writeBytes`
models `otPlatFlashWrite`, and erasing a region yields `List.replicate size 255`. -/

/-- Read `len` bytes at `offset` from a region. -/
def readBytes (reg : List Nat) (offset len : Nat) : List Nat := (reg.drop offset).take len

/-- Write `data` at `offset` in a region, replacing the bytes there. -/
def writeBytes (reg : List Nat) (offset : Nat) (data : List Nat) : List Nat :=
  reg.take offset ++ data ++ reg.drop (offset + data.length)

theorem readBytes_shorten (reg : List Nat) (o L n : Nat) (hn : n ≤ L) :
    readBytes reg o n = (readBytes reg o L).take n := by
  unfold readBytes
  rw [List.take_take, Nat.min_eq_left hn]

theorem readBytes_within (reg blk : List Nat) (o L d n : Nat)
    (hblk : readBytes reg o L = blk) (hdn : d + n ≤ L) :
    readBytes reg (o + d) n = (blk.drop d).take n := by
  subst hblk
  unfold readBytes
  rw [← List.drop_drop, List.drop_take, List.take_take]
  congr 1
  omega

theorem writeBytes_length (reg d : List Nat) (o : Nat) (h : o + d.length ≤ reg.length) :
    (writeBytes reg o d).length = reg.length := by
  unfold writeBytes
  simp only [List.length_append, List.length_take, List.length_drop]
  omega

theorem take_length_eq (reg : List Nat) (o : Nat) (h : o ≤ reg.length) :
    (reg.take o).length = o := by
  rw [List.length_take]
  omega

theorem readBytes_writeBytes (reg d : List Nat) (o : Nat) (h : o ≤ reg.length) :
    readBytes (writeBytes reg o d) o d.length = d := by
  unfold readBytes writeBytes
  rw [List.append_assoc, List.drop_left' (take_length_eq reg o h), List.take_left' rfl]

theorem readBytes_writeBytes_before (reg d : List Nat) (o o' n : Nat)
    (h : o' + n ≤ o) (ho : o ≤ reg.length) :
    readBytes (writeBytes reg o d) o' n = readBytes reg o' n := by
  unfold readBytes writeBytes
  rw [List.append_assoc, List.drop_append_eq_append_drop, take_length_eq reg o ho]
  rw [List.take_append_eq_append_take]
  have e1 : ((reg.take o).drop o').length = o - o' := by
    rw [List.length_drop, take_length_eq reg o ho]
  rw [e1]
  have e2 : n - (o - o') = 0 := by omega
  rw [e2, List.take_zero, List.append_nil]
  rw [List.drop_take, List.take_take, Nat.min_eq_left (by omega)]

theorem readBytes_writeBytes_beyond (reg d : List Nat) (o o' n : Nat)
    (hout : o + d.length ≤ o') (ho : o ≤ reg.length) :
    readBytes (writeBytes reg o d) o' n = readBytes reg o' n := by
  unfold readBytes writeBytes
  have hP : (reg.take o ++ d).length = o + d.length := by
    rw [List.length_append, take_length_eq reg o ho]
  rw [List.drop_append_eq_append_drop, hP]
  rw [List.drop_eq_nil_of_le (by rw [hP]; omega), List.nil_append, List.drop_drop]
  have : o + d.length + (o' - (o + d.length)) = o' := by omega
  rw [this]

theorem writeBytes_split (reg d1 d2 : List Nat) (o : Nat) (h : o ≤ reg.length) :
    writeBytes reg o (d1 ++ d2) = writeBytes (writeBytes reg o d1) (o + d1.length) d2 := by
  unfold writeBytes
  have hP : (reg.take o ++ d1).length = o + d1.length := by
    rw [List.length_append, take_length_eq reg o h]
  have hA : ((reg.take o ++ d1) ++ reg.drop (o + d1.length)).take (o + d1.length)
      = reg.take o ++ d1 := List.take_left' hP
  have hB : ((reg.take o ++ d1) ++ reg.drop (o + d1.length)).drop (o + d1.length + d2.length)
      = reg.drop (o + (d1 ++ d2).length) := by
    rw [List.drop_append_eq_append_drop, hP]
    have hnil : (reg.take o ++ d1).drop (o + d1.length + d2.length) = [] :=
      List.drop_eq_nil_of_le (by rw [hP]; omega)
    rw [hnil, List.nil_append, List.drop_drop]
    congr 1
    rw [List.length_append]
    omega
  rw [hA, hB]
  simp [List.append_assoc]

theorem writeBytes_same (reg d : List Nat) (o : Nat)
    (hread : readBytes reg o d.length = d) (hin : o + d.length ≤ reg.length) :
    writeBytes reg o d = reg := by
  unfold writeBytes
  conv_rhs => rw [← List.take_append_drop o reg,
    ← List.take_append_drop d.length (reg.drop o)]
  unfold readBytes at hread
  rw [hread, List.drop_drop]
  have : o + d.length = d.length + o := by omega
  rw [this, List.append_assoc]

theorem writeBytes_drop_beyond (reg d : List Nat) (o : Nat) (h : o ≤ reg.length) :
    (writeBytes reg o d).drop (o + d.length) = reg.drop (o + d.length) := by
  unfold writeBytes
  have hP : (reg.take o ++ d).length = o + d.length := by
    rw [List.length_append, take_length_eq reg o h]
  rw [List.drop_left' hP]

/-! ### Little-endian 16/32-bit encodings -/

/-- Encode a 16-bit value as two little-endian bytes. -/
def encodeU16 (n : Nat) : List Nat := [n % 256, n / 256 % 256]

/-- Assemble a 16-bit value from two little-endian bytes. -/
def u16le (b0 b1 : Nat) : Nat := b0 % 256 + 256 * (b1 % 256)

/-- Encode a 32-bit value as four little-endian bytes. -/
def encodeU32 (n : Nat) : List Nat :=
  [n % 256, n / 256 % 256, n / 65536 % 256, n / 16777216 % 256]

/-- Assemble a 32-bit value from the first four bytes of a list (out-of-range
reads return erased bytes, a choice never exercised by the verified claims). -/
def decodeU32 (bs : List Nat) : Nat :=
  bs.getD 0 255 % 256 + 256 * (bs.getD 1 255 % 256) + 65536 * (bs.getD 2 255 % 256)
    + 16777216 * (bs.getD 3 255 % 256)

theorem u16le_encodeU16 (n : Nat) (h : n < 65536) :
    u16le ((encodeU16 n).getD 0 255) ((encodeU16 n).getD 1 255) = n := by
  simp only [encodeU16, List.getD_cons_zero, List.getD_cons_succ]
  unfold u16le
  omega

/-! ### Record header encoding -/

/-- Serialize a `RecordHeader` to its 8 packed little-endian bytes. -/
def encodeHeader (h : RecordHeader) : List Nat :=
  encodeU16 h.mKey ++ encodeU16 h.mFlags ++ encodeU16 h.mLength ++ encodeU16 h.mReserved

/-- Parse a `RecordHeader` from 8 bytes (the `otPlatFlashRead(…, sizeof(record))`
of the scan loops). -/
def decodeHeader (bs : List Nat) : RecordHeader :=
  { mKey := u16le (bs.getD 0 255) (bs.getD 1 255),
    mFlags := u16le (bs.getD 2 255) (bs.getD 3 255),
    mLength := u16le (bs.getD 4 255) (bs.getD 5 255),
    mReserved := u16le (bs.getD 6 255) (bs.getD 7 255) }

/-- Field bounds under which a header encodes and decodes faithfully; `mLength ≤ 256`
is the `Record::kMaxDataSize` cap that every record written by the driver satisfies. -/
def hdrWf (h : RecordHeader) : Prop :=
  h.mKey < 65536 ∧ h.mFlags < 65536 ∧ h.mLength ≤ 256 ∧ h.mReserved < 65536

theorem encodeHeader_length (h : RecordHeader) : (encodeHeader h).length = 8 := by
  simp [encodeHeader, encodeU16]

theorem decodeHeader_encodeHeader (h : RecordHeader) (hwf : hdrWf h) :
    decodeHeader (encodeHeader h) = h := by
  obtain ⟨k, fl, len, res⟩ := h
  obtain ⟨h1, h2, h3, h4⟩ := hwf
  simp only [decodeHeader, encodeHeader, encodeU16]
  simp only [List.cons_append, List.nil_append, List.getD_cons_zero, List.getD_cons_succ]
  have e : ∀ n : Nat, n < 65536 → u16le (n % 256) (n / 256 % 256) = n := by
    intro n hn
    unfold u16le
    omega
  simp only [RecordHeader.mk.injEq]
  refine ⟨e k h1, e fl h2, e len ?_, e res h4⟩
  have h3' : len ≤ 256 := h3
  omega

theorem encodeU16_bytes_lt (n : Nat) : ∀ b ∈ encodeU16 n, b < 256 := by
  intro b hb
  simp only [encodeU16, List.mem_cons, List.not_mem_nil, or_false] at hb
  rcases hb with hb | hb <;> subst hb <;> omega

theorem encodeHeader_bytes_lt (h : RecordHeader) : ∀ b ∈ encodeHeader h, b < 256 := by
  intro b hb
  simp only [encodeHeader, List.mem_append] at hb
  rcases hb with ((hb | hb) | hb) | hb <;> exact encodeU16_bytes_lt _ b hb

/-! ### `GetSize` arithmetic -/

set_option maxRecDepth 4096 in
theorem land_fffc_small : ∀ x : Fin 260, (x.val &&& 0xfffc) = 4 * (x.val / 4) := by decide

theorem GetSize_eq (h : RecordHeader) (hlen : h.mLength ≤ 256) :
    h.GetSize = 8 + 4 * ((h.mLength + 3) / 4) := by
  unfold RecordHeader.GetSize
  have hx : h.mLength + 3 < 260 := by omega
  rw [land_fffc_small ⟨h.mLength + 3, hx⟩]
  have hq : (h.mLength + 3) / 4 ≤ 64 := by omega
  rw [Nat.mod_eq_of_lt (by omega)]

theorem GetSize_ge (h : RecordHeader) (hlen : h.mLength ≤ 256) : 8 ≤ h.GetSize := by
  rw [GetSize_eq h hlen]; omega

theorem GetSize_le (h : RecordHeader) (hlen : h.mLength ≤ 256) : h.GetSize ≤ 264 := by
  rw [GetSize_eq h hlen]
  have : (h.mLength + 3) / 4 ≤ 64 := by omega
  omega

theorem GetSize_mod_four (h : RecordHeader) (hlen : h.mLength ≤ 256) : h.GetSize % 4 = 0 := by
  rw [GetSize_eq h hlen]; omega

theorem length_le_GetSize_sub (h : RecordHeader) (hlen : h.mLength ≤ 256) :
    h.mLength ≤ h.GetSize - 8 := by
  rw [GetSize_eq h hlen]
  have hd := Nat.div_add_mod (h.mLength + 3) 4
  have hm : (h.mLength + 3) % 4 < 4 := Nat.mod_lt _ (by omega)
  omega

/-! ### Records and the record-list view of a region -/

/-- A record as laid out on flash: its header and its padded body (`GetSize - 8`
bytes; the body of a driver-written record is the payload followed by padding). -/
structure Rec where
  hdr : RecordHeader
  body : List Nat
deriving DecidableEq, Repr

/-- The bytes of a record as written to flash: 8 header bytes then the body. -/
def recBytes (r : Rec) : List Nat := encodeHeader r.hdr ++ r.body

/-- Well-formedness of a record: bounded fields and a body of exactly
`GetSize - 8` bytes. -/
def RecWf (r : Rec) : Prop :=
  hdrWf r.hdr ∧ r.body.length + 8 = r.hdr.GetSize ∧ ∀ b ∈ r.body, b < 256

/-- The byte image of a list of records laid out back to back. -/
def encodeRecs (rs : List Rec) : List Nat := (rs.map recBytes).flatten

theorem encodeRecs_nil : encodeRecs [] = [] := rfl

theorem encodeRecs_cons (r : Rec) (rs : List Rec) :
    encodeRecs (r :: rs) = recBytes r ++ encodeRecs rs := by
  simp [encodeRecs, recBytes]

theorem encodeRecs_append_recs (rs ss : List Rec) :
    encodeRecs (rs ++ ss) = encodeRecs rs ++ encodeRecs ss := by
  simp [encodeRecs]

theorem recBytes_drop_eight (r : Rec) : (recBytes r).drop 8 = r.body := by
  unfold recBytes
  exact List.drop_left' (encodeHeader_length r.hdr)

theorem recBytes_length (r : Rec) (hwf : RecWf r) : (recBytes r).length = r.hdr.GetSize := by
  obtain ⟨_, hlen, _⟩ := hwf
  simp [recBytes, encodeHeader_length]
  omega

theorem encodeRecs_length_ge (rs : List Rec) (hwf : ∀ r ∈ rs, RecWf r) :
    8 * rs.length ≤ (encodeRecs rs).length := by
  induction rs with
  | nil => simp [encodeRecs]
  | cons r rs ih =>
    rw [encodeRecs_cons]
    have h1 := recBytes_length r (hwf r (by simp))
    have h2 := GetSize_ge r.hdr (hwf r (by simp)).1.2.2.1
    have h3 := ih (fun s hs => hwf s (by simp [hs]))
    simp only [List.length_append, List.length_cons]
    omega

/-! ### The `Flash` store state and its operations -/

/-- Unsigned 32-bit subtraction, as computed by `a - b` on `uint32_t` operands
(assuming `b < 2^32`): wraps around on underflow. -/
def usub32 (a b : Nat) : Nat := (a + 4294967296 - b) % 4294967296

theorem usub32_eq (a b : Nat) (hb : b ≤ a) (ha : a < 4294967296) : usub32 a b = a - b := by
  unfold usub32
  omega

/-- The `Flash` driver state: the two swap regions (byte images) and the four
in-memory fields `mSwapSize`, `mSwapUsed`, `mSwapIndex`, `mSwapHeaderSize`. -/
structure Flash where
  r0 : List Nat
  r1 : List Nat
  mSwapSize : Nat
  mSwapUsed : Nat
  mSwapIndex : Nat
  mSwapHeaderSize : Nat
deriving DecidableEq, Repr

namespace Flash

/-- The byte image of region `i` (0 or 1). -/
def region (f : Flash) (i : Nat) : List Nat := if i = 0 then f.r0 else f.r1

/-- Replace the byte image of region `i`. -/
def setRegion (f : Flash) (i : Nat) (reg : List Nat) : Flash :=
  if i = 0 then { f with r0 := reg } else { f with r1 := reg }

/-- The scan state of `Flash::Get`: `error` (as a found flag), the caller's
buffer contents, the reported value length, and the running per-key index. -/
structure GetSt where
  found : Bool
  buffer : List Nat
  valueLength : Nat
  index : Int
deriving DecidableEq, Repr

/-- The scan loop of `Flash::Get` (flash.cpp): walk records from `offset` to
`used`, skipping key mismatches and invalid records, resetting the index at
`First` records, and recording a hit (last hit wins) when the index matches.
`copy` is `aValue && aValueLength`; `capacity` is the incoming `*aValueLength`.
The `fuel` argument bounds the iteration count (the C loop advances by
`record.GetSize()`, which is positive on every well-formed image). -/
def getLoop (reg : List Nat) (used aKey : Nat) (aIndex : Int) (copy : Bool)
    (capacity : Nat) : Nat → Nat → GetSt → GetSt
  | 0, _, st => st
  | fuel + 1, offset, st =>
    if offset < used then
      let record := decodeHeader (readBytes reg offset 8)
      if record.mKey ≠ aKey ∨ record.IsValid = false then
        getLoop reg used aKey aIndex copy capacity fuel (offset + record.GetSize) st
      else
        let index : Int := if record.IsFirst then 0 else st.index
        let st' :=
          if index = aIndex then
            { found := true,
              buffer :=
                if copy then
                  writeBytes st.buffer 0 (readBytes reg (offset + 8) (min capacity record.mLength))
                else st.buffer,
              valueLength := record.mLength,
              index := index }
          else { st with index := index }
        getLoop reg used aKey aIndex copy capacity fuel (offset + record.GetSize)
          { st' with index := st'.index + 1 }
    else st

/-- `Flash::Get(aKey, aIndex, aValue, aValueLength)`.  `aValue = some buf` models a
non-null output buffer currently holding `buf`; `aValueLength = some cap` models a
non-null in/out length holding `cap`.  Returns the error code, the final buffer
contents (when non-null) and the final `*aValueLength` (when non-null). -/
def Get (f : Flash) (aKey : Nat) (aIndex : Int) (aValue : Option (List Nat))
    (aValueLength : Option Nat) : OtError × Option (List Nat) × Option Nat :=
  let copy := aValue.isSome && aValueLength.isSome
  let st0 : GetSt := { found := false, buffer := aValue.getD [], valueLength := 0, index := 0 }
  let st := getLoop (f.region f.mSwapIndex) f.mSwapUsed aKey aIndex copy
    (aValueLength.getD 0) f.mSwapUsed f.mSwapHeaderSize st0
  (if st.found then OtError.None else OtError.NotFound,
   aValue.map fun _ => st.buffer,
   aValueLength.map fun _ => st.valueLength)

/-- The loop of `Flash::DoesValidRecordExist(aOffset, aKey)`: true iff some record
in `[aOffset, used)` is valid, `First`-marked and has the given key. -/
def validExistLoop (reg : List Nat) (used aKey : Nat) : Nat → Nat → Bool
  | 0, _ => false
  | fuel + 1, offset =>
    if offset < used then
      let record := decodeHeader (readBytes reg offset 8)
      if record.IsValid = true ∧ record.IsFirst = true ∧ record.mKey = aKey then true
      else validExistLoop reg used aKey fuel (offset + record.GetSize)
    else false

/-- `Flash::DoesValidRecordExist(aOffset, aKey)`. -/
def DoesValidRecordExist (f : Flash) (aOffset aKey : Nat) : Bool :=
  validExistLoop (f.region f.mSwapIndex) f.mSwapUsed aKey f.mSwapUsed aOffset

/-- The copy loop of `Flash::Swap()`: scan the source (active) region, stop at the
first record whose `AddBegin` bit is still 1 (`VerifyOrExit`), skip invalid records
and records shadowed by a later valid `First` record of the same key
(`DoesValidRecordExist`), and copy the remaining records to the destination region
at `dstOffset`. -/
def swapLoop (f : Flash) : Nat → Nat → List Nat × Nat → List Nat × Nat
  | 0, _, acc => acc
  | fuel + 1, srcOffset, (dstReg, dstOffset) =>
    if srcOffset < f.mSwapUsed then
      let record := decodeHeader (readBytes (f.region f.mSwapIndex) srcOffset 8)
      if record.IsAddBeginSet = false then (dstReg, dstOffset)
      else if record.IsValid = false
          ∨ f.DoesValidRecordExist (srcOffset + record.GetSize) record.mKey = true then
        swapLoop f fuel (srcOffset + record.GetSize) (dstReg, dstOffset)
      else
        swapLoop f fuel (srcOffset + record.GetSize)
          (writeBytes dstReg dstOffset (readBytes (f.region f.mSwapIndex) srcOffset record.GetSize),
           dstOffset + record.GetSize)
    else (dstReg, dstOffset)

/-- `Flash::Swap()`: erase the other region, copy live records into it, write an
`ACTIVE` swap header there, downgrade the old region's header to `INACTIVE`, and
switch `mSwapIndex` / `mSwapUsed`. -/
def Swap (f : Flash) : Flash :=
  let dstIndex := if f.mSwapIndex = 0 then 1 else 0
  let erased := List.replicate f.mSwapSize 255
  let (dstReg, dstOffset) := swapLoop f f.mSwapUsed f.mSwapHeaderSize (erased, f.mSwapHeaderSize)
  let dstReg := writeBytes dstReg 0 (encodeU32 kActive)
  let srcReg := writeBytes (f.region f.mSwapIndex) 0 (encodeU32 kInactive)
  let f1 := f.setRegion dstIndex dstReg
  let f2 := f1.setRegion f.mSwapIndex srcReg
  { f2 with mSwapIndex := dstIndex, mSwapUsed := dstOffset }

/-- `Record::SetData` composed with `RecordHeader::Init`: the record constructed by
`Flash::Add` before it is written.  The body is the payload followed by the padding
bytes up to `GetSize - 8` (the padding is written from uninitialized memory in the
C++ code and never read back; it is modelled as erased bytes). -/
def mkRecord (aKey : Nat) (aFirst : Bool) (aValue : List Nat) : Rec :=
  let hdr := { RecordHeader.InitHeader aKey aFirst with mLength := aValue.length }
  { hdr := hdr, body := aValue ++ List.replicate (hdr.GetSize - 8 - aValue.length) 255 }

/-- `Flash::Add(aKey, aFirst, aValue, aValueLength)` (the private overload): build
the record, `Swap` if it does not fit (`(mSwapSize - record.GetSize()) < mSwapUsed`
in `uint32_t` arithmetic), fail with `NoBufs` if it still does not fit, otherwise
write the full record at `mSwapUsed`, commit by rewriting the header with
`AddComplete` cleared, and advance `mSwapUsed`.  (`OT_ASSERT` is a debug-build
no-op and is not modelled; the theorems carry its condition as a hypothesis.) -/
def AddImpl (f : Flash) (aKey : Nat) (aFirst : Bool) (aValue : List Nat) : Flash × OtError :=
  let record := mkRecord aKey aFirst aValue
  let size := record.hdr.GetSize
  let write := fun (g : Flash) =>
    let reg := writeBytes (g.region g.mSwapIndex) g.mSwapUsed (recBytes record)
    let reg := writeBytes reg g.mSwapUsed (encodeHeader record.hdr.SetAddCompleteFlag)
    ({ g.setRegion g.mSwapIndex reg with mSwapUsed := g.mSwapUsed + size }, OtError.None)
  if usub32 f.mSwapSize size < f.mSwapUsed then
    let f1 := f.Swap
    if usub32 f1.mSwapSize size < f1.mSwapUsed then (f1, OtError.NoBufs)
    else write f1
  else write f

/-- `Flash::Set(aKey, aValue, aValueLength)`: `Add(aKey, true, …)`. -/
def Set (f : Flash) (aKey : Nat) (aValue : List Nat) : Flash × OtError :=
  f.AddImpl aKey true aValue

/-- `Flash::Add(aKey, aValue, aValueLength)` (the public append form): probe
`Get(aKey, 0, nullptr, nullptr)` and pass `first = (probe == OT_ERROR_NOT_FOUND)`. -/
def Add (f : Flash) (aKey : Nat) (aValue : List Nat) : Flash × OtError :=
  let first := (f.Get aKey 0 none none).1 == OtError.NotFound
  f.AddImpl aKey first aValue

/-- The scan loop of `Flash::Delete(aKey, aIndex)`: walk the records, resetting the
per-key index at `First` records; tombstone (clear `Delete`, rewrite the header)
when the index matches or `aIndex == -1`; after tombstoning a chain head
(`aIndex == 0`), promote the record at index 1 to `First` with a further header
write.  The loop threads the region image because it rewrites headers in place. -/
def deleteLoop (used aKey : Nat) (aIndex : Int) :
    Nat → Nat → List Nat × Bool × Int → List Nat × Bool × Int
  | 0, _, st => st
  | fuel + 1, offset, (reg, err, index) =>
    if offset < used then
      let record := decodeHeader (readBytes reg offset 8)
      if record.mKey ≠ aKey ∨ record.IsValid = false then
        deleteLoop used aKey aIndex fuel (offset + record.GetSize) (reg, err, index)
      else
        let index : Int := if record.IsFirst then 0 else index
        let (record, reg, err) :=
          if aIndex = index ∨ aIndex = -1 then
            let record := record.SetDeleted
            (record, writeBytes reg offset (encodeHeader record), true)
          else (record, reg, err)
        let (record, reg) :=
          if index = 1 ∧ aIndex = 0 then
            let record := record.SetFirst
            (record, writeBytes reg offset (encodeHeader record))
          else (record, reg)
        deleteLoop used aKey aIndex fuel (offset + record.GetSize) (reg, err, index + 1)
    else (reg, err, index)

/-- `Flash::Delete(aKey, aIndex)`. -/
def Delete (f : Flash) (aKey : Nat) (aIndex : Int) : Flash × OtError :=
  let (reg, err, _) := deleteLoop f.mSwapUsed aKey aIndex f.mSwapUsed f.mSwapHeaderSize
    (f.region f.mSwapIndex, false, 0)
  (f.setRegion f.mSwapIndex reg, if err then OtError.None else OtError.NotFound)

/-- `Flash::Wipe()`: erase region 0, write an `ACTIVE` swap header at its offset 0,
and reset the in-memory state to region 0 with an empty log. -/
def Wipe (f : Flash) : Flash :=
  let reg0 := writeBytes (List.replicate f.mSwapSize 255) 0 (encodeU32 kActive)
  { f with r0 := reg0, mSwapIndex := 0, mSwapHeaderSize := 4, mSwapUsed := 4 }

/-- The word-check loop of `Flash::SanitizeFreeSpace()`: scan `[offset, swapSize)`
one 32-bit word at a time and report whether any word differs from all-ones. -/
def eraseCheckLoop (reg : List Nat) (swapSize offset : Nat) : Bool :=
  if offset < swapSize then
    if decodeU32 (readBytes reg offset 4) ≠ 4294967295 then true
    else eraseCheckLoop reg swapSize (offset + 4)
  else false
termination_by swapSize - offset
decreasing_by omega

/-- `Flash::SanitizeFreeSpace()`: `Swap` when `mSwapUsed` is not word-aligned
(`mSwapUsed & 3`) or some word in `[mSwapUsed, mSwapSize)` is not erased. -/
def SanitizeFreeSpace (f : Flash) : Flash :=
  let sanitizeNeeded :=
    if (f.mSwapUsed &&& 3) ≠ 0 then true
    else eraseCheckLoop (f.region f.mSwapIndex) f.mSwapSize f.mSwapUsed
  if sanitizeNeeded then f.Swap else f

/-- The frontier scan loop of `Flash::Init()`: starting at `mSwapHeaderSize`,
advance over records whose `AddBegin` and `AddComplete` bits are both cleared; stop
at the first record with either bit still 1, or when fewer than
`sizeof(RecordHeader)` bytes remain (`mSwapUsed <= mSwapSize - sizeof(record)` in
`uint32_t` arithmetic). -/
def initScanLoop (reg : List Nat) (swapSize : Nat) : Nat → Nat → Nat
  | 0, used => used
  | fuel + 1, used =>
    if used ≤ usub32 swapSize 8 then
      let record := decodeHeader (readBytes reg used 8)
      if record.IsAddBeginSet = false then used
      else if record.IsAddCompleteSet = false then used
      else initScanLoop reg swapSize fuel (used + record.GetSize)
    else used

/-- `Flash::Init()`: read the platform swap size, select the active region (region
0 preferred, then region 1, else `Wipe` and return), scan for the write frontier,
and `SanitizeFreeSpace`.  `r0`, `r1` are the flash images found at boot and
`swapSize` is `otPlatFlashGetSwapSize`. -/
def Init (r0 r1 : List Nat) (swapSize : Nat) : Flash :=
  let f0 : Flash := { r0 := r0, r1 := r1, mSwapSize := swapSize, mSwapUsed := 0,
                      mSwapIndex := 0, mSwapHeaderSize := 0 }
  if decodeU32 (readBytes r0 0 4) = kActive then
    let used := initScanLoop r0 swapSize (swapSize + 1) 4
    SanitizeFreeSpace { f0 with mSwapIndex := 0, mSwapHeaderSize := 4, mSwapUsed := used }
  else if decodeU32 (readBytes r1 0 4) = kActive then
    let used := initScanLoop r1 swapSize (swapSize + 1) 4
    SanitizeFreeSpace { f0 with mSwapIndex := 1, mSwapHeaderSize := 4, mSwapUsed := used }
  else
    Wipe f0

/-- The record-list abstraction of a store state: the active region consists of
the 4 swap-header bytes followed by the byte images of `rs` laid back to back up
to `mSwapUsed`, all fields consistent and every record well-formed.  Every state
reachable through the public API from a wiped store satisfies this for some `rs`. -/
def Models (f : Flash) (rs : List Rec) : Prop :=
  f.mSwapHeaderSize = 4 ∧
  (f.mSwapIndex = 0 ∨ f.mSwapIndex = 1) ∧
  (f.region f.mSwapIndex).length = f.mSwapSize ∧
  f.mSwapUsed = 4 + (encodeRecs rs).length ∧
  f.mSwapUsed ≤ f.mSwapSize ∧
  f.mSwapSize < 4294967296 ∧
  readBytes (f.region f.mSwapIndex) 4 (encodeRecs rs).length = encodeRecs rs ∧
  ∀ r ∈ rs, RecWf r

end Flash

/-! ### List-level semantics of the scan loops -/

/-- List-level counterpart of `Flash.getLoop`: the same per-record state update,
reading the record from the list instead of decoding it from flash bytes. -/
def getRecs (aKey : Nat) (aIndex : Int) (copy : Bool) (capacity : Nat) :
    List Rec → Flash.GetSt → Flash.GetSt
  | [], st => st
  | r :: rest, st =>
    if r.hdr.mKey ≠ aKey ∨ r.hdr.IsValid = false then
      getRecs aKey aIndex copy capacity rest st
    else
      let index : Int := if r.hdr.IsFirst then 0 else st.index
      let st' :=
        if index = aIndex then
          { found := true,
            buffer :=
              if copy then
                writeBytes st.buffer 0 (r.body.take (min capacity r.hdr.mLength))
              else st.buffer,
            valueLength := r.hdr.mLength,
            index := index }
        else { st with index := index }
      getRecs aKey aIndex copy capacity rest { st' with index := st'.index + 1 }

theorem readBytes_take_front (reg blk : List Nat) (o L n : Nat)
    (hblk : readBytes reg o L = blk) (hn : n ≤ L) :
    readBytes reg o n = blk.take n := by
  rw [readBytes_shorten reg o L n hn, hblk]

/-- Correspondence between the byte-level `Flash.getLoop` and the list-level
`getRecs` on a region segment that is the byte image of `rs`. -/
theorem getLoop_eq_getRecs (reg : List Nat) (aKey : Nat) (aIndex : Int) (copy : Bool)
    (capacity : Nat) (used : Nat) (rs : List Rec) :
    ∀ (offset fuel : Nat) (st : Flash.GetSt),
      (∀ r ∈ rs, RecWf r) →
      readBytes reg offset (encodeRecs rs).length = encodeRecs rs →
      used = offset + (encodeRecs rs).length →
      rs.length ≤ fuel →
      Flash.getLoop reg used aKey aIndex copy capacity fuel offset st
        = getRecs aKey aIndex copy capacity rs st := by
  induction rs with
  | nil =>
    intro offset fuel st _ _ hused _
    have hnlt : ¬ offset < used := by
      rw [hused, encodeRecs_nil]
      simp
    cases fuel with
    | zero => rfl
    | succ n =>
      simp only [Flash.getLoop, if_neg hnlt]
      rfl
  | cons r rest ih =>
    intro offset fuel st hwf hreg hused hfuel
    have hwfr : RecWf r := hwf r (List.mem_cons_self r rest)
    have hwfrest : ∀ s ∈ rest, RecWf s := fun s hs => hwf s (List.mem_cons_of_mem r hs)
    have hlen256 : r.hdr.mLength ≤ 256 := hwfr.1.2.2.1
    have hrb : (recBytes r).length = r.hdr.GetSize := recBytes_length r hwfr
    have hge : 8 ≤ r.hdr.GetSize := GetSize_ge r.hdr hlen256
    have hbody : r.body.length + 8 = r.hdr.GetSize := hwfr.2.1
    have henc : encodeRecs (r :: rest) = recBytes r ++ encodeRecs rest := encodeRecs_cons r rest
    have henclen : (encodeRecs (r :: rest)).length = r.hdr.GetSize + (encodeRecs rest).length := by
      rw [henc, List.length_append, hrb]
    have hread8 : readBytes reg offset 8 = encodeHeader r.hdr := by
      have h1 : readBytes reg offset 8 = (encodeRecs (r :: rest)).take 8 :=
        readBytes_take_front reg _ offset _ 8 hreg (by omega)
      rw [h1, henc, recBytes, List.append_assoc]
      exact List.take_left' (encodeHeader_length r.hdr)
    have hdec : decodeHeader (readBytes reg offset 8) = r.hdr := by
      rw [hread8]
      exact decodeHeader_encodeHeader r.hdr hwfr.1
    have hlt : offset < used := by
      rw [hused, henclen]
      omega
    have hreg' : readBytes reg (offset + r.hdr.GetSize) (encodeRecs rest).length
        = encodeRecs rest := by
      have h2 := readBytes_within reg (encodeRecs (r :: rest)) offset
        (encodeRecs (r :: rest)).length r.hdr.GetSize (encodeRecs rest).length hreg
        (by rw [henclen])
      rw [h2, henc, ← hrb, List.drop_left' rfl, List.take_length]
    have hused' : used = offset + r.hdr.GetSize + (encodeRecs rest).length := by
      rw [hused, henclen]
      omega
    cases fuel with
    | zero =>
      exfalso
      simp only [List.length_cons] at hfuel
      omega
    | succ n =>
      have hfuel' : rest.length ≤ n := by
        simp only [List.length_cons] at hfuel
        omega
      by_cases hskip : r.hdr.mKey ≠ aKey ∨ r.hdr.IsValid = false
      · simp only [Flash.getLoop, if_pos hlt, hdec, if_pos hskip, getRecs]
        exact ih (offset + r.hdr.GetSize) n st hwfrest hreg' hused' hfuel'
      · have hdata : ∀ m : Nat, m ≤ r.hdr.mLength →
            readBytes reg (offset + 8) m = r.body.take m := by
          intro m hm
          have hmb : m ≤ r.body.length := by
            have := length_le_GetSize_sub r.hdr hlen256
            omega
          have h3 := readBytes_within reg (encodeRecs (r :: rest)) offset
            (encodeRecs (r :: rest)).length 8 m hreg (by rw [henclen]; omega)
          rw [h3, henc, recBytes, List.append_assoc,
            List.drop_left' (encodeHeader_length r.hdr), List.take_append_eq_append_take]
          rw [Nat.sub_eq_zero_of_le hmb, List.take_zero, List.append_nil]
        simp only [Flash.getLoop, if_pos hlt, hdec, if_neg hskip, getRecs]
        rw [hdata (min capacity r.hdr.mLength) (Nat.min_le_right _ _)]
        exact ih (offset + r.hdr.GetSize) n _ hwfrest hreg' hused' hfuel'

/-- `Flash.Get` on a state modelling `rs` computes the list-level `getRecs` scan. -/
theorem Get_eq_getRecs (f : Flash) (rs : List Rec) (hm : f.Models rs) (aKey : Nat)
    (aIndex : Int) (aValue : Option (List Nat)) (aValueLength : Option Nat) :
    f.Get aKey aIndex aValue aValueLength =
      ((if (getRecs aKey aIndex (aValue.isSome && aValueLength.isSome) (aValueLength.getD 0) rs
          { found := false, buffer := aValue.getD [], valueLength := 0, index := 0 }).found
        then OtError.None else OtError.NotFound),
       aValue.map fun _ =>
         (getRecs aKey aIndex (aValue.isSome && aValueLength.isSome) (aValueLength.getD 0) rs
           { found := false, buffer := aValue.getD [], valueLength := 0, index := 0 }).buffer,
       aValueLength.map fun _ =>
         (getRecs aKey aIndex (aValue.isSome && aValueLength.isSome) (aValueLength.getD 0) rs
           { found := false, buffer := aValue.getD [], valueLength := 0, index := 0 }).valueLength) := by
  obtain ⟨hhdr, _, _, hused, _, _, hcontent, hwf⟩ := hm
  have hfuel : rs.length ≤ f.mSwapUsed := by
    have := encodeRecs_length_ge rs hwf
    omega
  have h := getLoop_eq_getRecs (f.region f.mSwapIndex) aKey aIndex
    (aValue.isSome && aValueLength.isSome) (aValueLength.getD 0) f.mSwapUsed rs
    4 f.mSwapUsed
    { found := false, buffer := aValue.getD [], valueLength := 0, index := 0 }
    hwf hcontent hused hfuel
  unfold Flash.Get
  rw [hhdr]
  simp only [h]

/-! ### Claim C10: `Get` with a negative index -/

theorem getLoop_neg_index (reg : List Nat) (used aKey : Nat) (aIndex : Int) (copy : Bool)
    (capacity : Nat) (hneg : aIndex < 0) :
    ∀ (fuel offset : Nat) (st : Flash.GetSt), 0 ≤ st.index →
      (Flash.getLoop reg used aKey aIndex copy capacity fuel offset st).found = st.found ∧
      (Flash.getLoop reg used aKey aIndex copy capacity fuel offset st).buffer = st.buffer ∧
      (Flash.getLoop reg used aKey aIndex copy capacity fuel offset st).valueLength
        = st.valueLength := by
  intro fuel
  induction fuel with
  | zero => intro offset st _; exact ⟨rfl, rfl, rfl⟩
  | succ n ih =>
    intro offset st hst
    simp only [Flash.getLoop]
    by_cases hlt : offset < used
    · rw [if_pos hlt]
      generalize decodeHeader (readBytes reg offset 8) = record
      by_cases hskip : record.mKey ≠ aKey ∨ record.IsValid = false
      · rw [if_pos hskip]
        exact ih _ st hst
      · rw [if_neg hskip]
        have hidx : ¬ ((if record.IsFirst = true then (0 : Int) else st.index) = aIndex) := by
          by_cases hf : record.IsFirst = true

          · rw [if_pos hf]; omega
          · rw [if_neg hf]; omega
        rw [if_neg hidx]
        refine ih _ _ ?_
        show (0 : Int) ≤ (if record.IsFirst = true then (0 : Int) else st.index) + 1
        by_cases hf : record.IsFirst = true
        · rw [if_pos hf]; omega
        · rw [if_neg hf]; omega
    · rw [if_neg hlt]
      exact ⟨rfl, rfl, rfl⟩

/-- Claim C10 (confirmed): for every store state, key and negative index
(including -1), `Get` returns `NotFound`, leaves the caller's buffer untouched and
sets `*aValueLength` to 0 when the pointer is non-null: the internal scan counter
starts at 0 and is only reset to 0 or incremented, so it never equals a negative
requested index (`Get` gives -1 no special meaning, unlike `Delete`). -/
theorem C10_get_negative_index (f : Flash) (aKey : Nat) (aIndex : Int)
    (aValue : Option (List Nat)) (aValueLength : Option Nat) (hneg : aIndex < 0) :
    (f.Get aKey aIndex aValue aValueLength).1 = OtError.NotFound ∧
    (f.Get aKey aIndex aValue aValueLength).2.1 = aValue ∧
    (f.Get aKey aIndex aValue aValueLength).2.2 = aValueLength.map (fun _ => 0) := by
  obtain ⟨h1, h2, h3⟩ := getLoop_neg_index (f.region f.mSwapIndex) f.mSwapUsed aKey aIndex
    (aValue.isSome && aValueLength.isSome) (aValueLength.getD 0) hneg f.mSwapUsed
    f.mSwapHeaderSize
    { found := false, buffer := aValue.getD [], valueLength := 0, index := 0 }
    (by exact Int.le_refl 0)
  unfold Flash.Get
  simp only [h1, h2, h3]
  refine ⟨rfl, ?_, ?_⟩
  · cases aValue <;> trivial
  · cases aValueLength <;> trivial

/-- Witness for `C10_get_negative_index` at a concrete store and index -1. -/
theorem C10_witness :
    ((Flash.mk [1, 2, 3] [] 3 3 0 4).Get 7 (-1) (some [9, 9]) (some 2)).1
        = OtError.NotFound ∧
      ((Flash.mk [1, 2, 3] [] 3 3 0 4).Get 7 (-1) (some [9, 9]) (some 2)).2.1
        = some [9, 9] ∧
      ((Flash.mk [1, 2, 3] [] 3 3 0 4).Get 7 (-1) (some [9, 9]) (some 2)).2.2
        = (some 2).map (fun _ => 0) :=
  C10_get_negative_index (Flash.mk [1, 2, 3] [] 3 3 0 4) 7 (-1) (some [9, 9]) (some 2)
    (by decide)

/-! ### Composition lemmas for the two-phase record write of `Flash::Add` -/

theorem writeBytes_overwrite (reg d1 d2 : List Nat) (o : Nat)
    (ho : o ≤ reg.length) (hd : d2.length ≤ d1.length) :
    writeBytes (writeBytes reg o d1) o d2 = writeBytes reg o (d2 ++ d1.drop d2.length) := by
  unfold writeBytes
  have hA : (reg.take o).length = o := take_length_eq reg o ho
  have htk : ((reg.take o ++ d1) ++ reg.drop (o + d1.length)).take o = reg.take o := by
    rw [List.append_assoc]
    exact List.take_left' hA
  have hdp : ((reg.take o ++ d1) ++ reg.drop (o + d1.length)).drop (o + d2.length)
      = d1.drop d2.length ++ reg.drop (o + d1.length) := by
    rw [List.append_assoc, List.drop_append_eq_append_drop, hA]
    rw [List.drop_eq_nil_of_le (by rw [hA]; omega), List.nil_append]
    have : o + d2.length - o = d2.length := by omega
    rw [this, List.drop_append_eq_append_drop]
    rw [Nat.sub_eq_zero_of_le hd, List.drop_zero]
  rw [htk, hdp]
  have hterm : o + (d2 ++ d1.drop d2.length).length = o + d1.length := by
    rw [List.length_append, List.length_drop]
    omega
  rw [hterm]
  simp [List.append_assoc]

theorem readBytes_adjacent (reg : List Nat) (o a b : Nat) :
    readBytes reg o (a + b) = readBytes reg o a ++ readBytes reg (o + a) b := by
  unfold readBytes
  rw [List.take_add, List.drop_drop]

/-- The record appended by `Flash::Add` after its commit write: the constructed
record with the `AddComplete` flag cleared in the header. -/
def committedRec (aKey : Nat) (aFirst : Bool) (aValue : List Nat) : Rec :=
  let r := Flash.mkRecord aKey aFirst aValue
  { r with hdr := r.hdr.SetAddCompleteFlag }

theorem committedRec_flags (aKey : Nat) (aFirst : Bool) (aValue : List Nat) :
    (committedRec aKey aFirst aValue).hdr.mFlags
      = if aFirst then 0xfff4 else 0xfffc := by
  cases aFirst <;>
    · simp only [committedRec, Flash.mkRecord, RecordHeader.InitHeader,
        RecordHeader.SetAddCompleteFlag, clearBit16]
      decide

theorem committedRec_key (aKey : Nat) (aFirst : Bool) (aValue : List Nat) :
    (committedRec aKey aFirst aValue).hdr.mKey = aKey := rfl

theorem committedRec_mLength (aKey : Nat) (aFirst : Bool) (aValue : List Nat) :
    (committedRec aKey aFirst aValue).hdr.mLength = aValue.length := rfl

theorem committedRec_GetSize (aKey : Nat) (aFirst : Bool) (aValue : List Nat) :
    (committedRec aKey aFirst aValue).hdr.GetSize
      = (Flash.mkRecord aKey aFirst aValue).hdr.GetSize := rfl

theorem committedRec_body (aKey : Nat) (aFirst : Bool) (aValue : List Nat) :
    (committedRec aKey aFirst aValue).body
      = aValue ++ List.replicate
          ((Flash.mkRecord aKey aFirst aValue).hdr.GetSize - 8 - aValue.length) 255 := rfl

theorem mkRecord_GetSize (aKey : Nat) (aFirst : Bool) (aValue : List Nat)
    (hlen : aValue.length ≤ 256) :
    (Flash.mkRecord aKey aFirst aValue).hdr.GetSize = 8 + 4 * ((aValue.length + 3) / 4) := by
  have : (Flash.mkRecord aKey aFirst aValue).hdr.mLength = aValue.length := rfl
  rw [GetSize_eq _ (by rw [this]; exact hlen), this]

theorem committedRec_wf (aKey : Nat) (aFirst : Bool) (aValue : List Nat)
    (hkey : aKey < 65536) (hlen : aValue.length ≤ 256) (hbytes : ∀ b ∈ aValue, b < 256) :
    RecWf (committedRec aKey aFirst aValue) := by
  have hsz := mkRecord_GetSize aKey aFirst aValue hlen
  have hd := Nat.div_add_mod (aValue.length + 3) 4
  have hm : (aValue.length + 3) % 4 < 4 := Nat.mod_lt _ (by omega)
  refine ⟨⟨?_, ?_, ?_, ?_⟩, ?_, ?_⟩
  · exact hkey
  · rw [committedRec_flags]
    cases aFirst <;> simp <;> omega
  · rw [committedRec_mLength]; exact hlen
  · show (0xffff : Nat) < 65536
    omega
  · rw [committedRec_body, committedRec_GetSize, List.length_append, List.length_replicate,
      hsz]
    omega
  · rw [committedRec_body]
    intro b hb
    rcases List.mem_append.mp hb with hb | hb
    · exact hbytes b hb
    · rw [List.eq_of_mem_replicate hb]
      omega

/-! ### Field bookkeeping for `setRegion` -/

theorem setRegion_region_self (f : Flash) (i : Nat) (reg : List Nat) :
    (f.setRegion i reg).region i = reg := by
  unfold Flash.setRegion Flash.region
  by_cases h : i = 0 <;> simp [h]

theorem setRegion_mSwapHeaderSize (f : Flash) (i : Nat) (reg : List Nat) :
    (f.setRegion i reg).mSwapHeaderSize = f.mSwapHeaderSize := by
  unfold Flash.setRegion
  by_cases h : i = 0 <;> simp [h]

theorem setRegion_mSwapIndex (f : Flash) (i : Nat) (reg : List Nat) :
    (f.setRegion i reg).mSwapIndex = f.mSwapIndex := by
  unfold Flash.setRegion
  by_cases h : i = 0 <;> simp [h]

theorem setRegion_mSwapUsed (f : Flash) (i : Nat) (reg : List Nat) :
    (f.setRegion i reg).mSwapUsed = f.mSwapUsed := by
  unfold Flash.setRegion
  by_cases h : i = 0 <;> simp [h]

theorem setRegion_mSwapSize (f : Flash) (i : Nat) (reg : List Nat) :
    (f.setRegion i reg).mSwapSize = f.mSwapSize := by
  unfold Flash.setRegion
  by_cases h : i = 0 <;> simp [h]

/-- The state produced by appending one record `c` at the write frontier of the
active region and advancing `mSwapUsed` (the net effect of the write phase of
`Flash::Add`). -/
def appendState (f : Flash) (c : Rec) : Flash :=
  { f.setRegion f.mSwapIndex (writeBytes (f.region f.mSwapIndex) f.mSwapUsed (recBytes c)) with
    mSwapUsed := f.mSwapUsed + c.hdr.GetSize }

theorem appendState_mSwapIndex (f : Flash) (c : Rec) :
    (appendState f c).mSwapIndex = f.mSwapIndex := by
  show (f.setRegion f.mSwapIndex _).mSwapIndex = f.mSwapIndex
  rw [setRegion_mSwapIndex]

theorem appendState_mSwapUsed (f : Flash) (c : Rec) :
    (appendState f c).mSwapUsed = f.mSwapUsed + c.hdr.GetSize := rfl

theorem appendState_mSwapSize (f : Flash) (c : Rec) :
    (appendState f c).mSwapSize = f.mSwapSize := by
  show (f.setRegion f.mSwapIndex _).mSwapSize = f.mSwapSize
  rw [setRegion_mSwapSize]

theorem appendState_mSwapHeaderSize (f : Flash) (c : Rec) :
    (appendState f c).mSwapHeaderSize = f.mSwapHeaderSize := by
  show (f.setRegion f.mSwapIndex _).mSwapHeaderSize = f.mSwapHeaderSize
  rw [setRegion_mSwapHeaderSize]

theorem appendState_region_active (f : Flash) (c : Rec) :
    (appendState f c).region f.mSwapIndex
      = writeBytes (f.region f.mSwapIndex) f.mSwapUsed (recBytes c) := by
  show (f.setRegion f.mSwapIndex _).region f.mSwapIndex = _
  rw [setRegion_region_self]

/-- Appending a well-formed record that fits preserves the record-list view. -/
theorem appendState_Models (f : Flash) (rs : List Rec) (c : Rec) (hm : f.Models rs)
    (hwfc : RecWf c) (hfit : f.mSwapUsed + c.hdr.GetSize ≤ f.mSwapSize) :
    (appendState f c).Models (rs ++ [c]) := by
  obtain ⟨hhdr, hidx, hrlen, hused, hle, hsz32, hcontent, hwf⟩ := hm
  have hrbc : (recBytes c).length = c.hdr.GetSize := recBytes_length c hwfc
  have husedlen : f.mSwapUsed ≤ (f.region f.mSwapIndex).length := by omega
  have henc : encodeRecs (rs ++ [c]) = encodeRecs rs ++ recBytes c := by
    rw [encodeRecs_append_recs, encodeRecs_cons, encodeRecs_nil, List.append_nil]
  have hreglen : (writeBytes (f.region f.mSwapIndex) f.mSwapUsed (recBytes c)).length
      = (f.region f.mSwapIndex).length :=
    writeBytes_length _ _ _ (by rw [hrbc]; omega)
  refine ⟨?_, ?_, ?_, ?_, ?_, ?_, ?_, ?_⟩
  · rw [appendState_mSwapHeaderSize]; exact hhdr
  · rw [appendState_mSwapIndex]; exact hidx
  · rw [appendState_mSwapIndex, appendState_region_active, appendState_mSwapSize,
      hreglen, hrlen]
  · rw [appendState_mSwapUsed, henc, List.length_append, hrbc]
    omega
  · rw [appendState_mSwapUsed, appendState_mSwapSize]
    exact hfit
  · rw [appendState_mSwapSize]; exact hsz32
  · rw [appendState_mSwapIndex, appendState_region_active, henc, List.length_append,
      readBytes_adjacent]
    congr 1
    · rw [readBytes_writeBytes_before _ _ _ _ _ (by omega) husedlen]
      exact hcontent
    · have h4 : 4 + (encodeRecs rs).length = f.mSwapUsed := by omega
      rw [h4]
      exact readBytes_writeBytes (f.region f.mSwapIndex) (recBytes c) f.mSwapUsed husedlen
  · intro r hr
    rcases List.mem_append.mp hr with hr | hr
    · exact hwf r hr
    · rw [List.mem_singleton.mp hr]
      exact hwfc

/-- Specification of the private `Flash::Add` overload in the fitting case: no
`Swap` happens, the committed record is appended at the frontier by the two-phase
write, `mSwapUsed` advances by `GetSize`, and the call returns `OT_ERROR_NONE`. -/
theorem AddImpl_fits (f : Flash) (rs : List Rec) (aKey : Nat) (aFirst : Bool)
    (aValue : List Nat) (hm : f.Models rs) (hkey : aKey < 65536)
    (hlen : aValue.length ≤ 256) (hbytes : ∀ b ∈ aValue, b < 256)
    (hfit : f.mSwapUsed + (Flash.mkRecord aKey aFirst aValue).hdr.GetSize ≤ f.mSwapSize) :
    f.AddImpl aKey aFirst aValue
      = (appendState f (committedRec aKey aFirst aValue), OtError.None) := by
  obtain ⟨hhdr, hidx, hrlen, hused, hle, hsz32, hcontent, hwf⟩ := hm
  have hwfc := committedRec_wf aKey aFirst aValue hkey hlen hbytes
  have hsize : (Flash.mkRecord aKey aFirst aValue).hdr.GetSize ≤ f.mSwapSize := by omega
  have hcond : ¬ (usub32 f.mSwapSize (Flash.mkRecord aKey aFirst aValue).hdr.GetSize
      < f.mSwapUsed) := by
    rw [usub32_eq _ _ hsize hsz32]
    omega
  have hrbu : (recBytes (Flash.mkRecord aKey aFirst aValue)).length
      = (Flash.mkRecord aKey aFirst aValue).hdr.GetSize := by
    have hsz := mkRecord_GetSize aKey aFirst aValue hlen
    have hd := Nat.div_add_mod (aValue.length + 3) 4
    have hm4 : (aValue.length + 3) % 4 < 4 := Nat.mod_lt _ (by omega)
    have hbody : (Flash.mkRecord aKey aFirst aValue).body
        = aValue ++ List.replicate
            ((Flash.mkRecord aKey aFirst aValue).hdr.GetSize - 8 - aValue.length) 255 := rfl
    unfold recBytes
    rw [List.length_append, encodeHeader_length, hbody, List.length_append,
      List.length_replicate]
    omega
  have hge8 : 8 ≤ (Flash.mkRecord aKey aFirst aValue).hdr.GetSize := by
    rw [mkRecord_GetSize aKey aFirst aValue hlen]
    omega
  have husedlen : f.mSwapUsed ≤ (f.region f.mSwapIndex).length := by omega
  have hcompose :
      writeBytes (writeBytes (f.region f.mSwapIndex) f.mSwapUsed
          (recBytes (Flash.mkRecord aKey aFirst aValue))) f.mSwapUsed
          (encodeHeader (Flash.mkRecord aKey aFirst aValue).hdr.SetAddCompleteFlag)
        = writeBytes (f.region f.mSwapIndex) f.mSwapUsed
            (recBytes (committedRec aKey aFirst aValue)) := by
    rw [writeBytes_overwrite _ _ _ _ husedlen
      (by rw [encodeHeader_length, hrbu]; exact hge8)]
    congr 1
  unfold Flash.AddImpl
  rw [if_neg hcond]
  simp only [hcompose]
  rfl

/-! ### Decidability of the well-formedness predicates (for concrete witnesses) -/

instance (h : RecordHeader) : Decidable (hdrWf h) := by
  unfold hdrWf
  infer_instance

instance (r : Rec) : Decidable (RecWf r) := by
  unfold RecWf
  infer_instance

instance (f : Flash) (rs : List Rec) : Decidable (f.Models rs) := by
  unfold Flash.Models
  infer_instance

/-! ### Scan lemmas on the record-list level -/

theorem getRecs_append (aKey : Nat) (aIndex : Int) (copy : Bool) (capacity : Nat)
    (rs ss : List Rec) (st : Flash.GetSt) :
    getRecs aKey aIndex copy capacity (rs ++ ss) st
      = getRecs aKey aIndex copy capacity ss (getRecs aKey aIndex copy capacity rs st) := by
  induction rs generalizing st with
  | nil => rfl
  | cons r rest ih =>
    by_cases hskip : r.hdr.mKey ≠ aKey ∨ r.hdr.IsValid = false
    · simp only [List.cons_append, getRecs, if_pos hskip]
      exact ih _
    · simp only [List.cons_append, getRecs, if_neg hskip]
      exact ih _

theorem committedRec_IsValid (aKey : Nat) (aFirst : Bool) (aValue : List Nat) :
    (committedRec aKey aFirst aValue).hdr.IsValid = true := by
  unfold RecordHeader.IsValid
  rw [committedRec_flags]
  cases aFirst <;> decide

theorem committedRec_IsFirst (aKey : Nat) (aValue : List Nat) :
    (committedRec aKey true aValue).hdr.IsFirst = true := by
  unfold RecordHeader.IsFirst
  rw [committedRec_flags]
  decide

theorem writeBytes_zero_take (b d : List Nat) : (writeBytes b 0 d).take d.length = d := by
  unfold writeBytes
  rw [List.take_zero, List.nil_append]
  exact List.take_left d _

/-- Claim C1 (confirmed): for every key `K` and byte sequence `V` with `|V| ≤ 256`,
on a store with enough free space, `Set(K, V)` followed by `Get(K, 0)` (into a
buffer of capacity at least `|V|`) returns `OT_ERROR_NONE`, copies out exactly the
bytes of `V`, and reports the value length as `|V|`. -/
theorem C1_round_trip (f : Flash) (rs : List Rec) (aKey : Nat) (aValue buf : List Nat)
    (cap : Nat) (hm : f.Models rs) (hkey : aKey < 65536) (hlen : aValue.length ≤ 256)
    (hbytes : ∀ b ∈ aValue, b < 256)
    (hspace : f.mSwapUsed + (Flash.mkRecord aKey true aValue).hdr.GetSize ≤ f.mSwapSize)
    (hcap : aValue.length ≤ cap) :
    (f.Set aKey aValue).2 = OtError.None ∧
    ((f.Set aKey aValue).1.Get aKey 0 (some buf) (some cap)).1 = OtError.None ∧
    (((f.Set aKey aValue).1.Get aKey 0 (some buf) (some cap)).2.1.getD []).take aValue.length
      = aValue ∧
    ((f.Set aKey aValue).1.Get aKey 0 (some buf) (some cap)).2.2 = some aValue.length := by
  have hstep : f.Set aKey aValue
      = (appendState f (committedRec aKey true aValue), OtError.None) :=
    AddImpl_fits f rs aKey true aValue hm hkey hlen hbytes hspace
  rw [hstep]
  have hwfc := committedRec_wf aKey true aValue hkey hlen hbytes
  have hm' : (appendState f (committedRec aKey true aValue)).Models
      (rs ++ [committedRec aKey true aValue]) :=
    appendState_Models f rs (committedRec aKey true aValue) hm hwfc
      (by rw [committedRec_GetSize]; exact hspace)
  have hget := Get_eq_getRecs (appendState f (committedRec aKey true aValue))
    (rs ++ [committedRec aKey true aValue]) hm' aKey 0 (some buf) (some cap)
  rw [hget]
  simp only [getRecs_append]
  have hskip : ¬ ((committedRec aKey true aValue).hdr.mKey ≠ aKey
      ∨ (committedRec aKey true aValue).hdr.IsValid = false) := by
    rw [committedRec_key, committedRec_IsValid]
    simp
  simp only [getRecs, if_neg hskip, committedRec_IsFirst, if_pos rfl, Option.isSome_some,
    Bool.and_self, Option.getD_some, if_true]
  refine ⟨by trivial, by trivial, ?_, by rfl⟩
  simp only [Option.map_some', Option.getD_some]
  rw [committedRec_mLength, Nat.min_eq_right hcap]
  have hbodytake : (committedRec aKey true aValue).body.take aValue.length = aValue := by
    rw [committedRec_body]
    exact List.take_left aValue _
  rw [hbodytake]
  exact writeBytes_zero_take _ aValue

/-- Witness for `C1_round_trip`: `Set(1, [0xAA, 0xBB])` then `Get(1, 0)` on a
freshly wiped 64-byte store (the spec's scenario S1). -/
theorem C1_witness :
    ((Flash.Wipe (Flash.mk [] [] 64 0 0 0)).Set 1 [170, 187]).2 = OtError.None ∧
    (((Flash.Wipe (Flash.mk [] [] 64 0 0 0)).Set 1 [170, 187]).1.Get 1 0
        (some (List.replicate 8 0)) (some 8)).1 = OtError.None ∧
    ((((Flash.Wipe (Flash.mk [] [] 64 0 0 0)).Set 1 [170, 187]).1.Get 1 0
        (some (List.replicate 8 0)) (some 8)).2.1.getD []).take (List.length [170, 187])
      = [170, 187] ∧
    (((Flash.Wipe (Flash.mk [] [] 64 0 0 0)).Set 1 [170, 187]).1.Get 1 0
        (some (List.replicate 8 0)) (some 8)).2.2 = some (List.length [170, 187]) :=
  C1_round_trip (Flash.Wipe (Flash.mk [] [] 64 0 0 0)) [] 1 [170, 187]
    (List.replicate 8 0) 8 (by decide) (by decide) (by decide) (by decide) (by decide)
    (by decide)

/-! ### Single-record scan steps, used to evaluate chains symbolically -/

theorem committedRec_notFirst (aKey : Nat) (aValue : List Nat) :
    (committedRec aKey false aValue).hdr.IsFirst = false := by
  unfold RecordHeader.IsFirst
  rw [committedRec_flags]
  decide

theorem getRecs_one_hit (aKey : Nat) (aIndex : Int) (copy : Bool) (capacity : Nat)
    (r : Rec) (st : Flash.GetSt) (hkey : r.hdr.mKey = aKey) (hval : r.hdr.IsValid = true)
    (hidx : (if r.hdr.IsFirst = true then (0 : Int) else st.index) = aIndex) :
    getRecs aKey aIndex copy capacity [r] st
      = { found := true,
          buffer := if copy then writeBytes st.buffer 0 (r.body.take (min capacity r.hdr.mLength))
            else st.buffer,
          valueLength := r.hdr.mLength,
          index := aIndex + 1 } := by
  have hns : ¬ (r.hdr.mKey ≠ aKey ∨ r.hdr.IsValid = false) := by
    rw [hkey, hval]
    simp
  simp only [getRecs, if_neg hns, hidx, eq_self_iff_true, if_true]

theorem getRecs_one_miss (aKey : Nat) (aIndex : Int) (copy : Bool) (capacity : Nat)
    (r : Rec) (st : Flash.GetSt) (hkey : r.hdr.mKey = aKey) (hval : r.hdr.IsValid = true)
    (hidx : (if r.hdr.IsFirst = true then (0 : Int) else st.index) ≠ aIndex) :
    getRecs aKey aIndex copy capacity [r] st
      = { st with index := (if r.hdr.IsFirst = true then (0 : Int) else st.index) + 1 } := by
  have hns : ¬ (r.hdr.mKey ≠ aKey ∨ r.hdr.IsValid = false) := by
    rw [hkey, hval]
    simp
  simp only [getRecs, if_neg hns, if_neg hidx]

theorem getRecs_no_match (aKey : Nat) (aIndex : Int) (copy : Bool) (capacity : Nat)
    (rs : List Rec) (st : Flash.GetSt)
    (h : ∀ r ∈ rs, r.hdr.mKey ≠ aKey ∨ r.hdr.IsValid = false) :
    getRecs aKey aIndex copy capacity rs st = st := by
  induction rs with
  | nil => rfl
  | cons r rest ih =>
    simp only [getRecs, if_pos (h r (List.mem_cons_self r rest))]
    exact ih fun s hs => h s (List.mem_cons_of_mem r hs)

/-! ### Claim C2: Set shadows the previous chain -/

/-- Claim C2 (counterexample): from an empty store, after
`Add(7,[10]); Add(7,[11]); Set(7,[12])` and before any compaction, `Get(7, 1)` does
not return `NotFound`: the shadowed chain is still reachable at index 1 because
`Get` never resets its error/hit state when the per-key counter restarts at a
`First` record. -/
theorem C2_counterexample :
    ¬ (((((((Flash.Wipe (Flash.mk [] [] 64 0 0 0)).Add 7 [10]).1.Add 7 [11]).1.Set
        7 [12]).1.Get 7 1 none none).1) = OtError.NotFound) := by
  decide

/-- Claim C2 (amended): starting from an empty store, after
`Add(K,A); Add(K,B); Set(K,C)` (and before any compaction), `Get(K,0)` returns `C`,
and `Get(K,1)` returns Found with value `B` (not NotFound): the old chain is merely
shadowed, so its second entry remains visible at index 1 until compaction drops it. -/
theorem C2_set_shadows (f : Flash) (aKey : Nat) (A B C buf1 buf2 : List Nat) (cap : Nat)
    (hm : f.Models []) (hkey : aKey < 65536)
    (hA : A.length ≤ 256) (hAb : ∀ b ∈ A, b < 256)
    (hB : B.length ≤ 256) (hBb : ∀ b ∈ B, b < 256)
    (hC : C.length ≤ 256) (hCb : ∀ b ∈ C, b < 256)
    (hcapB : B.length ≤ cap) (hcapC : C.length ≤ cap)
    (hspace : f.mSwapUsed + (Flash.mkRecord aKey true A).hdr.GetSize
        + (Flash.mkRecord aKey false B).hdr.GetSize
        + (Flash.mkRecord aKey true C).hdr.GetSize ≤ f.mSwapSize) :
    ((((f.Add aKey A).1.Add aKey B).1.Set aKey C).1.Get aKey 0 (some buf1) (some cap)).1
      = OtError.None ∧
    (((((f.Add aKey A).1.Add aKey B).1.Set aKey C).1.Get aKey 0 (some buf1)
        (some cap)).2.1.getD []).take C.length = C ∧
    ((((f.Add aKey A).1.Add aKey B).1.Set aKey C).1.Get aKey 0 (some buf1) (some cap)).2.2
      = some C.length ∧
    ((((f.Add aKey A).1.Add aKey B).1.Set aKey C).1.Get aKey 1 (some buf2) (some cap)).1
      = OtError.None ∧
    (((((f.Add aKey A).1.Add aKey B).1.Set aKey C).1.Get aKey 1 (some buf2)
        (some cap)).2.1.getD []).take B.length = B ∧
    ((((f.Add aKey A).1.Add aKey B).1.Set aKey C).1.Get aKey 1 (some buf2) (some cap)).2.2
      = some B.length := by
  -- first Add: the probe misses on the empty store, so the record is First-marked
  have hprobe1 : (f.Get aKey 0 none none).1 = OtError.NotFound := by
    rw [Get_eq_getRecs f [] hm aKey 0 none none]
    rfl
  have hadd1 : f.Add aKey A = (appendState f (committedRec aKey true A), OtError.None) := by
    unfold Flash.Add
    rw [hprobe1]
    exact AddImpl_fits f [] aKey true A hm hkey hA hAb (by omega)
  set r1 := committedRec aKey true A with hr1
  have hm1 : (appendState f r1).Models ([] ++ [r1]) :=
    appendState_Models f [] r1 hm (committedRec_wf aKey true A hkey hA hAb)
      (by rw [hr1, committedRec_GetSize]; omega)
  rw [List.nil_append] at hm1
  have hused1 : (appendState f r1).mSwapUsed
      = f.mSwapUsed + (Flash.mkRecord aKey true A).hdr.GetSize := by
    rw [appendState_mSwapUsed, hr1, committedRec_GetSize]
  have hsize1 : (appendState f r1).mSwapSize = f.mSwapSize := appendState_mSwapSize f r1
  -- second Add: the probe now finds the First record, so the record is not First
  have hprobe2 : ((appendState f r1).Get aKey 0 none none).1 = OtError.None := by
    rw [Get_eq_getRecs _ [r1] hm1 aKey 0 none none]
    simp only [Option.isSome_some, Option.isSome_none, Bool.and_self, Option.getD_some,
      Option.getD_none]
    rw [getRecs_one_hit aKey 0 false 0 r1 _ (committedRec_key aKey true A)
      (committedRec_IsValid aKey true A) (by rw [hr1, committedRec_IsFirst]; rfl)]
    rfl
  have hadd2 : (appendState f r1).Add aKey B
      = (appendState (appendState f r1) (committedRec aKey false B), OtError.None) := by
    unfold Flash.Add
    rw [hprobe2]
    exact AddImpl_fits (appendState f r1) [r1] aKey false B hm1 hkey hB hBb
      (by rw [hused1, hsize1]; omega)
  set r2 := committedRec aKey false B with hr2
  set f2 := appendState (appendState f r1) r2 with hf2
  have hm2 : f2.Models [r1, r2] := by
    have := appendState_Models (appendState f r1) [r1] r2 hm1
      (committedRec_wf aKey false B hkey hB hBb)
      (by rw [hr2, committedRec_GetSize, hused1, hsize1]; omega)
    exact this
  have hused2 : f2.mSwapUsed = f.mSwapUsed + (Flash.mkRecord aKey true A).hdr.GetSize
      + (Flash.mkRecord aKey false B).hdr.GetSize := by
    rw [hf2, appendState_mSwapUsed, hused1, hr2, committedRec_GetSize]
  have hsize2 : f2.mSwapSize = f.mSwapSize := by
    rw [hf2, appendState_mSwapSize, hsize1]
  -- the Set appends a First-marked record
  have hset : f2.Set aKey C = (appendState f2 (committedRec aKey true C), OtError.None) :=
    AddImpl_fits f2 [r1, r2] aKey true C hm2 hkey hC hCb (by rw [hused2, hsize2]; omega)
  set r3 := committedRec aKey true C with hr3
  set f3 := appendState f2 r3 with hf3
  have hm3 : f3.Models [r1, r2, r3] := by
    have := appendState_Models f2 [r1, r2] r3 hm2 (committedRec_wf aKey true C hkey hC hCb)
      (by rw [hr3, committedRec_GetSize, hused2, hsize2]; omega)
    exact this
  have hchain : ([r1, r2, r3] : List Rec) = [r1] ++ [r2] ++ [r3] := rfl
  rw [hadd1, hadd2, hset]
  -- the index-0 scan: hit at r1, miss at r2, overwriting hit at r3
  have eA1 : getRecs aKey 0 true cap [r1] ⟨false, buf1, 0, 0⟩
      = ⟨true, writeBytes buf1 0 (r1.body.take (min cap r1.hdr.mLength)), r1.hdr.mLength, 1⟩ := by
    rw [getRecs_one_hit aKey 0 true cap r1 ⟨false, buf1, 0, 0⟩
      (by rw [hr1]; exact committedRec_key aKey true A)
      (by rw [hr1]; exact committedRec_IsValid aKey true A)
      (by rw [hr1, committedRec_IsFirst]; rfl)]
    exact rfl
  have eA2 : getRecs aKey 0 true cap [r2]
        ⟨true, writeBytes buf1 0 (r1.body.take (min cap r1.hdr.mLength)), r1.hdr.mLength, 1⟩
      = ⟨true, writeBytes buf1 0 (r1.body.take (min cap r1.hdr.mLength)), r1.hdr.mLength, 2⟩ := by
    rw [getRecs_one_miss aKey 0 true cap r2
        ⟨true, writeBytes buf1 0 (r1.body.take (min cap r1.hdr.mLength)), r1.hdr.mLength, 1⟩
      (by rw [hr2]; exact committedRec_key aKey false B)
      (by rw [hr2]; exact committedRec_IsValid aKey false B)
      (by rw [hr2, committedRec_notFirst]; simp)]
    rw [hr2, committedRec_notFirst]
    exact rfl
  have eA3 : getRecs aKey 0 true cap [r3]
        ⟨true, writeBytes buf1 0 (r1.body.take (min cap r1.hdr.mLength)), r1.hdr.mLength, 2⟩
      = ⟨true, writeBytes (writeBytes buf1 0 (r1.body.take (min cap r1.hdr.mLength))) 0
          (r3.body.take (min cap r3.hdr.mLength)), r3.hdr.mLength, 1⟩ := by
    rw [getRecs_one_hit aKey 0 true cap r3
        ⟨true, writeBytes buf1 0 (r1.body.take (min cap r1.hdr.mLength)), r1.hdr.mLength, 2⟩
      (by rw [hr3]; exact committedRec_key aKey true C)
      (by rw [hr3]; exact committedRec_IsValid aKey true C)
      (by rw [hr3, committedRec_IsFirst]; rfl)]
    exact rfl
  -- the index-1 scan: reset-miss at r1, hit at r2, reset-miss at r3
  have eB1 : getRecs aKey 1 true cap [r1] ⟨false, buf2, 0, 0⟩
      = ⟨false, buf2, 0, 1⟩ := by
    rw [getRecs_one_miss aKey 1 true cap r1 ⟨false, buf2, 0, 0⟩
      (by rw [hr1]; exact committedRec_key aKey true A)
      (by rw [hr1]; exact committedRec_IsValid aKey true A)
      (by rw [hr1, committedRec_IsFirst]; simp)]
    rw [hr1, committedRec_IsFirst]
    exact rfl
  have eB2 : getRecs aKey 1 true cap [r2] ⟨false, buf2, 0, 1⟩
      = ⟨true, writeBytes buf2 0 (r2.body.take (min cap r2.hdr.mLength)), r2.hdr.mLength, 2⟩ := by
    rw [getRecs_one_hit aKey 1 true cap r2 ⟨false, buf2, 0, 1⟩
      (by rw [hr2]; exact committedRec_key aKey false B)
      (by rw [hr2]; exact committedRec_IsValid aKey false B)
      (by rw [hr2, committedRec_notFirst]; rfl)]
    exact rfl
  have eB3 : getRecs aKey 1 true cap [r3]
        ⟨true, writeBytes buf2 0 (r2.body.take (min cap r2.hdr.mLength)), r2.hdr.mLength, 2⟩
      = ⟨true, writeBytes buf2 0 (r2.body.take (min cap r2.hdr.mLength)), r2.hdr.mLength, 1⟩ := by
    rw [getRecs_one_miss aKey 1 true cap r3
        ⟨true, writeBytes buf2 0 (r2.body.take (min cap r2.hdr.mLength)), r2.hdr.mLength, 2⟩
      (by rw [hr3]; exact committedRec_key aKey true C)
      (by rw [hr3]; exact committedRec_IsValid aKey true C)
      (by rw [hr3, committedRec_IsFirst]; simp)]
    rw [hr3, committedRec_IsFirst]
    exact rfl
  have hbodyC : r3.body.take C.length = C := by
    rw [hr3, committedRec_body]
    exact List.take_left C _
  have hbodyB : r2.body.take B.length = B := by
    rw [hr2, committedRec_body]
    exact List.take_left B _
  have hlenC : r3.hdr.mLength = C.length := by rw [hr3]; exact committedRec_mLength aKey true C
  have hlenB : r2.hdr.mLength = B.length := by rw [hr2]; exact committedRec_mLength aKey false B
  refine ⟨?_, ?_, ?_, ?_, ?_, ?_⟩
  · rw [Get_eq_getRecs f3 [r1, r2, r3] hm3 aKey 0 (some buf1) (some cap), hchain]
    simp only [Option.isSome_some, Bool.and_self, Option.getD_some]
    rw [getRecs_append, getRecs_append, eA1, eA2, eA3]
    rfl
  · rw [Get_eq_getRecs f3 [r1, r2, r3] hm3 aKey 0 (some buf1) (some cap), hchain]
    simp only [Option.isSome_some, Bool.and_self, Option.getD_some]
    rw [getRecs_append, getRecs_append, eA1, eA2, eA3]
    simp only [Option.map_some', Option.getD_some]
    show (writeBytes _ 0 (r3.body.take (min cap r3.hdr.mLength))).take C.length = C
    rw [hlenC, Nat.min_eq_right hcapC, hbodyC]
    exact writeBytes_zero_take _ C
  · rw [Get_eq_getRecs f3 [r1, r2, r3] hm3 aKey 0 (some buf1) (some cap), hchain]
    simp only [Option.isSome_some, Bool.and_self, Option.getD_some]
    rw [getRecs_append, getRecs_append, eA1, eA2, eA3]
    show some r3.hdr.mLength = some C.length
    rw [hlenC]
  · rw [Get_eq_getRecs f3 [r1, r2, r3] hm3 aKey 1 (some buf2) (some cap), hchain]
    simp only [Option.isSome_some, Bool.and_self, Option.getD_some]
    rw [getRecs_append, getRecs_append, eB1, eB2, eB3]
    rfl
  · rw [Get_eq_getRecs f3 [r1, r2, r3] hm3 aKey 1 (some buf2) (some cap), hchain]
    simp only [Option.isSome_some, Bool.and_self, Option.getD_some]
    rw [getRecs_append, getRecs_append, eB1, eB2, eB3]
    simp only [Option.map_some', Option.getD_some]
    show (writeBytes buf2 0 (r2.body.take (min cap r2.hdr.mLength))).take B.length = B
    rw [hlenB, Nat.min_eq_right hcapB, hbodyB]
    exact writeBytes_zero_take _ B
  · rw [Get_eq_getRecs f3 [r1, r2, r3] hm3 aKey 1 (some buf2) (some cap), hchain]
    simp only [Option.isSome_some, Bool.and_self, Option.getD_some]
    rw [getRecs_append, getRecs_append, eB1, eB2, eB3]
    show some r2.hdr.mLength = some B.length
    rw [hlenB]

/-- Witness for `C2_set_shadows`: the spec's S3 scenario with keys and values made
concrete on a wiped 64-byte store. -/
theorem C2_set_shadows_witness :
    (((((Flash.Wipe (Flash.mk [] [] 64 0 0 0)).Add 7 [10]).1.Add 7 [11]).1.Set 7 [12]).1.Get
        7 0 (some [0, 0, 0, 0]) (some 4)).1 = OtError.None ∧
    ((((((Flash.Wipe (Flash.mk [] [] 64 0 0 0)).Add 7 [10]).1.Add 7 [11]).1.Set 7 [12]).1.Get
        7 0 (some [0, 0, 0, 0]) (some 4)).2.1.getD []).take 1 = [12] ∧
    (((((Flash.Wipe (Flash.mk [] [] 64 0 0 0)).Add 7 [10]).1.Add 7 [11]).1.Set 7 [12]).1.Get
        7 0 (some [0, 0, 0, 0]) (some 4)).2.2 = some 1 ∧
    (((((Flash.Wipe (Flash.mk [] [] 64 0 0 0)).Add 7 [10]).1.Add 7 [11]).1.Set 7 [12]).1.Get
        7 1 (some [9, 9, 9, 9]) (some 4)).1 = OtError.None ∧
    ((((((Flash.Wipe (Flash.mk [] [] 64 0 0 0)).Add 7 [10]).1.Add 7 [11]).1.Set 7 [12]).1.Get
        7 1 (some [9, 9, 9, 9]) (some 4)).2.1.getD []).take 1 = [11] ∧
    (((((Flash.Wipe (Flash.mk [] [] 64 0 0 0)).Add 7 [10]).1.Add 7 [11]).1.Set 7 [12]).1.Get
        7 1 (some [9, 9, 9, 9]) (some 4)).2.2 = some 1 :=
  C2_set_shadows (Flash.Wipe (Flash.mk [] [] 64 0 0 0)) 7 [10] [11] [12]
    [0, 0, 0, 0] [9, 9, 9, 9] 4 (by decide) (by decide) (by decide) (by decide)
    (by decide) (by decide) (by decide) (by decide) (by decide) (by decide) (by decide)

/-! ### Claim C4: append ordering -/

/-- Size in bytes of the record written for value `v` (independent of the `First`
flag): `8 + ceil(|v|/4)*4`. -/
def recSize (v : List Nat) : Nat := 8 + 4 * ((v.length + 3) / 4)

theorem mkRecord_GetSize_recSize (aKey : Nat) (aFirst : Bool) (v : List Nat)
    (hlen : v.length ≤ 256) : (Flash.mkRecord aKey aFirst v).hdr.GetSize = recSize v :=
  mkRecord_GetSize aKey aFirst v hlen

/-- The records laid down by `Add(K,V0); …; Add(K,Vn)` on a store holding no valid
record for `K`: the first is `First`-marked, the rest are not. -/
def chainRecs (aKey : Nat) : List (List Nat) → List Rec
  | [] => []
  | v :: rest => committedRec aKey true v :: rest.map (fun w => committedRec aKey false w)

/-- Folding the public `Add` over a list of values. -/
def addChain (f : Flash) (aKey : Nat) (vs : List (List Nat)) : Flash :=
  vs.foldl (fun g v => (g.Add aKey v).1) f

theorem getRecs_found_mono (aKey : Nat) (aIndex : Int) (copy : Bool) (cap : Nat) :
    ∀ (rs : List Rec) (st : Flash.GetSt), st.found = true →
      (getRecs aKey aIndex copy cap rs st).found = true := by
  intro rs
  induction rs with
  | nil => intro st h; exact h
  | cons r rest ih =>
    intro st h
    by_cases hskip : r.hdr.mKey ≠ aKey ∨ r.hdr.IsValid = false
    · simp only [getRecs, if_pos hskip]
      exact ih st h
    · simp only [getRecs, if_neg hskip]
      by_cases hidx : (if r.hdr.IsFirst = true then (0 : Int) else st.index) = aIndex
      · rw [if_pos hidx]
        exact ih _ rfl
      · rw [if_neg hidx]
        exact ih _ h

theorem getRecs_zero_found (aKey : Nat) (copy : Bool) (cap : Nat) (pre post : List Rec)
    (r : Rec) (st : Flash.GetSt) (hkey : r.hdr.mKey = aKey) (hval : r.hdr.IsValid = true)
    (hfirst : r.hdr.IsFirst = true) :
    (getRecs aKey 0 copy cap (pre ++ r :: post) st).found = true := by
  rw [getRecs_append]
  have hns : ¬ (r.hdr.mKey ≠ aKey ∨ r.hdr.IsValid = false) := by
    rw [hkey, hval]
    simp
  simp only [getRecs, if_neg hns, hfirst, eq_self_iff_true, if_true]
  exact getRecs_found_mono aKey 0 copy cap post _ rfl

theorem committedRec_body_take (aKey : Nat) (aFirst : Bool) (v : List Nat) (m : Nat)
    (hm : m ≤ v.length) : (committedRec aKey aFirst v).body.take m = v.take m := by
  rw [committedRec_body, List.take_append_eq_append_take, Nat.sub_eq_zero_of_le hm,
    List.take_zero, List.append_nil]

/-- One scan step over a non-`First` record of the key. -/
theorem getRecs_cons_notFirst (aKey : Nat) (aIndex : Int) (copy : Bool) (cap : Nat)
    (v : List Nat) (ws : List Rec) (st : Flash.GetSt) :
    getRecs aKey aIndex copy cap (committedRec aKey false v :: ws) st
      = getRecs aKey aIndex copy cap ws
          (if st.index = aIndex then
            { found := true,
              buffer := if copy then writeBytes st.buffer 0
                ((committedRec aKey false v).body.take (min cap v.length)) else st.buffer,
              valueLength := v.length,
              index := st.index + 1 }
           else { st with index := st.index + 1 }) := by
  have hns : ¬ ((committedRec aKey false v).hdr.mKey ≠ aKey
      ∨ (committedRec aKey false v).hdr.IsValid = false) := by
    rw [committedRec_key, committedRec_IsValid]
    simp
  simp only [getRecs, if_neg hns, committedRec_notFirst, Bool.false_eq_true, if_false,
    committedRec_mLength]
  by_cases hidx : st.index = aIndex
  · rw [if_pos hidx, if_pos hidx]
  · rw [if_neg hidx, if_neg hidx]

theorem chain_tail_miss (aKey : Nat) (aIndex : Int) (copy : Bool) (cap : Nat) :
    ∀ (ws : List (List Nat)) (st : Flash.GetSt),
      (aIndex < st.index ∨ st.index + (ws.length : Int) ≤ aIndex) →
      getRecs aKey aIndex copy cap (ws.map (fun w => committedRec aKey false w)) st
        = { st with index := st.index + (ws.length : Int) } := by
  intro ws
  induction ws with
  | nil =>
    intro st _
    cases st
    simp [getRecs]
  | cons v rest ih =>
    intro st h
    obtain ⟨fd, bf, vl, ix⟩ := st
    simp only [List.length_cons] at h
    rw [List.map_cons, getRecs_cons_notFirst]
    dsimp only
    have hidx : ¬ ix = aIndex := by
      push_cast at h
      omega
    rw [if_neg hidx]
    rw [ih ⟨fd, bf, vl, ix + 1⟩ (by
      dsimp only
      push_cast at h ⊢
      omega)]
    dsimp only
    congr 1
    simp only [List.length_cons]
    push_cast
    omega

theorem chain_tail_hit (aKey : Nat) (aIndex : Int) (copy : Bool) (cap : Nat) :
    ∀ (ws : List (List Nat)) (t : Nat) (st : Flash.GetSt),
      t < ws.length → aIndex = st.index + (t : Int) →
      getRecs aKey aIndex copy cap (ws.map (fun w => committedRec aKey false w)) st
        = { found := true,
            buffer := if copy then writeBytes st.buffer 0
              ((committedRec aKey false (ws.getD t [])).body.take
                (min cap (ws.getD t []).length))
              else st.buffer,
            valueLength := (ws.getD t []).length,
            index := st.index + (ws.length : Int) } := by
  intro ws
  induction ws with
  | nil =>
    intro t st ht _
    exact absurd ht (by simp)
  | cons v rest ih =>
    intro t st ht hidx
    obtain ⟨fd, bf, vl, ix⟩ := st
    dsimp only at hidx
    rw [List.map_cons, getRecs_cons_notFirst]
    dsimp only
    cases t with
    | zero =>
      have h0 : ix = aIndex := by
        push_cast at hidx
        omega
      rw [if_pos h0]
      rw [chain_tail_miss aKey aIndex copy cap rest ⟨true, _, v.length, ix + 1⟩ (by
        dsimp only
        left
        omega)]
      dsimp only
      simp only [List.getD_cons_zero, List.length_cons]
      congr 1
      push_cast
      omega
    | succ tp =>
      have h0 : ¬ ix = aIndex := by
        push_cast at hidx
        omega
      rw [if_neg h0]
      rw [ih tp ⟨fd, bf, vl, ix + 1⟩ (by
          simp only [List.length_cons] at ht
          omega)
        (by
          dsimp only
          push_cast at hidx ⊢
          omega)]
      dsimp only
      simp only [List.getD_cons_succ, List.length_cons]
      congr 1
      push_cast
      omega

/-- Appending further values with the public `Add` onto a store that already holds
a `First`-marked valid record for the key: every probe finds it, so every new
record is non-`First`. -/
theorem addChain_extend (aKey : Nat) (hkey : aKey < 65536) (r0 : Rec)
    (hk : r0.hdr.mKey = aKey) (hv : r0.hdr.IsValid = true) (hf : r0.hdr.IsFirst = true) :
    ∀ (vrest : List (List Nat)) (f : Flash) (pre mid : List Rec),
      f.Models (pre ++ r0 :: mid) →
      (∀ v ∈ vrest, v.length ≤ 256) → (∀ v ∈ vrest, ∀ b ∈ v, b < 256) →
      f.mSwapUsed + (vrest.map recSize).sum ≤ f.mSwapSize →
      (addChain f aKey vrest).Models
        (pre ++ r0 :: (mid ++ vrest.map (fun w => committedRec aKey false w))) := by
  intro vrest
  induction vrest with
  | nil =>
    intro f pre mid hm _ _ _
    simpa [addChain] using hm
  | cons v rest ih =>
    intro f pre mid hm hlen hbytes hspace
    have hlenv : v.length ≤ 256 := hlen v (by simp)
    have hbytesv : ∀ b ∈ v, b < 256 := hbytes v (by simp)
    have hprobe : (f.Get aKey 0 none none).1 = OtError.None := by
      rw [Get_eq_getRecs f _ hm aKey 0 none none]
      simp only [Option.isSome_none, Bool.and_self, Option.getD_none]
      rw [getRecs_zero_found aKey false 0 pre mid r0 _ hk hv hf]
      rfl
    have hfit : f.mSwapUsed + (Flash.mkRecord aKey false v).hdr.GetSize ≤ f.mSwapSize := by
      rw [mkRecord_GetSize_recSize aKey false v hlenv]
      simp only [List.map_cons, List.sum_cons] at hspace
      omega
    have hadd : f.Add aKey v = (appendState f (committedRec aKey false v), OtError.None) := by
      unfold Flash.Add
      rw [hprobe]
      exact AddImpl_fits f _ aKey false v hm hkey hlenv hbytesv hfit
    have hm1 := appendState_Models f _ (committedRec aKey false v) hm
      (committedRec_wf aKey false v hkey hlenv hbytesv)
      (by rw [committedRec_GetSize]; exact hfit)
    have hshape : (pre ++ r0 :: mid) ++ [committedRec aKey false v]
        = pre ++ r0 :: (mid ++ [committedRec aKey false v]) := by
      simp [List.append_assoc]
    rw [hshape] at hm1
    have haddchain : addChain f aKey (v :: rest)
        = addChain (appendState f (committedRec aKey false v)) aKey rest := by
      unfold addChain
      rw [List.foldl_cons, hadd]
    rw [haddchain]
    have hrec := ih (appendState f (committedRec aKey false v)) pre
      (mid ++ [committedRec aKey false v]) hm1
      (fun w hw => hlen w (by simp [hw])) (fun w hw => hbytes w (by simp [hw]))
      (by
        rw [appendState_mSwapUsed, appendState_mSwapSize, committedRec_GetSize,
          mkRecord_GetSize_recSize aKey false v hlenv]
        simp only [List.map_cons, List.sum_cons] at hspace
        omega)
    simpa [List.append_assoc] using hrec

/-- Appending a chain of values with the public `Add` onto a store holding no
valid record for the key: the first value gets the `First` flag, the rest do not. -/
theorem addChain_scratch (f : Flash) (rs : List Rec) (aKey : Nat) (v0 : List Nat)
    (vrest : List (List Nat)) (hm : f.Models rs) (hkey : aKey < 65536)
    (hnk : ∀ r ∈ rs, r.hdr.mKey ≠ aKey ∨ r.hdr.IsValid = false)
    (hlen : ∀ v ∈ v0 :: vrest, v.length ≤ 256)
    (hbytes : ∀ v ∈ v0 :: vrest, ∀ b ∈ v, b < 256)
    (hspace : f.mSwapUsed + ((v0 :: vrest).map recSize).sum ≤ f.mSwapSize) :
    (addChain f aKey (v0 :: vrest)).Models (rs ++ chainRecs aKey (v0 :: vrest)) := by
  have hlen0 : v0.length ≤ 256 := hlen v0 (by simp)
  have hbytes0 : ∀ b ∈ v0, b < 256 := hbytes v0 (by simp)
  have hprobe : (f.Get aKey 0 none none).1 = OtError.NotFound := by
    rw [Get_eq_getRecs f rs hm aKey 0 none none]
    simp only [Option.isSome_none, Bool.and_self, Option.getD_none]
    rw [getRecs_no_match aKey 0 false 0 rs _ hnk]
    rfl
  have hfit : f.mSwapUsed + (Flash.mkRecord aKey true v0).hdr.GetSize ≤ f.mSwapSize := by
    rw [mkRecord_GetSize_recSize aKey true v0 hlen0]
    simp only [List.map_cons, List.sum_cons] at hspace
    omega
  have hadd : f.Add aKey v0 = (appendState f (committedRec aKey true v0), OtError.None) := by
    unfold Flash.Add
    rw [hprobe]
    exact AddImpl_fits f rs aKey true v0 hm hkey hlen0 hbytes0 hfit
  have hm1 := appendState_Models f rs (committedRec aKey true v0) hm
    (committedRec_wf aKey true v0 hkey hlen0 hbytes0)
    (by rw [committedRec_GetSize]; exact hfit)
  have haddchain : addChain f aKey (v0 :: vrest)
      = addChain (appendState f (committedRec aKey true v0)) aKey vrest := by
    unfold addChain
    rw [List.foldl_cons, hadd]
  rw [haddchain]
  have hshape : rs ++ [committedRec aKey true v0]
      = rs ++ committedRec aKey true v0 :: [] := rfl
  rw [hshape] at hm1
  have hrec := addChain_extend aKey hkey (committedRec aKey true v0)
    (committedRec_key aKey true v0) (committedRec_IsValid aKey true v0)
    (committedRec_IsFirst aKey v0) vrest (appendState f (committedRec aKey true v0)) rs []
    hm1 (fun w hw => hlen w (by simp [hw])) (fun w hw => hbytes w (by simp [hw]))
    (by
      rw [appendState_mSwapUsed, appendState_mSwapSize, committedRec_GetSize,
        mkRecord_GetSize_recSize aKey true v0 hlen0]
      simp only [List.map_cons, List.sum_cons] at hspace
      omega)
  simpa [chainRecs] using hrec

/-- Claim C4 (confirmed): starting from a store holding no (valid) record for key
`K`, after `Add(K,V0); …; Add(K,Vn)` (each `|Vi| ≤ 256`, with enough space so that
no compaction triggers), `Get(K,i)` returns `Vi` for every `i ∈ [0,n]` — found,
bytes copied out exactly, length reported — and `Get(K,n+1)` returns `NotFound`. -/
theorem C4_append_ordering (f : Flash) (rs : List Rec) (aKey : Nat)
    (vs : List (List Nat)) (buf : List Nat) (cap : Nat)
    (hm : f.Models rs) (hkey : aKey < 65536)
    (hnk : ∀ r ∈ rs, r.hdr.mKey ≠ aKey ∨ r.hdr.IsValid = false)
    (hvs : vs ≠ [])
    (hlen : ∀ v ∈ vs, v.length ≤ 256) (hbytes : ∀ v ∈ vs, ∀ b ∈ v, b < 256)
    (hcap : ∀ v ∈ vs, v.length ≤ cap)
    (hspace : f.mSwapUsed + (vs.map recSize).sum ≤ f.mSwapSize) :
    (∀ i : Nat, i < vs.length →
      ((addChain f aKey vs).Get aKey (i : Int) (some buf) (some cap)).1 = OtError.None ∧
      (((addChain f aKey vs).Get aKey (i : Int) (some buf) (some cap)).2.1.getD []).take
          (vs.getD i []).length = vs.getD i [] ∧
      ((addChain f aKey vs).Get aKey (i : Int) (some buf) (some cap)).2.2
        = some (vs.getD i []).length) ∧
    ((addChain f aKey vs).Get aKey (vs.length : Int) (some buf) (some cap)).1
      = OtError.NotFound := by
  obtain ⟨v0, vrest, rfl⟩ : ∃ v0 vrest, vs = v0 :: vrest := by
    cases vs with
    | nil => exact absurd rfl hvs
    | cons a b => exact ⟨a, b, rfl⟩
  have hmg := addChain_scratch f rs aKey v0 vrest hm hkey hnk hlen hbytes hspace
  have hr0k := committedRec_key aKey true v0
  have hr0v := committedRec_IsValid aKey true v0
  have hr0f := committedRec_IsFirst aKey v0
  have hchain : chainRecs aKey (v0 :: vrest)
      = [committedRec aKey true v0]
        ++ vrest.map (fun w => committedRec aKey false w) := rfl
  constructor
  · intro i hi
    rw [Get_eq_getRecs _ _ hmg aKey (i : Int) (some buf) (some cap)]
    simp only [Option.isSome_some, Bool.and_self, Option.getD_some]
    rw [getRecs_append, getRecs_no_match aKey (i : Int) true cap rs _ hnk, hchain,
      getRecs_append]
    cases i with
    | zero =>
      simp only [Nat.cast_zero]
      rw [getRecs_one_hit aKey 0 true cap (committedRec aKey true v0) ⟨false, buf, 0, 0⟩
        hr0k hr0v (by rw [hr0f]; rfl)]
      rw [chain_tail_miss aKey 0 true cap vrest _ (by left; show (0 : Int) < 0 + 1; omega)]
      refine ⟨rfl, ?_, ?_⟩
      · simp only [Option.map_some', Option.getD_some, List.getD_cons_zero]
        show (writeBytes buf 0 ((committedRec aKey true v0).body.take
          (min cap (committedRec aKey true v0).hdr.mLength))).take v0.length = v0
        rw [committedRec_mLength, Nat.min_eq_right (hcap v0 (by simp)),
          committedRec_body_take aKey true v0 v0.length (le_refl _), List.take_length]
        exact writeBytes_zero_take buf v0
      · simp only [Option.map_some', List.getD_cons_zero]
        show some (committedRec aKey true v0).hdr.mLength = _
        rw [committedRec_mLength]
    | succ t =>
      have ht : t < vrest.length := by
        simp only [List.length_cons] at hi
        omega
      rw [getRecs_one_miss aKey ((t + 1 : Nat) : Int) true cap (committedRec aKey true v0)
        ⟨false, buf, 0, 0⟩ hr0k hr0v (by rw [hr0f]; simp; omega)]
      rw [hr0f]
      rw [chain_tail_hit aKey ((t + 1 : Nat) : Int) true cap vrest t _ ht (by
        show ((t + 1 : Nat) : Int) = (if true = true then (0 : Int) else 0) + 1 + (t : Int)
        simp
        omega)]
      refine ⟨rfl, ?_, ?_⟩
      · simp only [Option.map_some', Option.getD_some, List.getD_cons_succ]
        show (writeBytes buf 0 ((committedRec aKey false (vrest.getD t [])).body.take
          (min cap (vrest.getD t []).length))).take (vrest.getD t []).length
          = vrest.getD t []
        have hmem : vrest.getD t [] ∈ v0 :: vrest := by
          right
          rw [List.getD_eq_getElem vrest [] ht]
          exact List.getElem_mem ht
        rw [Nat.min_eq_right (hcap _ hmem),
          committedRec_body_take aKey false _ _ (le_refl _), List.take_length]
        exact writeBytes_zero_take buf _
      · simp only [Option.map_some', List.getD_cons_succ]
  · rw [Get_eq_getRecs _ _ hmg aKey _ (some buf) (some cap)]
    simp only [Option.isSome_some, Bool.and_self, Option.getD_some]
    rw [getRecs_append, getRecs_no_match aKey _ true cap rs _ hnk, hchain, getRecs_append]
    rw [getRecs_one_miss aKey ((v0 :: vrest).length : Int) true cap
      (committedRec aKey true v0) ⟨false, buf, 0, 0⟩ hr0k hr0v
      (by rw [hr0f]; simp; push_cast; omega)]
    rw [hr0f]
    rw [chain_tail_miss aKey ((v0 :: vrest).length : Int) true cap vrest _ (by
      right
      show (if true = true then (0 : Int) else 0) + 1 + (vrest.length : Int) ≤ _
      simp
      omega)]
    rfl

/-- Witness for `C4_append_ordering`: the spec's S2 scenario
`Add(7,[1]); Add(7,[2,2]); Add(7,[3,3,3])` on a wiped 64-byte store. -/
theorem C4_append_ordering_witness :
    (∀ i : Nat, i < ([[1], [2, 2], [3, 3, 3]] : List (List Nat)).length →
      ((addChain (Flash.Wipe (Flash.mk [] [] 64 0 0 0)) 7 [[1], [2, 2], [3, 3, 3]]).Get 7
          (i : Int) (some (List.replicate 8 0)) (some 8)).1 = OtError.None ∧
      (((addChain (Flash.Wipe (Flash.mk [] [] 64 0 0 0)) 7 [[1], [2, 2], [3, 3, 3]]).Get 7
          (i : Int) (some (List.replicate 8 0)) (some 8)).2.1.getD []).take
          (([[1], [2, 2], [3, 3, 3]] : List (List Nat)).getD i []).length
        = ([[1], [2, 2], [3, 3, 3]] : List (List Nat)).getD i [] ∧
      ((addChain (Flash.Wipe (Flash.mk [] [] 64 0 0 0)) 7 [[1], [2, 2], [3, 3, 3]]).Get 7
          (i : Int) (some (List.replicate 8 0)) (some 8)).2.2
        = some (([[1], [2, 2], [3, 3, 3]] : List (List Nat)).getD i []).length) ∧
    ((addChain (Flash.Wipe (Flash.mk [] [] 64 0 0 0)) 7 [[1], [2, 2], [3, 3, 3]]).Get 7
        (([[1], [2, 2], [3, 3, 3]] : List (List Nat)).length : Int)
        (some (List.replicate 8 0)) (some 8)).1 = OtError.NotFound :=
  C4_append_ordering (Flash.Wipe (Flash.mk [] [] 64 0 0 0)) [] 7 [[1], [2, 2], [3, 3, 3]]
    (List.replicate 8 0) 8 (by decide) (by decide) (by decide) (by decide) (by decide)
    (by decide) (by decide) (by decide)

/-! ### Claim C6: Delete -/

theorem GetSize_SetDeleted (h : RecordHeader) : h.SetDeleted.GetSize = h.GetSize := rfl

theorem GetSize_SetFirst (h : RecordHeader) : h.SetFirst.GetSize = h.GetSize := rfl

theorem clearBit16_lt (flags bit : Nat) (hb : bit ≤ 0xffff) : clearBit16 flags bit < 65536 := by
  unfold clearBit16
  have := @Nat.and_le_right flags (0xffff - bit)
  omega

theorem IsValid_SetDeleted (h : RecordHeader) : h.SetDeleted.IsValid = false := by
  unfold RecordHeader.SetDeleted RecordHeader.IsValid clearBit16
  simp only [beq_eq_false_iff_ne, ne_eq]
  intro hcontra
  rw [Nat.land_assoc] at hcontra
  have he : ((0xffff - kFlagDelete) &&& (kFlagAddComplete ||| kFlagDelete)) = 2 := by decide
  rw [he] at hcontra
  have hle := @Nat.and_le_right h.mFlags 2
  rw [hcontra] at hle
  simp [kFlagDelete] at hle

/-- The record-list effect of one `Flash::Delete` scan: mirror of `deleteLoop`
reading from and writing to the list of records instead of the region bytes. -/
def deleteRecs (aKey : Nat) (aIndex : Int) : List Rec → Int → Bool → List Rec × Bool
  | [], _, err => ([], err)
  | r :: rest, index, err =>
    if r.hdr.mKey ≠ aKey ∨ r.hdr.IsValid = false then
      let p := deleteRecs aKey aIndex rest index err
      (r :: p.1, p.2)
    else
      let index : Int := if r.hdr.IsFirst then 0 else index
      let re :=
        if aIndex = index ∨ aIndex = -1 then
          ((⟨r.hdr.SetDeleted, r.body⟩ : Rec), true)
        else (r, err)
      let r2 :=
        if index = 1 ∧ aIndex = 0 then (⟨re.1.hdr.SetFirst, re.1.body⟩ : Rec) else re.1
      let p := deleteRecs aKey aIndex rest (index + 1) re.2
      (r2 :: p.1, p.2)

theorem recBytes_length_raw (r : Rec) : (recBytes r).length = 8 + r.body.length := by
  rw [recBytes, List.length_append, encodeHeader_length]

theorem deleteRecs_encLength (aKey : Nat) (aIndex : Int) :
    ∀ (rs : List Rec) (index : Int) (err : Bool),
      (encodeRecs (deleteRecs aKey aIndex rs index err).1).length = (encodeRecs rs).length := by
  intro rs
  induction rs with
  | nil => intro index err; rfl
  | cons r rest ih =>
    intro index err
    by_cases hskip : r.hdr.mKey ≠ aKey ∨ r.hdr.IsValid = false
    · simp only [deleteRecs, if_pos hskip, encodeRecs_cons, List.length_append]
      rw [ih index err]
    · simp only [deleteRecs, if_neg hskip, encodeRecs_cons, List.length_append]
      rw [ih]
      congr 1
      rw [recBytes_length_raw, recBytes_length_raw]
      by_cases h1 : aIndex = (if r.hdr.IsFirst = true then (0 : Int) else index) ∨ aIndex = -1 <;>
        by_cases h2 : (if r.hdr.IsFirst = true then (0 : Int) else index) = 1 ∧ aIndex = 0 <;>
          simp [h1, h2]

theorem RecWf_hdrUpdate (r : Rec) (h2 : RecordHeader) (hwf : RecWf r)
    (hk : h2.mKey = r.hdr.mKey) (hl : h2.mLength = r.hdr.mLength)
    (hres : h2.mReserved = r.hdr.mReserved) (hfl : h2.mFlags < 65536) :
    RecWf ⟨h2, r.body⟩ := by
  obtain ⟨⟨w1, w2, w3, w4⟩, w5, w6⟩ := hwf
  refine ⟨⟨?_, ?_, ?_, ?_⟩, ?_, w6⟩
  · rw [hk]; exact w1
  · exact hfl
  · rw [hl]; exact w3
  · rw [hres]; exact w4
  · show r.body.length + 8 = h2.GetSize
    have : h2.GetSize = r.hdr.GetSize := by
      unfold RecordHeader.GetSize
      rw [hl]
    rw [this]
    exact w5

theorem deleteRecs_wf (aKey : Nat) (aIndex : Int) :
    ∀ (rs : List Rec) (index : Int) (err : Bool), (∀ r ∈ rs, RecWf r) →
      ∀ s ∈ (deleteRecs aKey aIndex rs index err).1, RecWf s := by
  intro rs
  induction rs with
  | nil => intro index err _ s hs; exact absurd hs (by simp [deleteRecs])
  | cons r rest ih =>
    intro index err hwf s hs
    have hwr := hwf r (by simp)
    have hwrest : ∀ t ∈ rest, RecWf t := fun t ht => hwf t (by simp [ht])
    by_cases hskip : r.hdr.mKey ≠ aKey ∨ r.hdr.IsValid = false
    · simp only [deleteRecs, if_pos hskip, List.mem_cons] at hs
      rcases hs with hs | hs
      · rw [hs]; exact hwr
      · exact ih index err hwrest s hs
    · simp only [deleteRecs, if_neg hskip, List.mem_cons] at hs
      rcases hs with hs | hs
      · rw [hs]
        by_cases h1 : aIndex = (if r.hdr.IsFirst = true then (0 : Int) else index) ∨ aIndex = -1 <;>
          by_cases h2 : (if r.hdr.IsFirst = true then (0 : Int) else index) = 1 ∧ aIndex = 0 <;>
            simp only [if_pos, if_neg, h1, h2, ite_true, ite_false, if_true, if_false]
        · exact RecWf_hdrUpdate r _ hwr rfl rfl rfl
            (clearBit16_lt _ _ (by unfold kFlagFirst; omega))
        · exact RecWf_hdrUpdate r _ hwr rfl rfl rfl
            (clearBit16_lt _ _ (by unfold kFlagDelete; omega))
        · exact RecWf_hdrUpdate r _ hwr rfl rfl rfl
            (clearBit16_lt _ _ (by unfold kFlagFirst; omega))
        · exact hwr
      · exact ih (_) _ hwrest s hs

/-- Correspondence between the byte-level `Flash.deleteLoop` and the list-level
`deleteRecs` on a region segment that is the byte image of `rs`.  The final value
of the internal scan counter is existentially quantified (the driver discards it). -/
theorem deleteLoop_eq_deleteRecs (aKey : Nat) (aIndex : Int) (used : Nat) :
    ∀ (rs : List Rec) (reg : List Nat) (offset fuel : Nat) (err : Bool) (index : Int),
      (∀ r ∈ rs, RecWf r) →
      readBytes reg offset (encodeRecs rs).length = encodeRecs rs →
      used = offset + (encodeRecs rs).length →
      used ≤ reg.length →
      rs.length ≤ fuel →
      ∃ ixf : Int,
        Flash.deleteLoop used aKey aIndex fuel offset (reg, err, index)
          = (writeBytes reg offset (encodeRecs (deleteRecs aKey aIndex rs index err).1),
             (deleteRecs aKey aIndex rs index err).2, ixf) := by
  intro rs
  induction rs with
  | nil =>
    intro reg offset fuel err index _ _ hused _ _
    refine ⟨index, ?_⟩
    have hnlt : ¬ offset < used := by
      rw [hused, encodeRecs_nil]
      simp
    have hwb : writeBytes reg offset (encodeRecs ([] : List Rec)) = reg := by
      rw [encodeRecs_nil]
      unfold writeBytes
      simp
    show Flash.deleteLoop used aKey aIndex fuel offset (reg, err, index) = _
    rw [show (deleteRecs aKey aIndex [] index err) = ([], err) from rfl, hwb]
    cases fuel with
    | zero => rfl
    | succ n => simp only [Flash.deleteLoop, if_neg hnlt]
  | cons r rest ih =>
    intro reg offset fuel err index hwf hreg hused hlen hfuel
    have hwfr : RecWf r := hwf r (by simp)
    have hwfrest : ∀ s ∈ rest, RecWf s := fun s hs => hwf s (by simp [hs])
    have hlen256 : r.hdr.mLength ≤ 256 := hwfr.1.2.2.1
    have hrb : (recBytes r).length = r.hdr.GetSize := recBytes_length r hwfr
    have hge : 8 ≤ r.hdr.GetSize := GetSize_ge r.hdr hlen256
    have hbody : r.body.length + 8 = r.hdr.GetSize := hwfr.2.1
    have henc : encodeRecs (r :: rest) = recBytes r ++ encodeRecs rest := encodeRecs_cons r rest
    have henclen : (encodeRecs (r :: rest)).length
        = r.hdr.GetSize + (encodeRecs rest).length := by
      rw [henc, List.length_append, hrb]
    have hread8 : readBytes reg offset 8 = encodeHeader r.hdr := by
      have h1 : readBytes reg offset 8 = (encodeRecs (r :: rest)).take 8 :=
        readBytes_take_front reg _ offset _ 8 hreg (by omega)
      rw [h1, henc, recBytes, List.append_assoc]
      exact List.take_left' (encodeHeader_length r.hdr)
    have hdec : decodeHeader (readBytes reg offset 8) = r.hdr := by
      rw [hread8]
      exact decodeHeader_encodeHeader r.hdr hwfr.1
    have hlt : offset < used := by
      rw [hused, henclen]
      omega
    have hofflen : offset + r.hdr.GetSize ≤ reg.length := by
      rw [hused] at hlen
      omega
    have hreg' : readBytes reg (offset + r.hdr.GetSize) (encodeRecs rest).length
        = encodeRecs rest := by
      have h2 := readBytes_within reg (encodeRecs (r :: rest)) offset
        (encodeRecs (r :: rest)).length r.hdr.GetSize (encodeRecs rest).length hreg
        (by rw [henclen])
      rw [h2, henc, ← hrb, List.drop_left' rfl, List.take_length]
    have hused' : used = offset + r.hdr.GetSize + (encodeRecs rest).length := by
      rw [hused, henclen]
      omega
    have hbodyread : readBytes reg (offset + 8) r.body.length = r.body := by
      have h3 := readBytes_within reg (encodeRecs (r :: rest)) offset
        (encodeRecs (r :: rest)).length 8 r.body.length hreg (by rw [henclen]; omega)
      rw [h3, henc, recBytes, List.append_assoc, List.drop_left' (encodeHeader_length r.hdr),
        List.take_append_eq_append_take, Nat.sub_self, List.take_zero, List.append_nil,
        List.take_length]
    have hfirstread : readBytes reg offset (recBytes r).length = recBytes r := by
      rw [readBytes_take_front reg _ offset _ (recBytes r).length hreg (by rw [henc]; simp),
        henc, List.take_left]
    cases fuel with
    | zero =>
      exfalso
      simp only [List.length_cons] at hfuel
      omega
    | succ n =>
      have hfuel' : rest.length ≤ n := by
        simp only [List.length_cons] at hfuel
        omega
      by_cases hskip : r.hdr.mKey ≠ aKey ∨ r.hdr.IsValid = false
      · obtain ⟨ixf, hrec⟩ := ih reg (offset + r.hdr.GetSize) n err index hwfrest hreg'
          hused' hlen hfuel'
        refine ⟨ixf, ?_⟩
        simp only [Flash.deleteLoop, if_pos hlt, hdec, if_pos hskip]
        rw [hrec]
        have hW : writeBytes reg (offset + r.hdr.GetSize)
              (encodeRecs (deleteRecs aKey aIndex rest index err).1)
            = writeBytes reg offset
              (encodeRecs (deleteRecs aKey aIndex (r :: rest) index err).1) := by
          simp only [deleteRecs, if_pos hskip]
          rw [encodeRecs_cons, writeBytes_split _ _ _ _ (by omega : offset ≤ reg.length),
            writeBytes_same _ _ _ hfirstread (by omega), hrb]
        rw [hW]
        simp only [deleteRecs, if_pos hskip]
      · -- a matching valid record: possibly tombstone and possibly promote
        have hstep : ∀ (h2 : RecordHeader) (err1 : Bool),
            h2.GetSize = r.hdr.GetSize →
            ∃ ixf : Int,
              Flash.deleteLoop used aKey aIndex n (offset + h2.GetSize)
                  (writeBytes reg offset (encodeHeader h2), err1,
                    (if r.hdr.IsFirst = true then (0 : Int) else index) + 1)
                = (writeBytes reg offset (encodeRecs ((⟨h2, r.body⟩ : Rec) ::
                      (deleteRecs aKey aIndex rest
                        ((if r.hdr.IsFirst = true then (0 : Int) else index) + 1) err1).1)),
                   (deleteRecs aKey aIndex rest
                     ((if r.hdr.IsFirst = true then (0 : Int) else index) + 1) err1).2,
                   ixf) := by
          intro h2 err1 hsz
          set reg1 := writeBytes reg offset (encodeHeader h2) with hreg1
          have hreg1len : reg1.length = reg.length := by
            rw [hreg1]
            exact writeBytes_length _ _ _ (by rw [encodeHeader_length]; omega)
          have htile1 : readBytes reg1 (offset + r.hdr.GetSize) (encodeRecs rest).length
              = encodeRecs rest := by
            rw [hreg1, readBytes_writeBytes_beyond _ _ _ _ _
              (by rw [encodeHeader_length]; omega) (by omega)]
            exact hreg'
          obtain ⟨ixf, hrec⟩ := ih reg1 (offset + r.hdr.GetSize) n err1
            ((if r.hdr.IsFirst = true then (0 : Int) else index) + 1) hwfrest htile1
            hused' (by rw [hreg1len]; omega) hfuel'
          refine ⟨ixf, ?_⟩
          rw [hsz, hrec]
          have hb1 : readBytes reg1 (offset + 8) r.body.length = r.body := by
            rw [hreg1, readBytes_writeBytes_beyond _ _ _ _ _
              (by rw [encodeHeader_length]) (by omega)]
            exact hbodyread
          have hrb2 : (recBytes (⟨h2, r.body⟩ : Rec)).length = r.hdr.GetSize := by
            rw [recBytes_length_raw]
            dsimp only
            omega
          have hW : writeBytes reg offset (encodeRecs ((⟨h2, r.body⟩ : Rec) ::
                (deleteRecs aKey aIndex rest
                  ((if r.hdr.IsFirst = true then (0 : Int) else index) + 1) err1).1))
              = writeBytes reg1 (offset + r.hdr.GetSize)
                (encodeRecs (deleteRecs aKey aIndex rest
                  ((if r.hdr.IsFirst = true then (0 : Int) else index) + 1) err1).1) := by
            rw [encodeRecs_cons, writeBytes_split _ _ _ _ (by omega : offset ≤ reg.length),
              hrb2]
            congr 1
            show writeBytes reg offset (encodeHeader h2 ++ r.body) = reg1
            rw [writeBytes_split _ _ _ _ (by omega : offset ≤ reg.length),
              encodeHeader_length, ← hreg1]
            exact writeBytes_same reg1 r.body (offset + 8) hb1 (by rw [hreg1len]; omega)
          rw [hW]
        have hwrite_present : writeBytes reg offset (encodeHeader r.hdr) = reg :=
          writeBytes_same reg (encodeHeader r.hdr) offset
            (by rw [encodeHeader_length]; exact hread8) (by rw [encodeHeader_length]; omega)
        have hdouble : ∀ hA hB : RecordHeader,
            writeBytes (writeBytes reg offset (encodeHeader hA)) offset (encodeHeader hB)
              = writeBytes reg offset (encodeHeader hB) := by
          intro hA hB
          rw [writeBytes_overwrite _ _ _ _ (by omega : offset ≤ reg.length)
            (by rw [encodeHeader_length, encodeHeader_length])]
          congr 1
        simp only [Flash.deleteLoop, if_pos hlt, hdec, if_neg hskip]
        simp only [deleteRecs, if_neg hskip]
        by_cases bc1 : aIndex = (if r.hdr.IsFirst = true then (0 : Int) else index) ∨ aIndex = -1
        · rw [if_pos bc1, if_pos bc1]
          by_cases bc2 : (if r.hdr.IsFirst = true then (0 : Int) else index) = 1 ∧ aIndex = 0
          · rw [if_pos bc2, if_pos bc2]
            dsimp only
            rw [hdouble]
            exact hstep r.hdr.SetDeleted.SetFirst true rfl
          · rw [if_neg bc2, if_neg bc2]
            dsimp only
            exact hstep r.hdr.SetDeleted true rfl
        · rw [if_neg bc1, if_neg bc1]
          by_cases bc2 : (if r.hdr.IsFirst = true then (0 : Int) else index) = 1 ∧ aIndex = 0
          · rw [if_pos bc2, if_pos bc2]
            dsimp only
            exact hstep r.hdr.SetFirst err rfl
          · rw [if_neg bc2, if_neg bc2]
            dsimp only
            obtain ⟨ixf, hfin⟩ := hstep r.hdr err rfl
            rw [hwrite_present] at hfin
            exact ⟨ixf, hfin⟩

theorem IsValid_SetFirst (h : RecordHeader) : h.SetFirst.IsValid = h.IsValid := by
  unfold RecordHeader.SetFirst RecordHeader.IsValid clearBit16
  rw [Nat.land_assoc,
    show ((0xffff - kFlagFirst) &&& (kFlagAddComplete ||| kFlagDelete))
      = (kFlagAddComplete ||| kFlagDelete) by decide]

/-- Once the tombstone flag of `Flash::Delete` is raised it stays raised. -/
theorem deleteRecs_err_true (aKey : Nat) (aIndex : Int) :
    ∀ (rs : List Rec) (index : Int), (deleteRecs aKey aIndex rs index true).2 = true := by
  intro rs
  induction rs with
  | nil => intro index; rfl
  | cons r rest ih =>
    intro index
    by_cases hskip : r.hdr.mKey ≠ aKey ∨ r.hdr.IsValid = false
    · simp only [deleteRecs, if_pos hskip]
      exact ih index
    · simp only [deleteRecs, if_neg hskip]
      by_cases bc1 : aIndex = (if r.hdr.IsFirst = true then (0 : Int) else index) ∨ aIndex = -1
      · rw [if_pos bc1]
        exact ih _
      · rw [if_neg bc1]
        exact ih _

theorem deleteRecs_length (aKey : Nat) (aIndex : Int) :
    ∀ (rs : List Rec) (index : Int) (err : Bool),
      (deleteRecs aKey aIndex rs index err).1.length = rs.length := by
  intro rs
  induction rs with
  | nil => intro index err; rfl
  | cons r rest ih =>
    intro index err
    by_cases hskip : r.hdr.mKey ≠ aKey ∨ r.hdr.IsValid = false
    · simp only [deleteRecs, if_pos hskip, List.length_cons]
      rw [ih]
    · simp only [deleteRecs, if_neg hskip, List.length_cons]
      rw [ih]

/-- `Flash::Delete` reports success exactly when some record of the store went from
valid to invalid during the scan, i.e. was tombstoned. -/
theorem deleteRecs_err_iff (aKey : Nat) (aIndex : Int) :
    ∀ (rs : List Rec) (index : Int),
      ((deleteRecs aKey aIndex rs index false).2 = true ↔
        ∃ p ∈ rs.zip (deleteRecs aKey aIndex rs index false).1,
          p.1.hdr.IsValid = true ∧ p.2.hdr.IsValid = false) := by
  intro rs
  induction rs with
  | nil =>
    intro index
    simp [deleteRecs]
  | cons r rest ih =>
    intro index
    by_cases hskip : r.hdr.mKey ≠ aKey ∨ r.hdr.IsValid = false
    · simp only [deleteRecs, if_pos hskip, List.zip_cons_cons, List.mem_cons]
      constructor
      · intro herr
        obtain ⟨p, hp, hv⟩ := (ih index).mp herr
        exact ⟨p, Or.inr hp, hv⟩
      · rintro ⟨p, hp | hp, hv1, hv2⟩
        · rw [hp] at hv1 hv2
          rw [hv1] at hv2
          exact absurd hv2 (by simp)
        · exact (ih index).mpr ⟨p, hp, hv1, hv2⟩
    · push_neg at hskip
      obtain ⟨hkey, hvalid⟩ := hskip
      simp only [ne_eq, Bool.not_eq_false] at hvalid
      have hskip' : ¬ (r.hdr.mKey ≠ aKey ∨ r.hdr.IsValid = false) := by
        push_neg
        exact ⟨hkey, by rw [hvalid]; simp⟩
      simp only [deleteRecs, if_neg hskip', List.zip_cons_cons, List.mem_cons]
      by_cases bc1 : aIndex = (if r.hdr.IsFirst = true then (0 : Int) else index) ∨ aIndex = -1
      · rw [if_pos bc1]
        constructor
        · intro _
          by_cases bc2 : (if r.hdr.IsFirst = true then (0 : Int) else index) = 1 ∧ aIndex = 0
          · rw [if_pos bc2]
            refine ⟨(r, ⟨r.hdr.SetDeleted.SetFirst, r.body⟩), Or.inl rfl, hvalid, ?_⟩
            show (r.hdr.SetDeleted.SetFirst).IsValid = false
            rw [IsValid_SetFirst, IsValid_SetDeleted]
          · rw [if_neg bc2]
            exact ⟨(r, ⟨r.hdr.SetDeleted, r.body⟩), Or.inl rfl, hvalid, IsValid_SetDeleted r.hdr⟩
        · intro _
          exact deleteRecs_err_true aKey aIndex rest _
      · rw [if_neg bc1]
        constructor
        · intro herr
          obtain ⟨p, hp, hv⟩ := (ih _).mp herr
          exact ⟨p, Or.inr hp, hv⟩
        · rintro ⟨p, hp | hp, hv1, hv2⟩
          · rw [hp] at hv2
            by_cases bc2 : (if r.hdr.IsFirst = true then (0 : Int) else index) = 1 ∧ aIndex = 0
            · rw [if_pos bc2] at hv2
              dsimp only at hv2
              rw [IsValid_SetFirst, hvalid] at hv2
              exact absurd hv2 (by simp)
            · rw [if_neg bc2] at hv2
              dsimp only at hv2
              rw [hvalid] at hv2
              exact absurd hv2 (by simp)
          · exact (ih _).mpr ⟨p, hp, hv1, hv2⟩

/-- With `aIndex = -1`, the `Flash::Delete` scan tombstones exactly the valid
records carrying the key (and performs no `First` promotion, since the promotion
also requires `aIndex == 0`), raising the success flag iff one such record exists. -/
theorem deleteRecs_neg_one (aKey : Nat) :
    ∀ (rs : List Rec) (index : Int) (err : Bool),
      deleteRecs aKey (-1) rs index err =
        (rs.map fun r =>
          if r.hdr.mKey = aKey ∧ r.hdr.IsValid = true
          then (⟨r.hdr.SetDeleted, r.body⟩ : Rec) else r,
         err || rs.any fun r => r.hdr.mKey == aKey && r.hdr.IsValid) := by
  intro rs
  induction rs with
  | nil =>
    intro index err
    simp [deleteRecs]
  | cons r rest ih =>
    intro index err
    by_cases hskip : r.hdr.mKey ≠ aKey ∨ r.hdr.IsValid = false
    · have hcond : ¬ (r.hdr.mKey = aKey ∧ r.hdr.IsValid = true) := by
        rcases hskip with h | h
        · exact fun hc => h hc.1
        · exact fun hc => by rw [hc.2] at h; exact absurd h (by simp)
      have hany : (r.hdr.mKey == aKey && r.hdr.IsValid) = false := by
        rcases hskip with h | h
        · simp [h]
        · simp [h]
      simp only [deleteRecs, if_pos hskip, ih, List.map_cons, if_neg hcond, List.any_cons,
        hany, Bool.false_or]
    · push_neg at hskip
      obtain ⟨hkey, hvalid⟩ := hskip
      simp only [ne_eq, Bool.not_eq_false] at hvalid
      have hskip' : ¬ (r.hdr.mKey ≠ aKey ∨ r.hdr.IsValid = false) := by
        push_neg
        exact ⟨hkey, by rw [hvalid]; simp⟩
      have hcond : r.hdr.mKey = aKey ∧ r.hdr.IsValid = true := ⟨hkey, hvalid⟩
      have hany : (r.hdr.mKey == aKey && r.hdr.IsValid) = true := by
        simp [hkey, hvalid]
      have hbc1 : ((-1 : Int) = (if r.hdr.IsFirst = true then (0 : Int) else index)
          ∨ (-1 : Int) = -1) := Or.inr rfl
      have hbc2 : ¬ ((if r.hdr.IsFirst = true then (0 : Int) else index) = 1
          ∧ (-1 : Int) = 0) := fun hc => by exact absurd hc.2 (by decide)
      simp only [deleteRecs, if_neg hskip', if_pos hbc1, if_neg hbc2, ih, List.map_cons,
        if_pos hcond, List.any_cons, hany, Bool.true_or, Bool.or_true, or_true, if_true]

/-- `Flash::Delete` on a state modelling `rs`: the active region is rewritten with
the byte image of the `deleteRecs` scan result, and the call returns `OT_ERROR_NONE`
exactly when the scan raised the tombstone flag. -/
theorem Delete_spec (f : Flash) (rs : List Rec) (aKey : Nat) (aIndex : Int)
    (hm : f.Models rs) :
    f.Delete aKey aIndex =
      (f.setRegion f.mSwapIndex
        (writeBytes (f.region f.mSwapIndex) 4
          (encodeRecs (deleteRecs aKey aIndex rs 0 false).1)),
       if (deleteRecs aKey aIndex rs 0 false).2 then OtError.None else OtError.NotFound) := by
  obtain ⟨hhdr, hidx, hrlen, hused, hle, hsz32, hcontent, hwf⟩ := hm
  have hfuel : rs.length ≤ f.mSwapUsed := by
    have := encodeRecs_length_ge rs hwf
    omega
  obtain ⟨ixf, h⟩ := deleteLoop_eq_deleteRecs aKey aIndex f.mSwapUsed rs
    (f.region f.mSwapIndex) 4 f.mSwapUsed false 0 hwf hcontent hused (by omega) hfuel
  unfold Flash.Delete
  rw [hhdr, h]

/-- `Flash::Delete` preserves the record-list abstraction: the resulting state
models the `deleteRecs` transform of the previous record list. -/
theorem Delete_models (f : Flash) (rs : List Rec) (aKey : Nat) (aIndex : Int)
    (hm : f.Models rs) :
    (f.Delete aKey aIndex).1.Models (deleteRecs aKey aIndex rs 0 false).1 := by
  have hspec := Delete_spec f rs aKey aIndex hm
  obtain ⟨hhdr, hidx, hrlen, hused, hle, hsz32, hcontent, hwf⟩ := hm
  have hencl := deleteRecs_encLength aKey aIndex rs 0 false
  have hwlen : (writeBytes (f.region f.mSwapIndex) 4
      (encodeRecs (deleteRecs aKey aIndex rs 0 false).1)).length
      = (f.region f.mSwapIndex).length :=
    writeBytes_length _ _ _ (by rw [hencl]; omega)
  rw [hspec]
  dsimp only
  refine ⟨?_, ?_, ?_, ?_, ?_, ?_, ?_, ?_⟩
  · rw [setRegion_mSwapHeaderSize]; exact hhdr
  · rw [setRegion_mSwapIndex]; exact hidx
  · rw [setRegion_mSwapIndex, setRegion_region_self, setRegion_mSwapSize,
      hwlen, hrlen]
  · rw [setRegion_mSwapUsed, hencl]; exact hused
  · rw [setRegion_mSwapUsed, setRegion_mSwapSize]; exact hle
  · rw [setRegion_mSwapSize]; exact hsz32
  · rw [setRegion_mSwapIndex, setRegion_region_self]
    exact readBytes_writeBytes (f.region f.mSwapIndex)
      (encodeRecs (deleteRecs aKey aIndex rs 0 false).1) 4 (by omega)
  · exact deleteRecs_wf aKey aIndex rs 0 false hwf

/-- Claim C6: on a store modelling the record list `rs`, `Delete(key, index)`
rewrites the store to the `deleteRecs` scan transform (tombstoning the records
whose per-key counter — reset to 0 at every valid `First` record — matches the
requested index, or every valid record of the key when the index is -1);
it returns `OT_ERROR_NONE` iff at least one record was tombstoned, i.e. went from
valid to invalid, and `OT_ERROR_NOT_FOUND` otherwise; with index -1 it tombstones
exactly the valid records carrying the key and succeeds iff one exists; and after
`Delete(K,-1)` a `Get(K,0)` returns `OT_ERROR_NOT_FOUND`. -/
theorem C6_delete (f : Flash) (rs : List Rec) (aKey : Nat) (aIndex : Int)
    (hm : f.Models rs) :
    (f.Delete aKey aIndex).1.Models (deleteRecs aKey aIndex rs 0 false).1 ∧
    ((f.Delete aKey aIndex).2 = OtError.None ↔
      ∃ p ∈ rs.zip (deleteRecs aKey aIndex rs 0 false).1,
        p.1.hdr.IsValid = true ∧ p.2.hdr.IsValid = false) ∧
    (deleteRecs aKey (-1) rs 0 false).1 =
      rs.map (fun r => if r.hdr.mKey = aKey ∧ r.hdr.IsValid = true
        then (⟨r.hdr.SetDeleted, r.body⟩ : Rec) else r) ∧
    ((f.Delete aKey (-1)).2 = OtError.None ↔
      ∃ r ∈ rs, r.hdr.mKey = aKey ∧ r.hdr.IsValid = true) ∧
    ∀ (aValue : Option (List Nat)) (aValueLength : Option Nat),
      ((f.Delete aKey (-1)).1.Get aKey 0 aValue aValueLength).1 = OtError.NotFound := by
  have hmap1 : (deleteRecs aKey (-1) rs 0 false).1 =
      rs.map (fun r => if r.hdr.mKey = aKey ∧ r.hdr.IsValid = true
        then (⟨r.hdr.SetDeleted, r.body⟩ : Rec) else r) := by
    rw [deleteRecs_neg_one]
  refine ⟨Delete_models f rs aKey aIndex hm, ?_, hmap1, ?_, ?_⟩
  · rw [Delete_spec f rs aKey aIndex hm]
    dsimp only
    constructor
    · intro herr
      by_cases hd : (deleteRecs aKey aIndex rs 0 false).2 = true
      · exact (deleteRecs_err_iff aKey aIndex rs 0).mp hd
      · rw [if_neg hd] at herr
        exact absurd herr (by simp)
    · intro hex
      rw [if_pos ((deleteRecs_err_iff aKey aIndex rs 0).mpr hex)]
  · rw [Delete_spec f rs aKey (-1) hm]
    dsimp only
    have hsnd : (deleteRecs aKey (-1) rs 0 false).2 =
        rs.any (fun r => r.hdr.mKey == aKey && r.hdr.IsValid) := by
      rw [deleteRecs_neg_one]
      simp
    rw [hsnd]
    constructor
    · intro herr
      by_cases ha : rs.any (fun r => r.hdr.mKey == aKey && r.hdr.IsValid) = true
      · obtain ⟨r, hr, hpr⟩ := List.any_eq_true.mp ha
        have hpr' : r.hdr.mKey = aKey ∧ r.hdr.IsValid = true := by
          simpa [Bool.and_eq_true] using hpr
        exact ⟨r, hr, hpr'.1, hpr'.2⟩
      · rw [if_neg ha] at herr
        exact absurd herr (by simp)
    · rintro ⟨r, hr, hk, hv⟩
      have ha : rs.any (fun r => r.hdr.mKey == aKey && r.hdr.IsValid) = true :=
        List.any_eq_true.mpr ⟨r, hr, by simp [hk, hv]⟩
      rw [if_pos ha]
  · intro aValue aValueLength
    have hm' := Delete_models f rs aKey (-1) hm
    rw [hmap1] at hm'
    have hnm : ∀ r' ∈ rs.map (fun r => if r.hdr.mKey = aKey ∧ r.hdr.IsValid = true
        then (⟨r.hdr.SetDeleted, r.body⟩ : Rec) else r),
        r'.hdr.mKey ≠ aKey ∨ r'.hdr.IsValid = false := by
      intro r' hr'
      obtain ⟨r, hr, hmapeq⟩ := List.mem_map.mp hr'
      by_cases hc : r.hdr.mKey = aKey ∧ r.hdr.IsValid = true
      · right
        rw [← hmapeq]
        simp only [if_pos hc]
        exact IsValid_SetDeleted r.hdr
      · rw [← hmapeq]
        simp only [if_neg hc]
        push_neg at hc
        by_cases hk : r.hdr.mKey = aKey
        · right
          have hnv := hc hk
          simp only [ne_eq, Bool.not_eq_true] at hnv
          exact hnv
        · left
          exact hk
    rw [Get_eq_getRecs _ _ hm' aKey 0 aValue aValueLength]
    dsimp only
    rw [getRecs_no_match _ _ _ _ _ _ hnm]
    rfl

/-- A one-record store used to instantiate the `Delete` claim concretely. -/
def C6f : Flash := ((Flash.Wipe (Flash.mk [] [] 64 0 0 0)).Set 7 [10]).1

/-- Its record-list abstraction. -/
def C6rs : List Rec := [committedRec 7 true [10]]

theorem C6_delete_witness :
    (C6f.Delete 7 (-1)).1.Models (deleteRecs 7 (-1) C6rs 0 false).1 ∧
    ((C6f.Delete 7 (-1)).2 = OtError.None ↔
      ∃ p ∈ C6rs.zip (deleteRecs 7 (-1) C6rs 0 false).1,
        p.1.hdr.IsValid = true ∧ p.2.hdr.IsValid = false) ∧
    (deleteRecs 7 (-1) C6rs 0 false).1 =
      C6rs.map (fun r => if r.hdr.mKey = 7 ∧ r.hdr.IsValid = true
        then (⟨r.hdr.SetDeleted, r.body⟩ : Rec) else r) ∧
    ((C6f.Delete 7 (-1)).2 = OtError.None ↔
      ∃ r ∈ C6rs, r.hdr.mKey = 7 ∧ r.hdr.IsValid = true) ∧
    ∀ (aValue : Option (List Nat)) (aValueLength : Option Nat),
      ((C6f.Delete 7 (-1)).1.Get 7 0 aValue aValueLength).1 = OtError.NotFound :=
  C6_delete C6f C6rs 7 (-1) (by decide)

/-! ### Claims C5 and C7: `Swap` (compaction) and `Add` space handling -/

/-- Correspondence between the byte-level scan of `Flash::DoesValidRecordExist`
and a list-level `any`: some record in the segment is valid, `First`-marked and
carries the key. -/
theorem validExistLoop_eq_any (reg : List Nat) (used aKey : Nat) :
    ∀ (rs : List Rec) (offset fuel : Nat),
      (∀ r ∈ rs, RecWf r) →
      readBytes reg offset (encodeRecs rs).length = encodeRecs rs →
      used = offset + (encodeRecs rs).length →
      rs.length ≤ fuel →
      Flash.validExistLoop reg used aKey fuel offset
        = rs.any (fun s => s.hdr.IsValid && s.hdr.IsFirst && (s.hdr.mKey == aKey)) := by
  intro rs
  induction rs with
  | nil =>
    intro offset fuel _ _ hused _
    have hnlt : ¬ offset < used := by
      rw [hused, encodeRecs_nil]
      simp
    cases fuel with
    | zero => rfl
    | succ n => simp only [Flash.validExistLoop, if_neg hnlt, List.any_nil]
  | cons r rest ih =>
    intro offset fuel hwf hreg hused hfuel
    have hwfr : RecWf r := hwf r (by simp)
    have hwfrest : ∀ s ∈ rest, RecWf s := fun s hs => hwf s (by simp [hs])
    have hlen256 : r.hdr.mLength ≤ 256 := hwfr.1.2.2.1
    have hrb : (recBytes r).length = r.hdr.GetSize := recBytes_length r hwfr
    have hge : 8 ≤ r.hdr.GetSize := GetSize_ge r.hdr hlen256
    have henc : encodeRecs (r :: rest) = recBytes r ++ encodeRecs rest := encodeRecs_cons r rest
    have henclen : (encodeRecs (r :: rest)).length
        = r.hdr.GetSize + (encodeRecs rest).length := by
      rw [henc, List.length_append, hrb]
    have hread8 : readBytes reg offset 8 = encodeHeader r.hdr := by
      have h1 : readBytes reg offset 8 = (encodeRecs (r :: rest)).take 8 :=
        readBytes_take_front reg _ offset _ 8 hreg (by omega)
      rw [h1, henc, recBytes, List.append_assoc]
      exact List.take_left' (encodeHeader_length r.hdr)
    have hdec : decodeHeader (readBytes reg offset 8) = r.hdr := by
      rw [hread8]
      exact decodeHeader_encodeHeader r.hdr hwfr.1
    have hlt : offset < used := by
      rw [hused, henclen]
      omega
    have hreg' : readBytes reg (offset + r.hdr.GetSize) (encodeRecs rest).length
        = encodeRecs rest := by
      have h2 := readBytes_within reg (encodeRecs (r :: rest)) offset
        (encodeRecs (r :: rest)).length r.hdr.GetSize (encodeRecs rest).length hreg
        (by rw [henclen])
      rw [h2, henc, ← hrb, List.drop_left' rfl, List.take_length]
    have hused' : used = offset + r.hdr.GetSize + (encodeRecs rest).length := by
      rw [hused, henclen]
      omega
    cases fuel with
    | zero =>
      exfalso
      simp only [List.length_cons] at hfuel
      omega
    | succ n =>
      have hfuel' : rest.length ≤ n := by
        simp only [List.length_cons] at hfuel
        omega
      by_cases hc : r.hdr.IsValid = true ∧ r.hdr.IsFirst = true ∧ r.hdr.mKey = aKey
      · simp only [Flash.validExistLoop, if_pos hlt, hdec, if_pos hc, List.any_cons]
        have hp : (r.hdr.IsValid && r.hdr.IsFirst && (r.hdr.mKey == aKey)) = true := by
          simp [hc.1, hc.2.1, hc.2.2]
        rw [hp, Bool.true_or]
      · simp only [Flash.validExistLoop, if_pos hlt, hdec, if_neg hc, List.any_cons]
        have hp : (r.hdr.IsValid && r.hdr.IsFirst && (r.hdr.mKey == aKey)) = false := by
          rcases Bool.eq_false_or_eq_true (r.hdr.IsValid && r.hdr.IsFirst
            && (r.hdr.mKey == aKey)) with h | h
          · exfalso
            simp only [Bool.and_eq_true, beq_iff_eq] at h
            exact hc ⟨h.1.1, h.1.2, h.2⟩
          · exact h
        rw [hp, Bool.false_or]
        exact ih (offset + r.hdr.GetSize) n hwfrest hreg' hused' hfuel'

/-- The list-level effect of the copy loop of `Flash::Swap()`: drop records that
are invalid or shadowed by a later valid `First` record of the same key, keep the
rest in order. -/
def swapRecs : List Rec → List Rec
  | [] => []
  | r :: rest =>
    if r.hdr.IsValid = false
        ∨ (rest.any fun s => s.hdr.IsValid && s.hdr.IsFirst
            && (s.hdr.mKey == r.hdr.mKey)) = true then
      swapRecs rest
    else r :: swapRecs rest

theorem swapRecs_sublist : ∀ rs : List Rec, (swapRecs rs).Sublist rs := by
  intro rs
  induction rs with
  | nil => exact List.Sublist.refl []
  | cons r rest ih =>
    by_cases hc : r.hdr.IsValid = false
        ∨ (rest.any fun s => s.hdr.IsValid && s.hdr.IsFirst
            && (s.hdr.mKey == r.hdr.mKey)) = true
    · simp only [swapRecs, if_pos hc]
      exact ih.cons r
    · simp only [swapRecs, if_neg hc]
      exact ih.cons₂ r

theorem swapRecs_valid : ∀ rs : List Rec, ∀ r ∈ swapRecs rs, r.hdr.IsValid = true := by
  intro rs
  induction rs with
  | nil => intro r hr; exact absurd hr (by simp [swapRecs])
  | cons r rest ih =>
    intro s hs
    by_cases hc : r.hdr.IsValid = false
        ∨ (rest.any fun t => t.hdr.IsValid && t.hdr.IsFirst
            && (t.hdr.mKey == r.hdr.mKey)) = true
    · rw [swapRecs, if_pos hc] at hs
      exact ih s hs
    · rw [swapRecs, if_neg hc] at hs
      rcases List.mem_cons.mp hs with hs | hs
      · push_neg at hc
        rw [hs]
        exact eq_true_of_ne_false hc.1
      · exact ih s hs

theorem swapRecs_encLength_le : ∀ rs : List Rec,
    (encodeRecs (swapRecs rs)).length ≤ (encodeRecs rs).length := by
  intro rs
  induction rs with
  | nil => exact Nat.le.refl
  | cons r rest ih =>
    by_cases hc : r.hdr.IsValid = false
        ∨ (rest.any fun s => s.hdr.IsValid && s.hdr.IsFirst
            && (s.hdr.mKey == r.hdr.mKey)) = true
    · rw [swapRecs, if_pos hc, encodeRecs_cons, List.length_append]
      omega
    · rw [swapRecs, if_neg hc, encodeRecs_cons, encodeRecs_cons, List.length_append,
        List.length_append]
      omega

/-- Correspondence between the byte-level copy loop of `Flash::Swap()` and the
list-level `swapRecs` filter, on a source segment that is the byte image of `rs`
whose records all have their `AddBegin` bit cleared (committed). -/
theorem swapLoop_eq_swapRecs (f : Flash) :
    ∀ (rs : List Rec) (srcOffset fuel : Nat) (dstReg : List Nat) (dstOffset : Nat),
      (∀ r ∈ rs, RecWf r) →
      (∀ r ∈ rs, r.hdr.IsAddBeginSet = true) →
      readBytes (f.region f.mSwapIndex) srcOffset (encodeRecs rs).length = encodeRecs rs →
      f.mSwapUsed = srcOffset + (encodeRecs rs).length →
      rs.length ≤ fuel →
      dstOffset + (encodeRecs (swapRecs rs)).length ≤ dstReg.length →
      Flash.swapLoop f fuel srcOffset (dstReg, dstOffset)
        = (writeBytes dstReg dstOffset (encodeRecs (swapRecs rs)),
           dstOffset + (encodeRecs (swapRecs rs)).length) := by
  intro rs
  induction rs with
  | nil =>
    intro srcOffset fuel dstReg dstOffset _ _ _ hused _ _
    have hnlt : ¬ srcOffset < f.mSwapUsed := by
      rw [hused, encodeRecs_nil]
      simp
    have hwb : writeBytes dstReg dstOffset (encodeRecs (swapRecs [])) = dstReg := by
      show writeBytes dstReg dstOffset [] = dstReg
      unfold writeBytes
      simp
    rw [hwb]
    show Flash.swapLoop f fuel srcOffset (dstReg, dstOffset) = (dstReg, dstOffset + 0)
    cases fuel with
    | zero => rfl
    | succ n =>
      simp only [Flash.swapLoop, if_neg hnlt]
      rfl
  | cons r rest ih =>
    intro srcOffset fuel dstReg dstOffset hwf hflags hreg hused hfuel hdst
    have hwfr : RecWf r := hwf r (by simp)
    have hwfrest : ∀ s ∈ rest, RecWf s := fun s hs => hwf s (by simp [hs])
    have hflagr : r.hdr.IsAddBeginSet = true := hflags r (by simp)
    have hflagrest : ∀ s ∈ rest, s.hdr.IsAddBeginSet = true :=
      fun s hs => hflags s (by simp [hs])
    have hlen256 : r.hdr.mLength ≤ 256 := hwfr.1.2.2.1
    have hrb : (recBytes r).length = r.hdr.GetSize := recBytes_length r hwfr
    have hge : 8 ≤ r.hdr.GetSize := GetSize_ge r.hdr hlen256
    have henc : encodeRecs (r :: rest) = recBytes r ++ encodeRecs rest := encodeRecs_cons r rest
    have henclen : (encodeRecs (r :: rest)).length
        = r.hdr.GetSize + (encodeRecs rest).length := by
      rw [henc, List.length_append, hrb]
    have hread8 : readBytes (f.region f.mSwapIndex) srcOffset 8 = encodeHeader r.hdr := by
      have h1 : readBytes (f.region f.mSwapIndex) srcOffset 8 = (encodeRecs (r :: rest)).take 8 :=
        readBytes_take_front _ _ srcOffset _ 8 hreg (by omega)
      rw [h1, henc, recBytes, List.append_assoc]
      exact List.take_left' (encodeHeader_length r.hdr)
    have hdec : decodeHeader (readBytes (f.region f.mSwapIndex) srcOffset 8) = r.hdr := by
      rw [hread8]
      exact decodeHeader_encodeHeader r.hdr hwfr.1
    have hlt : srcOffset < f.mSwapUsed := by
      rw [hused, henclen]
      omega
    have hreg' : readBytes (f.region f.mSwapIndex) (srcOffset + r.hdr.GetSize)
        (encodeRecs rest).length = encodeRecs rest := by
      have h2 := readBytes_within (f.region f.mSwapIndex) (encodeRecs (r :: rest)) srcOffset
        (encodeRecs (r :: rest)).length r.hdr.GetSize (encodeRecs rest).length hreg
        (by rw [henclen])
      rw [h2, henc, ← hrb, List.drop_left' rfl, List.take_length]
    have hused' : f.mSwapUsed = srcOffset + r.hdr.GetSize + (encodeRecs rest).length := by
      rw [hused, henclen]
      omega
    have hfull : readBytes (f.region f.mSwapIndex) srcOffset r.hdr.GetSize = recBytes r := by
      rw [← hrb]
      rw [readBytes_take_front _ _ srcOffset _ (recBytes r).length hreg (by rw [henc]; simp),
        henc, List.take_left]
    have hfuelv : rest.length ≤ f.mSwapUsed := by
      have := encodeRecs_length_ge rest hwfrest
      omega
    have hvr : f.DoesValidRecordExist (srcOffset + r.hdr.GetSize) r.hdr.mKey
        = rest.any (fun s => s.hdr.IsValid && s.hdr.IsFirst && (s.hdr.mKey == r.hdr.mKey)) := by
      unfold Flash.DoesValidRecordExist
      exact validExistLoop_eq_any (f.region f.mSwapIndex) f.mSwapUsed r.hdr.mKey rest
        (srcOffset + r.hdr.GetSize) f.mSwapUsed hwfrest hreg' hused' hfuelv
    have hnb : ¬ r.hdr.IsAddBeginSet = false := by
      rw [hflagr]
      exact fun h => Bool.noConfusion h
    cases fuel with
    | zero =>
      exfalso
      simp only [List.length_cons] at hfuel
      omega
    | succ n =>
      have hfuel' : rest.length ≤ n := by
        simp only [List.length_cons] at hfuel
        omega
      by_cases hskip : r.hdr.IsValid = false
          ∨ (rest.any fun s => s.hdr.IsValid && s.hdr.IsFirst
              && (s.hdr.mKey == r.hdr.mKey)) = true
      · have hdst' : dstOffset + (encodeRecs (swapRecs rest)).length ≤ dstReg.length := by
          rw [swapRecs, if_pos hskip] at hdst
          exact hdst
        simp only [Flash.swapLoop, if_pos hlt, hdec, if_neg hnb, hvr, if_pos hskip]
        rw [ih (srcOffset + r.hdr.GetSize) n dstReg dstOffset hwfrest hflagrest hreg'
          hused' hfuel' hdst']
        rw [show swapRecs (r :: rest) = swapRecs rest from by rw [swapRecs, if_pos hskip]]
      · have hencc : encodeRecs (swapRecs (r :: rest))
            = recBytes r ++ encodeRecs (swapRecs rest) := by
          rw [swapRecs, if_neg hskip, encodeRecs_cons]
        have hsz : dstOffset + r.hdr.GetSize + (encodeRecs (swapRecs rest)).length
            ≤ dstReg.length := by
          rw [hencc, List.length_append, hrb] at hdst
          omega
        have hdlen : (writeBytes dstReg dstOffset (recBytes r)).length = dstReg.length :=
          writeBytes_length _ _ _ (by rw [hrb]; omega)
        simp only [Flash.swapLoop, if_pos hlt, hdec, if_neg hnb, hvr, if_neg hskip]
        rw [hfull]
        rw [ih (srcOffset + r.hdr.GetSize) n (writeBytes dstReg dstOffset (recBytes r))
          (dstOffset + r.hdr.GetSize) hwfrest hflagrest hreg' hused' hfuel'
          (by rw [hdlen]; exact hsz)]
        rw [hencc, writeBytes_split _ _ _ _ (by omega : dstOffset ≤ dstReg.length), hrb,
          List.length_append, hrb]
        simp [Nat.add_assoc]

theorem encodeU32_length (x : Nat) : (encodeU32 x).length = 4 := by
  simp [encodeU32]

/-- `Flash::Swap()` on a state modelling `rs` whose records are all committed:
the destination region receives the byte image of `swapRecs rs` after the header,
the source region's swap header is downgraded to `INACTIVE`, and the state
switches to the destination region with the compacted frontier. -/
theorem Swap_spec (f : Flash) (rs : List Rec) (hm : f.Models rs)
    (hflags : ∀ r ∈ rs, r.hdr.IsAddBeginSet = true) :
    f.Swap =
      { (f.setRegion (if f.mSwapIndex = 0 then 1 else 0)
          (writeBytes (writeBytes (List.replicate f.mSwapSize 255) 4
            (encodeRecs (swapRecs rs))) 0 (encodeU32 kActive))).setRegion f.mSwapIndex
          (writeBytes (f.region f.mSwapIndex) 0 (encodeU32 kInactive)) with
        mSwapIndex := if f.mSwapIndex = 0 then 1 else 0,
        mSwapUsed := 4 + (encodeRecs (swapRecs rs)).length } := by
  obtain ⟨hhdr, hidx, hrlen, hused, hle, hsz32, hcontent, hwf⟩ := hm
  have hfuel : rs.length ≤ f.mSwapUsed := by
    have := encodeRecs_length_ge rs hwf
    omega
  have hlsw := swapRecs_encLength_le rs
  have hloop := swapLoop_eq_swapRecs f rs 4 f.mSwapUsed (List.replicate f.mSwapSize 255) 4
    hwf hflags hcontent hused hfuel (by rw [List.length_replicate]; omega)
  unfold Flash.Swap
  rw [hhdr]
  dsimp only
  rw [hloop]

theorem setRegion_pair_r1 (f : Flash) (W S : List Nat) :
    ((f.setRegion 1 W).setRegion 0 S).r1 = W := by
  simp [Flash.setRegion]

theorem setRegion_pair_r0 (f : Flash) (W S : List Nat) :
    ((f.setRegion 0 W).setRegion 1 S).r0 = W := by
  simp [Flash.setRegion]

/-- `Flash::Swap()` preserves the record-list abstraction, compacting the list to
`swapRecs rs`. -/
theorem Swap_models (f : Flash) (rs : List Rec) (hm : f.Models rs)
    (hflags : ∀ r ∈ rs, r.hdr.IsAddBeginSet = true) :
    f.Swap.Models (swapRecs rs) := by
  have hspec := Swap_spec f rs hm hflags
  obtain ⟨hhdr, hidx, hrlen, hused, hle, hsz32, hcontent, hwf⟩ := hm
  have hlsw := swapRecs_encLength_le rs
  have hW1len : (writeBytes (List.replicate f.mSwapSize 255) 4
      (encodeRecs (swapRecs rs))).length = f.mSwapSize := by
    rw [writeBytes_length _ _ _ (by rw [List.length_replicate]; omega), List.length_replicate]
  have hWlen : (writeBytes (writeBytes (List.replicate f.mSwapSize 255) 4
      (encodeRecs (swapRecs rs))) 0 (encodeU32 kActive)).length = f.mSwapSize := by
    rw [writeBytes_length _ _ _ (by rw [encodeU32_length, hW1len]; omega), hW1len]
  have hWcontent : readBytes (writeBytes (writeBytes (List.replicate f.mSwapSize 255) 4
        (encodeRecs (swapRecs rs))) 0 (encodeU32 kActive)) 4
        (encodeRecs (swapRecs rs)).length = encodeRecs (swapRecs rs) := by
    rw [readBytes_writeBytes_beyond _ _ _ _ _ (by rw [encodeU32_length])
      (by rw [hW1len]; omega)]
    exact readBytes_writeBytes _ _ _ (by rw [List.length_replicate]; omega)
  have hwf' : ∀ r ∈ swapRecs rs, RecWf r :=
    fun r hr => hwf r ((swapRecs_sublist rs).subset hr)
  rw [hspec]
  rcases hidx with h0 | h1
  · rw [h0]
    simp only [reduceIte]
    refine ⟨?_, ?_, ?_, ?_, ?_, ?_, ?_, hwf'⟩
    · dsimp only
      rw [setRegion_mSwapHeaderSize, setRegion_mSwapHeaderSize]
      exact hhdr
    · right
      rfl
    · dsimp only
      simp [Flash.region]
      rw [setRegion_pair_r1, setRegion_mSwapSize, setRegion_mSwapSize, hWlen]
    · rfl
    · dsimp only
      rw [setRegion_mSwapSize, setRegion_mSwapSize]
      omega
    · dsimp only
      rw [setRegion_mSwapSize, setRegion_mSwapSize]
      exact hsz32
    · dsimp only
      simp [Flash.region]
      rw [setRegion_pair_r1]
      exact hWcontent
  · rw [h1]
    simp only [reduceIte]
    refine ⟨?_, ?_, ?_, ?_, ?_, ?_, ?_, hwf'⟩
    · dsimp only
      rw [setRegion_mSwapHeaderSize, setRegion_mSwapHeaderSize]
      exact hhdr
    · left
      rfl
    · dsimp only
      simp [Flash.region]
      rw [setRegion_pair_r0, setRegion_mSwapSize, setRegion_mSwapSize, hWlen]
    · rfl
    · dsimp only
      rw [setRegion_mSwapSize, setRegion_mSwapSize]
      omega
    · dsimp only
      rw [setRegion_mSwapSize, setRegion_mSwapSize]
      exact hsz32
    · dsimp only
      simp [Flash.region]
      rw [setRegion_pair_r0]
      exact hWcontent

/-- The pre-compaction store of the claim C5 counterexample: from an empty 64-byte
store, `Add(7,[1]); Add(7,[2,2]); Add(7,[3,3,3]); Set(7,[9])` (no swap occurs:
52 of 64 bytes used). -/
def C5pre : Flash :=
  (((((Flash.Wipe (Flash.mk [] [] 64 0 0 0)).Add 7 [1]).1.Add 7 [2, 2]).1.Add
      7 [3, 3, 3]).1.Set 7 [9]).1

/-- Claim C5 (counterexample): `Get(7,1)` returns Found immediately before the
`Swap` (the shadowed old chain is still reachable, see C2) but NotFound
immediately after it: compaction does not preserve every visible (key, index)
pair. -/
theorem C5_counterexample :
    (C5pre.Get 7 1 none none).1 = OtError.None ∧
    (C5pre.Swap.Get 7 1 none none).1 = OtError.NotFound := by
  decide

/-- The `Flash::Get` scan ignores records of other keys and invalid records
without touching its state: it only depends on the valid records of the key. -/
theorem getRecs_eq_filter (aKey : Nat) (aIndex : Int) (copy : Bool) (capacity : Nat) :
    ∀ (rs : List Rec) (st : Flash.GetSt),
      getRecs aKey aIndex copy capacity rs st
        = getRecs aKey aIndex copy capacity
            (rs.filter fun r => (r.hdr.mKey == aKey) && r.hdr.IsValid) st := by
  intro rs
  induction rs with
  | nil => intro st; rfl
  | cons r rest ih =>
    intro st
    by_cases hskip : r.hdr.mKey ≠ aKey ∨ r.hdr.IsValid = false
    · have hp : ((r.hdr.mKey == aKey) && r.hdr.IsValid) = false := by
        rcases hskip with h | h
        · simp [h]
        · simp [h]
      rw [List.filter_cons]
      rw [hp]
      simp only [Bool.false_eq_true, if_false]
      rw [show getRecs aKey aIndex copy capacity (r :: rest) st
          = getRecs aKey aIndex copy capacity rest st from by
        rw [getRecs, if_pos hskip]]
      exact ih st
    · have hp : ((r.hdr.mKey == aKey) && r.hdr.IsValid) = true := by
        push_neg at hskip
        simp [hskip.1, eq_true_of_ne_false hskip.2]
      rw [List.filter_cons, hp]
      simp only [if_true]
      rw [getRecs, if_neg hskip, getRecs, if_neg hskip]
      exact ih _

/-- The suffix of a record list visible after compaction: records that have a
later `First`-marked record in the list (of the same filtered key set) are
dropped. -/
def liveSuffix : List Rec → List Rec
  | [] => []
  | r :: rest =>
    if (rest.any fun s => s.hdr.IsFirst) = true then liveSuffix rest else r :: rest

theorem liveSuffix_of_no_first : ∀ (F : List Rec),
    (F.any fun s => s.hdr.IsFirst) = false → liveSuffix F = F := by
  intro F
  induction F with
  | nil => intro _; rfl
  | cons r rest ih =>
    intro h
    simp only [List.any_cons, Bool.or_eq_false_iff] at h
    rw [liveSuffix, if_neg (by simp [h.2])]

theorem liveSuffix_cases : ∀ (F : List Rec),
    ((F.any fun s => s.hdr.IsFirst) = false ∧ liveSuffix F = F) ∨
      (∃ A g B, F = A ++ g :: B ∧ liveSuffix F = g :: B ∧ g.hdr.IsFirst = true ∧
        (B.any fun s => s.hdr.IsFirst) = false) := by
  intro F
  induction F with
  | nil => left; exact ⟨rfl, rfl⟩
  | cons r rest ih =>
    by_cases h : (rest.any fun s => s.hdr.IsFirst) = true
    · right
      rcases ih with ⟨hno, _⟩ | ⟨A, g, B, hA, hL, hgf, hB⟩
      · rw [hno] at h
        exact absurd h (by simp)
      · refine ⟨r :: A, g, B, ?_, ?_, hgf, hB⟩
        · rw [List.cons_append, ← hA]
        · rw [liveSuffix, if_pos h]
          exact hL
    · have hfalse : (rest.any fun s => s.hdr.IsFirst) = false :=
        Bool.eq_false_iff.mpr h
      by_cases hr : r.hdr.IsFirst = true
      · right
        exact ⟨[], r, rest, rfl, by rw [liveSuffix, if_neg h], hr, hfalse⟩
      · left
        constructor
        · simp only [List.any_cons, hfalse, Bool.or_false]
          exact Bool.eq_false_iff.mpr hr
        · rw [liveSuffix, if_neg h]

theorem any_first_filter (aKey : Nat) : ∀ (l : List Rec),
    (l.any fun s => s.hdr.IsValid && s.hdr.IsFirst && (s.hdr.mKey == aKey))
      = ((l.filter fun t => (t.hdr.mKey == aKey) && t.hdr.IsValid).any
          fun s => s.hdr.IsFirst) := by
  intro l
  induction l with
  | nil => rfl
  | cons r rest ih =>
    simp only [List.any_cons, List.filter_cons]
    by_cases hk : ((r.hdr.mKey == aKey) && r.hdr.IsValid) = true
    · rw [hk]
      simp only [if_true, List.any_cons]
      rw [ih]
      have hKV := hk
      rw [Bool.and_eq_true] at hKV
      rw [hKV.1, hKV.2, Bool.true_and, Bool.and_true]
    · have hkf : ((r.hdr.mKey == aKey) && r.hdr.IsValid) = false :=
        Bool.eq_false_iff.mpr hk
      rw [hkf]
      simp only [Bool.false_eq_true, if_false]
      rw [ih]
      have hhead : (r.hdr.IsValid && r.hdr.IsFirst && (r.hdr.mKey == aKey)) = false := by
        cases hV : r.hdr.IsValid with
        | false => rw [Bool.false_and, Bool.false_and]
        | true =>
          have hKf : (r.hdr.mKey == aKey) = false := by
            rw [hV, Bool.and_true] at hkf
            exact hkf
          rw [hKf, Bool.and_false]
      rw [hhead, Bool.false_or]

/-- The valid records of a key surviving `Swap` are exactly the live suffix of
the valid records of that key: everything from the last valid `First` record of
the key onward (everything, when the key has no valid `First` record). -/
theorem filter_swapRecs (aKey : Nat) : ∀ rs : List Rec,
    ((swapRecs rs).filter fun r => (r.hdr.mKey == aKey) && r.hdr.IsValid)
      = liveSuffix (rs.filter fun r => (r.hdr.mKey == aKey) && r.hdr.IsValid) := by
  intro rs
  induction rs with
  | nil => rfl
  | cons r rest ih =>
    by_cases hp : ((r.hdr.mKey == aKey) && r.hdr.IsValid) = true
    · have hKV := hp
      rw [Bool.and_eq_true] at hKV
      have hKeq : r.hdr.mKey = aKey := by simpa using hKV.1
      have hV : r.hdr.IsValid = true := hKV.2
      have hc_iff : (rest.any fun s => s.hdr.IsValid && s.hdr.IsFirst
            && (s.hdr.mKey == r.hdr.mKey))
          = ((rest.filter fun t => (t.hdr.mKey == aKey) && t.hdr.IsValid).any
              fun s => s.hdr.IsFirst) := by
        rw [hKeq]
        exact any_first_filter aKey rest
      by_cases hsh : (rest.any fun s => s.hdr.IsValid && s.hdr.IsFirst
          && (s.hdr.mKey == r.hdr.mKey)) = true
      · rw [swapRecs, if_pos (Or.inr hsh), List.filter_cons, hp]
        simp only [if_true]
        rw [liveSuffix, if_pos (by rw [← hc_iff]; exact hsh)]
        exact ih
      · have hcond : ¬ (r.hdr.IsValid = false
            ∨ (rest.any fun s => s.hdr.IsValid && s.hdr.IsFirst
                && (s.hdr.mKey == r.hdr.mKey)) = true) := by
          push_neg
          exact ⟨by rw [hV]; exact fun h => Bool.noConfusion h, hsh⟩
        rw [swapRecs, if_neg hcond, List.filter_cons, hp]
        simp only [if_true]
        rw [List.filter_cons, hp]
        simp only [if_true]
        rw [liveSuffix, if_neg (by rw [← hc_iff]; exact hsh)]
        have hnf : ((rest.filter fun t => (t.hdr.mKey == aKey) && t.hdr.IsValid).any
            fun s => s.hdr.IsFirst) = false := by
          rw [← hc_iff]
          exact Bool.eq_false_iff.mpr hsh
        rw [ih, liveSuffix_of_no_first _ hnf]
    · have hpf : ((r.hdr.mKey == aKey) && r.hdr.IsValid) = false :=
        Bool.eq_false_iff.mpr hp
      by_cases hcond : r.hdr.IsValid = false
          ∨ (rest.any fun s => s.hdr.IsValid && s.hdr.IsFirst
              && (s.hdr.mKey == r.hdr.mKey)) = true
      · rw [swapRecs, if_pos hcond, List.filter_cons, hpf]
        simp only [Bool.false_eq_true, if_false]
        exact ih
      · rw [swapRecs, if_neg hcond, List.filter_cons, hpf]
        simp only [Bool.false_eq_true, if_false]
        rw [List.filter_cons, hpf]
        simp only [Bool.false_eq_true, if_false]
        exact ih

theorem take_writeBytes_zero (buf d : List Nat) :
    (writeBytes buf 0 d).take d.length = d := by
  unfold writeBytes
  rw [List.take_zero, List.nil_append, List.take_left' rfl]

theorem take_writeBytes_zero_of_len (buf d : List Nat) (n : Nat) (h : d.length = n) :
    (writeBytes buf 0 d).take n = d := by
  rw [← h]
  exact take_writeBytes_zero buf d

/-- The relation maintained between the `Get` scan run from an arbitrary state
(`s`, the pre-compaction scan arriving at the live suffix) and from the initial
state (`t`, the post-compaction scan): the counters agree, and whenever the
initial-state scan has found a hit, both scans report the same value length and
the same first `min capacity valueLength` buffer bytes. -/
def GetR (cap : Nat) (s t : Flash.GetSt) : Prop :=
  s.index = t.index ∧
  (t.found = true → s.found = true ∧ s.valueLength = t.valueLength ∧
    s.buffer.take (min cap t.valueLength) = t.buffer.take (min cap t.valueLength))

theorem getRecs_GetR (aKey : Nat) (aIndex : Int) (cap : Nat) :
    ∀ (B : List Rec) (s t : Flash.GetSt),
      (∀ r ∈ B, r.hdr.mKey = aKey ∧ r.hdr.IsValid = true ∧ r.hdr.mLength ≤ r.body.length) →
      GetR cap s t →
      GetR cap (getRecs aKey aIndex true cap B s) (getRecs aKey aIndex true cap B t) := by
  intro B
  induction B with
  | nil => intro s t _ hR; exact hR
  | cons r rest ih =>
    intro s t hall hR
    have hr := hall r (by simp)
    have hrest : ∀ x ∈ rest, x.hdr.mKey = aKey ∧ x.hdr.IsValid = true
        ∧ x.hdr.mLength ≤ x.body.length := fun x hx => hall x (by simp [hx])
    have hskip : ¬ (r.hdr.mKey ≠ aKey ∨ r.hdr.IsValid = false) := by
      push_neg
      exact ⟨hr.1, by rw [hr.2.1]; exact fun h => Bool.noConfusion h⟩
    obtain ⟨hidx, himp⟩ := hR
    have hidx_eq : (if r.hdr.IsFirst = true then (0 : Int) else s.index)
        = (if r.hdr.IsFirst = true then (0 : Int) else t.index) := by
      by_cases hF : r.hdr.IsFirst = true
      · rw [if_pos hF, if_pos hF]
      · rw [if_neg hF, if_neg hF, hidx]
    simp only [getRecs, if_neg hskip]
    by_cases hhit : (if r.hdr.IsFirst = true then (0 : Int) else s.index) = aIndex
    · have hhit' : (if r.hdr.IsFirst = true then (0 : Int) else t.index) = aIndex := by
        rw [← hidx_eq]
        exact hhit
      rw [if_pos hhit, if_pos hhit']
      apply ih _ _ hrest
      constructor
      · dsimp only
        rw [hidx_eq]
      · intro _
        simp only [if_true]
        refine ⟨trivial, trivial, ?_⟩
        have hd : (r.body.take (min cap r.hdr.mLength)).length = min cap r.hdr.mLength := by
          rw [List.length_take]
          have := hr.2.2
          omega
        rw [take_writeBytes_zero_of_len s.buffer _ _ hd,
          take_writeBytes_zero_of_len t.buffer _ _ hd]
    · have hhit' : ¬ (if r.hdr.IsFirst = true then (0 : Int) else t.index) = aIndex := by
        rw [← hidx_eq]
        exact hhit
      rw [if_neg hhit, if_neg hhit']
      apply ih _ _ hrest
      constructor
      · dsimp only
        rw [hidx_eq]
      · intro hT
        dsimp only at hT ⊢
        exact himp hT

theorem getRecs_GetR_head (aKey : Nat) (aIndex : Int) (cap : Nat) (g : Rec) (B : List Rec)
    (hall : ∀ r ∈ g :: B, r.hdr.mKey = aKey ∧ r.hdr.IsValid = true
      ∧ r.hdr.mLength ≤ r.body.length)
    (hgf : g.hdr.IsFirst = true) (s t : Flash.GetSt) (ht : t.found = false) :
    GetR cap (getRecs aKey aIndex true cap (g :: B) s)
      (getRecs aKey aIndex true cap (g :: B) t) := by
  have hg := hall g (by simp)
  have hrest : ∀ x ∈ B, x.hdr.mKey = aKey ∧ x.hdr.IsValid = true
      ∧ x.hdr.mLength ≤ x.body.length := fun x hx => hall x (by simp [hx])
  have hskip : ¬ (g.hdr.mKey ≠ aKey ∨ g.hdr.IsValid = false) := by
    push_neg
    exact ⟨hg.1, by rw [hg.2.1]; exact fun h => Bool.noConfusion h⟩
  simp only [getRecs, if_neg hskip, hgf, if_true]
  by_cases hhit : (0 : Int) = aIndex
  · rw [if_pos hhit, if_pos hhit]
    apply getRecs_GetR aKey aIndex cap B _ _ hrest
    constructor
    · rfl
    · intro _
      simp only [if_true]
      refine ⟨trivial, trivial, ?_⟩
      have hd : (g.body.take (min cap g.hdr.mLength)).length = min cap g.hdr.mLength := by
        rw [List.length_take]
        have := hg.2.2
        omega
      rw [take_writeBytes_zero_of_len s.buffer _ _ hd,
        take_writeBytes_zero_of_len t.buffer _ _ hd]
  · rw [if_neg hhit, if_neg hhit]
    apply getRecs_GetR aKey aIndex cap B _ _ hrest
    constructor
    · rfl
    · intro hT
      dsimp only at hT
      rw [ht] at hT
      exact absurd hT (by simp)

/-- Claim C5 (amended): `Swap` compacts the store to `swapRecs rs` — the records
that are valid and not shadowed by a later valid `First` record of the same key —
a sublist of the original records consisting only of valid records; visible
values are preserved in one direction only: whatever `Get(key,index)` finds
after the `Swap` was already found before it, with the same reported length and
the same reported value bytes.  (Shadowed chains reachable before the `Swap`
through the latching quirk of `Get` — see C2 — may disappear; see the
counterexample.) -/
theorem C5_swap_live (f : Flash) (rs : List Rec) (hm : f.Models rs)
    (hflags : ∀ r ∈ rs, r.hdr.IsAddBeginSet = true) :
    f.Swap.Models (swapRecs rs) ∧
    (swapRecs rs).Sublist rs ∧
    (∀ r ∈ swapRecs rs, r.hdr.IsValid = true) ∧
    ∀ (aKey : Nat) (aIndex : Int) (buf : List Nat) (cap : Nat),
      (f.Swap.Get aKey aIndex (some buf) (some cap)).1 = OtError.None →
      (f.Get aKey aIndex (some buf) (some cap)).1 = OtError.None ∧
      (f.Swap.Get aKey aIndex (some buf) (some cap)).2.2
        = (f.Get aKey aIndex (some buf) (some cap)).2.2 ∧
      ((f.Get aKey aIndex (some buf) (some cap)).2.1.getD []).take
          (min cap ((f.Swap.Get aKey aIndex (some buf) (some cap)).2.2.getD 0))
        = ((f.Swap.Get aKey aIndex (some buf) (some cap)).2.1.getD []).take
          (min cap ((f.Swap.Get aKey aIndex (some buf) (some cap)).2.2.getD 0)) := by
  have hm' := Swap_models f rs hm hflags
  have hwfall : ∀ r ∈ rs, RecWf r := hm.2.2.2.2.2.2.2
  refine ⟨hm', swapRecs_sublist rs, swapRecs_valid rs, ?_⟩
  intro aKey aIndex buf cap hpost
  have hPost := Get_eq_getRecs f.Swap (swapRecs rs) hm' aKey aIndex (some buf) (some cap)
  have hPre := Get_eq_getRecs f rs hm aKey aIndex (some buf) (some cap)
  simp only [Option.isSome_some, Bool.and_self, Option.getD_some] at hPost hPre
  have hGid : ∀ s : Flash.GetSt, GetR cap s s := fun s => ⟨rfl, fun h => ⟨h, rfl, rfl⟩⟩
  have hR : GetR cap
      (getRecs aKey aIndex true cap rs
        { found := false, buffer := buf, valueLength := 0, index := 0 })
      (getRecs aKey aIndex true cap (swapRecs rs)
        { found := false, buffer := buf, valueLength := 0, index := 0 }) := by
    rcases liveSuffix_cases (rs.filter fun r => (r.hdr.mKey == aKey) && r.hdr.IsValid)
      with ⟨_, hid⟩ | ⟨A, g, B, hA, hL, hgf, _⟩
    · have hscan : getRecs aKey aIndex true cap (swapRecs rs)
          { found := false, buffer := buf, valueLength := 0, index := 0 }
          = getRecs aKey aIndex true cap rs
            { found := false, buffer := buf, valueLength := 0, index := 0 } := by
        rw [getRecs_eq_filter aKey aIndex true cap (swapRecs rs), filter_swapRecs aKey rs,
          hid, ← getRecs_eq_filter]
      rw [hscan]
      exact hGid _
    · have hall : ∀ x ∈ g :: B, x.hdr.mKey = aKey ∧ x.hdr.IsValid = true
          ∧ x.hdr.mLength ≤ x.body.length := by
        intro x hx
        have hxF : x ∈ rs.filter (fun r => (r.hdr.mKey == aKey) && r.hdr.IsValid) := by
          rw [hA]
          exact List.mem_append_right A hx
        obtain ⟨hxrs, hxp⟩ := List.mem_filter.mp hxF
        rw [Bool.and_eq_true] at hxp
        refine ⟨by simpa using hxp.1, hxp.2, ?_⟩
        have hwfx := hwfall x hxrs
        have hbody := hwfx.2.1
        have hlen := hwfx.1.2.2.1
        rw [GetSize_eq x.hdr hlen] at hbody
        omega
      have hSpre : getRecs aKey aIndex true cap rs
          { found := false, buffer := buf, valueLength := 0, index := 0 }
          = getRecs aKey aIndex true cap (g :: B)
            (getRecs aKey aIndex true cap A
              { found := false, buffer := buf, valueLength := 0, index := 0 }) := by
        rw [getRecs_eq_filter aKey aIndex true cap rs, hA, getRecs_append]
      have hSpost : getRecs aKey aIndex true cap (swapRecs rs)
          { found := false, buffer := buf, valueLength := 0, index := 0 }
          = getRecs aKey aIndex true cap (g :: B)
            { found := false, buffer := buf, valueLength := 0, index := 0 } := by
        rw [getRecs_eq_filter aKey aIndex true cap (swapRecs rs), filter_swapRecs aKey rs, hL]
      rw [hSpre, hSpost]
      exact getRecs_GetR_head aKey aIndex cap g B hall hgf _ _ rfl
  have hfound : (getRecs aKey aIndex true cap (swapRecs rs)
      { found := false, buffer := buf, valueLength := 0, index := 0 }).found = true := by
    rw [hPost] at hpost
    dsimp only at hpost
    cases hF : (getRecs aKey aIndex true cap (swapRecs rs)
        { found := false, buffer := buf, valueLength := 0, index := 0 }).found
    · rw [hF] at hpost
      simp at hpost
    · rfl
  obtain ⟨hfnd, hvl, hbufeq⟩ := hR.2 hfound
  refine ⟨?_, ?_, ?_⟩
  · rw [hPre]
    dsimp only
    rw [hfnd]
    rfl
  · rw [hPost, hPre]
    dsimp only
    rw [hvl]
  · rw [hPost, hPre]
    dsimp only
    exact hbufeq

/-- The record-list abstraction of `C5pre`. -/
def C5rs : List Rec :=
  [committedRec 7 true [1], committedRec 7 false [2, 2], committedRec 7 false [3, 3, 3],
   committedRec 7 true [9]]

theorem C5_swap_live_witness :
    C5pre.Swap.Models (swapRecs C5rs) ∧
    (swapRecs C5rs).Sublist C5rs ∧
    (∀ r ∈ swapRecs C5rs, r.hdr.IsValid = true) ∧
    ∀ (aKey : Nat) (aIndex : Int) (buf : List Nat) (cap : Nat),
      (C5pre.Swap.Get aKey aIndex (some buf) (some cap)).1 = OtError.None →
      (C5pre.Get aKey aIndex (some buf) (some cap)).1 = OtError.None ∧
      (C5pre.Swap.Get aKey aIndex (some buf) (some cap)).2.2
        = (C5pre.Get aKey aIndex (some buf) (some cap)).2.2 ∧
      ((C5pre.Get aKey aIndex (some buf) (some cap)).2.1.getD []).take
          (min cap ((C5pre.Swap.Get aKey aIndex (some buf) (some cap)).2.2.getD 0))
        = ((C5pre.Swap.Get aKey aIndex (some buf) (some cap)).2.1.getD []).take
          (min cap ((C5pre.Swap.Get aKey aIndex (some buf) (some cap)).2.2.getD 0)) :=
  C5_swap_live C5pre C5rs (by decide) (by decide)

theorem Swap_mSwapSize (f : Flash) : f.Swap.mSwapSize = f.mSwapSize := by
  unfold Flash.Swap
  dsimp only
  rcases hsl : Flash.swapLoop f f.mSwapUsed f.mSwapHeaderSize
      (List.replicate f.mSwapSize 255, f.mSwapHeaderSize) with ⟨dr, doff⟩
  rw [setRegion_mSwapSize, setRegion_mSwapSize]

/-- The still-no-space branch of `Flash::Add`: when the record does not fit even
after the `Swap`, the call returns `OT_ERROR_NO_BUFS` and the state is exactly the
post-`Swap` state (nothing is appended). -/
theorem AddImpl_nobufs (f : Flash) (rs : List Rec) (aKey : Nat) (aFirst : Bool)
    (aValue : List Nat) (hm : f.Models rs)
    (hassert : (Flash.mkRecord aKey aFirst aValue).hdr.GetSize + 4 ≤ f.mSwapSize)
    (hnofit : f.mSwapSize < f.mSwapUsed + (Flash.mkRecord aKey aFirst aValue).hdr.GetSize)
    (hstill : f.mSwapSize
      < f.Swap.mSwapUsed + (Flash.mkRecord aKey aFirst aValue).hdr.GetSize) :
    f.AddImpl aKey aFirst aValue = (f.Swap, OtError.NoBufs) := by
  have hsz32 : f.mSwapSize < 4294967296 := hm.2.2.2.2.2.1
  have hsize : (Flash.mkRecord aKey aFirst aValue).hdr.GetSize ≤ f.mSwapSize := by omega
  have hswSize := Swap_mSwapSize f
  have hcond : usub32 f.mSwapSize (Flash.mkRecord aKey aFirst aValue).hdr.GetSize
      < f.mSwapUsed := by
    rw [usub32_eq _ _ hsize hsz32]
    omega
  have hcond2 : usub32 f.Swap.mSwapSize (Flash.mkRecord aKey aFirst aValue).hdr.GetSize
      < f.Swap.mSwapUsed := by
    rw [hswSize, usub32_eq _ _ hsize hsz32]
    omega
  unfold Flash.AddImpl
  rw [if_pos hcond, if_pos hcond2]

/-- The swap-then-fit branch of `Flash::Add`: after the `Swap` the record fits and
is appended to the compacted state. -/
theorem AddImpl_swap_fits (f : Flash) (rs : List Rec) (aKey : Nat) (aFirst : Bool)
    (aValue : List Nat) (hm : f.Models rs)
    (hflags : ∀ r ∈ rs, r.hdr.IsAddBeginSet = true)
    (hkey : aKey < 65536) (hlen : aValue.length ≤ 256) (hbytes : ∀ b ∈ aValue, b < 256)
    (hassert : (Flash.mkRecord aKey aFirst aValue).hdr.GetSize + 4 ≤ f.mSwapSize)
    (hnofit : f.mSwapSize < f.mSwapUsed + (Flash.mkRecord aKey aFirst aValue).hdr.GetSize)
    (hfit2 : f.Swap.mSwapUsed + (Flash.mkRecord aKey aFirst aValue).hdr.GetSize
      ≤ f.mSwapSize) :
    f.AddImpl aKey aFirst aValue
      = (appendState f.Swap (committedRec aKey aFirst aValue), OtError.None) := by
  have hsz32 : f.mSwapSize < 4294967296 := hm.2.2.2.2.2.1
  have hsize : (Flash.mkRecord aKey aFirst aValue).hdr.GetSize ≤ f.mSwapSize := by omega
  have hswSize := Swap_mSwapSize f
  have hcond : usub32 f.mSwapSize (Flash.mkRecord aKey aFirst aValue).hdr.GetSize
      < f.mSwapUsed := by
    rw [usub32_eq _ _ hsize hsz32]
    omega
  have hcond2 : ¬ (usub32 f.Swap.mSwapSize (Flash.mkRecord aKey aFirst aValue).hdr.GetSize
      < f.Swap.mSwapUsed) := by
    rw [hswSize, usub32_eq _ _ hsize hsz32]
    omega
  have hm' := Swap_models f rs hm hflags
  have hfits := AddImpl_fits f.Swap (swapRecs rs) aKey aFirst aValue hm' hkey hlen hbytes
    (by rw [hswSize]; exact hfit2)
  unfold Flash.AddImpl at hfits ⊢
  rw [if_neg hcond2] at hfits
  rw [if_pos hcond, if_neg hcond2]
  exact hfits

/-- Claim C7: `Add` space handling.  With `RecordSize = GetSize = 8 + ceil(len/4)*4`:
if the record fits at the frontier, it is appended by the two-phase write and the
call returns `OT_ERROR_NONE` without a `Swap`; if `swapUsed + RecordSize >
swapSize`, `Swap` is invoked, and then either the record still does not fit and
the call returns `OT_ERROR_NO_BUFS` leaving exactly the post-`Swap` state (no
record appended), or it now fits and is appended to the post-`Swap` state with
`OT_ERROR_NONE`.  (`OT_ASSERT((mSwapSize - size) >= mSwapHeaderSize)` is carried
as the hypothesis `hassert`.) -/
theorem C7_add_space (f : Flash) (rs : List Rec) (aKey : Nat) (aFirst : Bool)
    (aValue : List Nat) (hm : f.Models rs)
    (hflags : ∀ r ∈ rs, r.hdr.IsAddBeginSet = true)
    (hkey : aKey < 65536) (hlen : aValue.length ≤ 256) (hbytes : ∀ b ∈ aValue, b < 256)
    (hassert : (Flash.mkRecord aKey aFirst aValue).hdr.GetSize + 4 ≤ f.mSwapSize) :
    (f.mSwapUsed + (Flash.mkRecord aKey aFirst aValue).hdr.GetSize ≤ f.mSwapSize →
      f.AddImpl aKey aFirst aValue
        = (appendState f (committedRec aKey aFirst aValue), OtError.None)) ∧
    (f.mSwapSize < f.mSwapUsed + (Flash.mkRecord aKey aFirst aValue).hdr.GetSize →
      (f.mSwapSize < f.Swap.mSwapUsed + (Flash.mkRecord aKey aFirst aValue).hdr.GetSize →
        f.AddImpl aKey aFirst aValue = (f.Swap, OtError.NoBufs)) ∧
      (f.Swap.mSwapUsed + (Flash.mkRecord aKey aFirst aValue).hdr.GetSize ≤ f.mSwapSize →
        f.AddImpl aKey aFirst aValue
          = (appendState f.Swap (committedRec aKey aFirst aValue), OtError.None))) := by
  have hsz32 : f.mSwapSize < 4294967296 := hm.2.2.2.2.2.1
  have hsize : (Flash.mkRecord aKey aFirst aValue).hdr.GetSize ≤ f.mSwapSize := by omega
  have hswSize := Swap_mSwapSize f
  constructor
  · intro hfit
    exact AddImpl_fits f rs aKey aFirst aValue hm hkey hlen hbytes hfit
  · intro hnofit
    have hcond : usub32 f.mSwapSize (Flash.mkRecord aKey aFirst aValue).hdr.GetSize
        < f.mSwapUsed := by
      rw [usub32_eq _ _ hsize hsz32]
      omega
    exact ⟨fun hstill => AddImpl_nobufs f rs aKey aFirst aValue hm hassert hnofit hstill,
      fun hfit2 => AddImpl_swap_fits f rs aKey aFirst aValue hm hflags hkey hlen hbytes
        hassert hnofit hfit2⟩

theorem C7_add_space_witness :
    (C5pre.mSwapUsed + (Flash.mkRecord 7 false [5]).hdr.GetSize ≤ C5pre.mSwapSize →
      C5pre.AddImpl 7 false [5]
        = (appendState C5pre (committedRec 7 false [5]), OtError.None)) ∧
    (C5pre.mSwapSize < C5pre.mSwapUsed + (Flash.mkRecord 7 false [5]).hdr.GetSize →
      (C5pre.mSwapSize < C5pre.Swap.mSwapUsed + (Flash.mkRecord 7 false [5]).hdr.GetSize →
        C5pre.AddImpl 7 false [5] = (C5pre.Swap, OtError.NoBufs)) ∧
      (C5pre.Swap.mSwapUsed + (Flash.mkRecord 7 false [5]).hdr.GetSize ≤ C5pre.mSwapSize →
        C5pre.AddImpl 7 false [5]
          = (appendState C5pre.Swap (committedRec 7 false [5]), OtError.None))) :=
  C7_add_space C5pre C5rs 7 false [5] (by decide) (by decide) (by decide) (by decide)
    (by decide) (by decide)

/-! ### Claim C8: `Init` -/

theorem land_three_eq_mod (x : Nat) : x &&& 3 = x % 4 := by
  have := Nat.and_pow_two_sub_one_eq_mod x 2
  simpa using this

theorem encodeRecs_length_mod4 : ∀ rs : List Rec, (∀ r ∈ rs, RecWf r) →
    (encodeRecs rs).length % 4 = 0 := by
  intro rs
  induction rs with
  | nil => intro _; rfl
  | cons r rest ih =>
    intro hwf
    have hwfr : RecWf r := hwf r (by simp)
    rw [encodeRecs_cons, List.length_append, recBytes_length r hwfr]
    have h1 := GetSize_mod_four r.hdr hwfr.1.2.2.1
    have h2 := ih fun s hs => hwf s (by simp [hs])
    omega

theorem erasedHeader_AddBegin : (decodeHeader (List.replicate 8 255)).IsAddBeginSet = false := by
  decide

/-- The frontier scan of `Flash::Init` on an image made of committed records at
offset `used` followed by an erased header (or too little room for one): the scan
lands exactly past the committed records. -/
theorem initScanLoop_eq_used (reg : List Nat) (swapSize : Nat)
    (hsz8 : 8 ≤ swapSize) (hsz32 : swapSize < 4294967296) :
    ∀ (rs : List Rec) (used fuel : Nat),
      (∀ r ∈ rs, RecWf r) →
      (∀ r ∈ rs, r.hdr.IsAddBeginSet = true ∧ r.hdr.IsAddCompleteSet = true) →
      readBytes reg used (encodeRecs rs).length = encodeRecs rs →
      used + (encodeRecs rs).length ≤ swapSize →
      (used + (encodeRecs rs).length + 8 ≤ swapSize →
        readBytes reg (used + (encodeRecs rs).length) 8 = List.replicate 8 255) →
      rs.length ≤ fuel →
      Flash.initScanLoop reg swapSize fuel used = used + (encodeRecs rs).length := by
  intro rs
  induction rs with
  | nil =>
    intro used fuel _ _ _ hle htail _
    rw [encodeRecs_nil]
    show Flash.initScanLoop reg swapSize fuel used = used + 0
    rw [Nat.add_zero]
    cases fuel with
    | zero => rfl
    | succ n =>
      by_cases hg : used ≤ usub32 swapSize 8
      · have hg' : used + 8 ≤ swapSize := by
          rw [usub32_eq _ _ hsz8 hsz32] at hg
          omega
        have herased : readBytes reg used 8 = List.replicate 8 255 := by
          have := htail (by rw [encodeRecs_nil]; simpa using hg')
          rw [encodeRecs_nil] at this
          simpa using this
        simp only [Flash.initScanLoop, if_pos hg, herased, erasedHeader_AddBegin]
        exact if_pos trivial
      · simp only [Flash.initScanLoop, if_neg hg]
  | cons r rest ih =>
    intro used fuel hwf hflags hreg hle htail hfuel
    have hwfr : RecWf r := hwf r (by simp)
    have hwfrest : ∀ s ∈ rest, RecWf s := fun s hs => hwf s (by simp [hs])
    have hflagr := hflags r (by simp)
    have hflagrest : ∀ s ∈ rest, s.hdr.IsAddBeginSet = true ∧ s.hdr.IsAddCompleteSet = true :=
      fun s hs => hflags s (by simp [hs])
    have hlen256 : r.hdr.mLength ≤ 256 := hwfr.1.2.2.1
    have hrb : (recBytes r).length = r.hdr.GetSize := recBytes_length r hwfr
    have hge : 8 ≤ r.hdr.GetSize := GetSize_ge r.hdr hlen256
    have henc : encodeRecs (r :: rest) = recBytes r ++ encodeRecs rest := encodeRecs_cons r rest
    have henclen : (encodeRecs (r :: rest)).length
        = r.hdr.GetSize + (encodeRecs rest).length := by
      rw [henc, List.length_append, hrb]
    have hread8 : readBytes reg used 8 = encodeHeader r.hdr := by
      have h1 : readBytes reg used 8 = (encodeRecs (r :: rest)).take 8 :=
        readBytes_take_front reg _ used _ 8 hreg (by omega)
      rw [h1, henc, recBytes, List.append_assoc]
      exact List.take_left' (encodeHeader_length r.hdr)
    have hdec : decodeHeader (readBytes reg used 8) = r.hdr := by
      rw [hread8]
      exact decodeHeader_encodeHeader r.hdr hwfr.1
    have hreg' : readBytes reg (used + r.hdr.GetSize) (encodeRecs rest).length
        = encodeRecs rest := by
      have h2 := readBytes_within reg (encodeRecs (r :: rest)) used
        (encodeRecs (r :: rest)).length r.hdr.GetSize (encodeRecs rest).length hreg
        (by rw [henclen])
      rw [h2, henc, ← hrb, List.drop_left' rfl, List.take_length]
    have hg : used ≤ usub32 swapSize 8 := by
      rw [usub32_eq _ _ hsz8 hsz32]
      rw [henclen] at hle
      omega
    have hb1 : ¬ r.hdr.IsAddBeginSet = false := by
      rw [hflagr.1]
      exact fun h => Bool.noConfusion h
    have hb2 : ¬ r.hdr.IsAddCompleteSet = false := by
      rw [hflagr.2]
      exact fun h => Bool.noConfusion h
    cases fuel with
    | zero =>
      exfalso
      simp only [List.length_cons] at hfuel
      omega
    | succ n =>
      have hfuel' : rest.length ≤ n := by
        simp only [List.length_cons] at hfuel
        omega
      have hoff : used + r.hdr.GetSize + (encodeRecs rest).length
          = used + (encodeRecs (r :: rest)).length := by
        rw [henclen]
        omega
      simp only [Flash.initScanLoop, if_pos hg, hdec, if_neg hb1, if_neg hb2]
      rw [ih (used + r.hdr.GetSize) n hwfrest hflagrest hreg'
        (by omega) (by rw [hoff]; exact htail) hfuel', hoff]

/-- The free-space word scan of `Flash::SanitizeFreeSpace` reports nothing to
sanitize on an erased tail of word-aligned size. -/
theorem eraseCheckLoop_false (reg : List Nat) (swapSize : Nat) :
    ∀ (k offset : Nat), swapSize - offset ≤ k →
      readBytes reg offset (swapSize - offset) = List.replicate (swapSize - offset) 255 →
      (swapSize - offset) % 4 = 0 →
      Flash.eraseCheckLoop reg swapSize offset = false := by
  intro k
  induction k with
  | zero =>
    intro offset hk _ _
    unfold Flash.eraseCheckLoop
    rw [if_neg (by omega)]
  | succ n ih =>
    intro offset hk herased hmod
    by_cases hlt : offset < swapSize
    · have h4 : offset + 4 ≤ swapSize := by omega
      have hword : readBytes reg offset 4 = List.replicate 4 255 := by
        have h := readBytes_take_front reg _ offset (swapSize - offset) 4 herased (by omega)
        rw [h, List.take_replicate]
        congr 1
        omega
      have hff : ¬ (decodeU32 (List.replicate 4 255) ≠ 4294967295) := by decide
      have htail' : readBytes reg (offset + 4) (swapSize - (offset + 4))
          = List.replicate (swapSize - (offset + 4)) 255 := by
        have h := readBytes_within reg _ offset (swapSize - offset) 4
          (swapSize - (offset + 4)) herased (by omega)
        rw [h, List.drop_replicate, List.take_replicate]
        congr 1
        omega
      unfold Flash.eraseCheckLoop
      rw [if_pos hlt, hword, if_neg hff]
      exact ih (offset + 4) (by omega) htail' (by omega)
    · unfold Flash.eraseCheckLoop
      rw [if_neg hlt]

/-- Claim C8: `Init` reads region 0's swap header first and selects region 0 when
it is `ACTIVE`, otherwise region 1 when it is `ACTIVE`, otherwise wipes; the
frontier scan never starts a record at an offset past `swapSize - 8`; and on a
selected region holding committed records followed by erased space the scan sets
`mSwapUsed` to the offset of the first record header whose `AddBegin` or
`AddComplete` bit is still 1 — the erased header right after the committed
records (the state is returned unchanged by `SanitizeFreeSpace`). -/
theorem initScan_spec (reg : List Nat) (swapSize : Nat) (rs : List Rec)
    (hsz8 : 8 ≤ swapSize) (hsz32 : swapSize < 4294967296)
    (hwf : ∀ r ∈ rs, RecWf r)
    (hflags : ∀ r ∈ rs, r.hdr.IsAddBeginSet = true ∧ r.hdr.IsAddCompleteSet = true)
    (hcontent : readBytes reg 4 (encodeRecs rs).length = encodeRecs rs)
    (hle : 4 + (encodeRecs rs).length ≤ swapSize)
    (htail : readBytes reg (4 + (encodeRecs rs).length)
        (swapSize - (4 + (encodeRecs rs).length))
      = List.replicate (swapSize - (4 + (encodeRecs rs).length)) 255) :
    Flash.initScanLoop reg swapSize (swapSize + 1) 4 = 4 + (encodeRecs rs).length := by
  have hfuel : rs.length ≤ swapSize + 1 := by
    have := encodeRecs_length_ge rs hwf
    omega
  apply initScanLoop_eq_used reg swapSize hsz8 hsz32 rs 4 (swapSize + 1) hwf hflags
    hcontent hle _ hfuel
  intro h8
  have h := readBytes_take_front reg _ (4 + (encodeRecs rs).length)
    (swapSize - (4 + (encodeRecs rs).length)) 8 htail (by omega)
  rw [h, List.take_replicate]
  congr 1
  omega

theorem sanitize_noop (g : Flash) (swapSize : Nat) (rs : List Rec)
    (hsz4 : swapSize % 4 = 0)
    (hused : g.mSwapUsed = 4 + (encodeRecs rs).length)
    (hwf : ∀ r ∈ rs, RecWf r)
    (hle : g.mSwapUsed ≤ g.mSwapSize)
    (hsz : g.mSwapSize = swapSize)
    (htail : readBytes (g.region g.mSwapIndex) g.mSwapUsed (swapSize - g.mSwapUsed)
      = List.replicate (swapSize - g.mSwapUsed) 255) :
    Flash.SanitizeFreeSpace g = g := by
  have hmod4 : g.mSwapUsed % 4 = 0 := by
    rw [hused]
    have := encodeRecs_length_mod4 rs hwf
    omega
  have hand : (g.mSwapUsed &&& 3) = 0 := by
    rw [land_three_eq_mod]
    exact hmod4
  unfold Flash.SanitizeFreeSpace
  have hno : ¬ ((g.mSwapUsed &&& 3) ≠ 0) := by
    rw [hand]
    exact fun h => h rfl
  rw [if_neg hno, hsz]
  rw [hsz] at hle
  have hfalse := eraseCheckLoop_false (g.region g.mSwapIndex) swapSize
    (swapSize - g.mSwapUsed) g.mSwapUsed (by omega) htail (by omega)
  rw [hfalse]
  have hnt : ¬ (false = true) := fun h => Bool.noConfusion h
  rw [if_neg hnt]

theorem Init_active0_spec (r0 r1 : List Nat) (swapSize : Nat) (rs : List Rec)
    (hsz8 : 8 ≤ swapSize) (hsz4 : swapSize % 4 = 0) (hsz32 : swapSize < 4294967296)
    (h0 : decodeU32 (readBytes r0 0 4) = kActive)
    (hwf : ∀ r ∈ rs, RecWf r)
    (hflags : ∀ r ∈ rs, r.hdr.IsAddBeginSet = true ∧ r.hdr.IsAddCompleteSet = true)
    (hcontent : readBytes r0 4 (encodeRecs rs).length = encodeRecs rs)
    (hle : 4 + (encodeRecs rs).length ≤ swapSize)
    (htail : readBytes r0 (4 + (encodeRecs rs).length)
        (swapSize - (4 + (encodeRecs rs).length))
      = List.replicate (swapSize - (4 + (encodeRecs rs).length)) 255) :
    Flash.Init r0 r1 swapSize
      = { r0 := r0, r1 := r1, mSwapSize := swapSize,
          mSwapUsed := 4 + (encodeRecs rs).length, mSwapIndex := 0,
          mSwapHeaderSize := 4 } := by
  unfold Flash.Init
  rw [if_pos h0, initScan_spec r0 swapSize rs hsz8 hsz32 hwf hflags hcontent hle htail]
  exact sanitize_noop _ swapSize rs hsz4 rfl hwf (by dsimp only; omega) rfl
    (by dsimp only [Flash.region]; simpa using htail)

theorem Init_active1_spec (r0 r1 : List Nat) (swapSize : Nat) (rs : List Rec)
    (hsz8 : 8 ≤ swapSize) (hsz4 : swapSize % 4 = 0) (hsz32 : swapSize < 4294967296)
    (h0 : ¬ decodeU32 (readBytes r0 0 4) = kActive)
    (h1 : decodeU32 (readBytes r1 0 4) = kActive)
    (hwf : ∀ r ∈ rs, RecWf r)
    (hflags : ∀ r ∈ rs, r.hdr.IsAddBeginSet = true ∧ r.hdr.IsAddCompleteSet = true)
    (hcontent : readBytes r1 4 (encodeRecs rs).length = encodeRecs rs)
    (hle : 4 + (encodeRecs rs).length ≤ swapSize)
    (htail : readBytes r1 (4 + (encodeRecs rs).length)
        (swapSize - (4 + (encodeRecs rs).length))
      = List.replicate (swapSize - (4 + (encodeRecs rs).length)) 255) :
    Flash.Init r0 r1 swapSize
      = { r0 := r0, r1 := r1, mSwapSize := swapSize,
          mSwapUsed := 4 + (encodeRecs rs).length, mSwapIndex := 1,
          mSwapHeaderSize := 4 } := by
  unfold Flash.Init
  rw [if_neg h0, if_pos h1, initScan_spec r1 swapSize rs hsz8 hsz32 hwf hflags hcontent
    hle htail]
  exact sanitize_noop _ swapSize rs hsz4 rfl hwf (by dsimp only; omega) rfl
    (by dsimp only [Flash.region]; simpa using htail)

theorem C8_init (r0 r1 : List Nat) (swapSize : Nat) (rs : List Rec)
    (hsz8 : 8 ≤ swapSize) (hsz4 : swapSize % 4 = 0) (hsz32 : swapSize < 4294967296) :
    (¬ decodeU32 (readBytes r0 0 4) = kActive → ¬ decodeU32 (readBytes r1 0 4) = kActive →
      Flash.Init r0 r1 swapSize
        = Flash.Wipe { r0 := r0, r1 := r1, mSwapSize := swapSize, mSwapUsed := 0,
                       mSwapIndex := 0, mSwapHeaderSize := 0 }) ∧
    (∀ (reg : List Nat) (fuel u : Nat), usub32 swapSize 8 < u →
      Flash.initScanLoop reg swapSize fuel u = u) ∧
    (decodeU32 (readBytes r0 0 4) = kActive →
      r0.length = swapSize →
      (∀ r ∈ rs, RecWf r) →
      (∀ r ∈ rs, r.hdr.IsAddBeginSet = true ∧ r.hdr.IsAddCompleteSet = true) →
      readBytes r0 4 (encodeRecs rs).length = encodeRecs rs →
      4 + (encodeRecs rs).length ≤ swapSize →
      readBytes r0 (4 + (encodeRecs rs).length) (swapSize - (4 + (encodeRecs rs).length))
        = List.replicate (swapSize - (4 + (encodeRecs rs).length)) 255 →
      Flash.Init r0 r1 swapSize
        = { r0 := r0, r1 := r1, mSwapSize := swapSize,
            mSwapUsed := 4 + (encodeRecs rs).length, mSwapIndex := 0,
            mSwapHeaderSize := 4 }) ∧
    (¬ decodeU32 (readBytes r0 0 4) = kActive →
      decodeU32 (readBytes r1 0 4) = kActive →
      r1.length = swapSize →
      (∀ r ∈ rs, RecWf r) →
      (∀ r ∈ rs, r.hdr.IsAddBeginSet = true ∧ r.hdr.IsAddCompleteSet = true) →
      readBytes r1 4 (encodeRecs rs).length = encodeRecs rs →
      4 + (encodeRecs rs).length ≤ swapSize →
      readBytes r1 (4 + (encodeRecs rs).length) (swapSize - (4 + (encodeRecs rs).length))
        = List.replicate (swapSize - (4 + (encodeRecs rs).length)) 255 →
      Flash.Init r0 r1 swapSize
        = { r0 := r0, r1 := r1, mSwapSize := swapSize,
            mSwapUsed := 4 + (encodeRecs rs).length, mSwapIndex := 1,
            mSwapHeaderSize := 4 }) := by
  refine ⟨?_, ?_, ?_, ?_⟩
  · intro h0 h1
    unfold Flash.Init
    rw [if_neg h0, if_neg h1]
  · intro reg fuel u hgt
    cases fuel with
    | zero => rfl
    | succ n =>
      simp only [Flash.initScanLoop, if_neg (by omega : ¬ u ≤ usub32 swapSize 8)]
  · intro h0 _ hwf hflags hcontent hle htail
    exact Init_active0_spec r0 r1 swapSize rs hsz8 hsz4 hsz32 h0 hwf hflags hcontent
      hle htail
  · intro h0 h1 _ hwf hflags hcontent hle htail
    exact Init_active1_spec r0 r1 swapSize rs hsz8 hsz4 hsz32 h0 h1 hwf hflags hcontent
      hle htail

theorem C8_init_witness :
    (¬ decodeU32 (readBytes C5pre.r0 0 4) = kActive →
      ¬ decodeU32 (readBytes ([] : List Nat) 0 4) = kActive →
      Flash.Init C5pre.r0 [] 64
        = Flash.Wipe { r0 := C5pre.r0, r1 := [], mSwapSize := 64, mSwapUsed := 0,
                       mSwapIndex := 0, mSwapHeaderSize := 0 }) ∧
    (∀ (reg : List Nat) (fuel u : Nat), usub32 64 8 < u →
      Flash.initScanLoop reg 64 fuel u = u) ∧
    (decodeU32 (readBytes C5pre.r0 0 4) = kActive →
      C5pre.r0.length = 64 →
      (∀ r ∈ C5rs, RecWf r) →
      (∀ r ∈ C5rs, r.hdr.IsAddBeginSet = true ∧ r.hdr.IsAddCompleteSet = true) →
      readBytes C5pre.r0 4 (encodeRecs C5rs).length = encodeRecs C5rs →
      4 + (encodeRecs C5rs).length ≤ 64 →
      readBytes C5pre.r0 (4 + (encodeRecs C5rs).length)
          (64 - (4 + (encodeRecs C5rs).length))
        = List.replicate (64 - (4 + (encodeRecs C5rs).length)) 255 →
      Flash.Init C5pre.r0 [] 64
        = { r0 := C5pre.r0, r1 := [], mSwapSize := 64,
            mSwapUsed := 4 + (encodeRecs C5rs).length, mSwapIndex := 0,
            mSwapHeaderSize := 4 }) ∧
    (¬ decodeU32 (readBytes C5pre.r0 0 4) = kActive →
      decodeU32 (readBytes ([] : List Nat) 0 4) = kActive →
      ([] : List Nat).length = 64 →
      (∀ r ∈ C5rs, RecWf r) →
      (∀ r ∈ C5rs, r.hdr.IsAddBeginSet = true ∧ r.hdr.IsAddCompleteSet = true) →
      readBytes ([] : List Nat) 4 (encodeRecs C5rs).length = encodeRecs C5rs →
      4 + (encodeRecs C5rs).length ≤ 64 →
      readBytes ([] : List Nat) (4 + (encodeRecs C5rs).length)
          (64 - (4 + (encodeRecs C5rs).length))
        = List.replicate (64 - (4 + (encodeRecs C5rs).length)) 255 →
      Flash.Init C5pre.r0 [] 64
        = { r0 := C5pre.r0, r1 := [], mSwapSize := 64,
            mSwapUsed := 4 + (encodeRecs C5rs).length, mSwapIndex := 1,
            mSwapHeaderSize := 4 }) :=
  C8_init C5pre.r0 [] 64 C5rs (by decide) (by decide) (by decide)

/-! ### Claim C9: the frontier invariant -/

theorem readBytes_replicate (n a o k : Nat) :
    readBytes (List.replicate n a) o k = List.replicate (min k (n - o)) a := by
  unfold readBytes
  rw [List.drop_replicate, List.take_replicate]

/-- The frontier invariant of the store: the write frontier `mSwapUsed` is
word-aligned and lies between the swap header and the end of the region, and
every byte of the active region from the frontier to the end is erased
(all-ones). -/
def FrontierInv (f : Flash) : Prop :=
  f.mSwapUsed % 4 = 0 ∧
  f.mSwapHeaderSize ≤ f.mSwapUsed ∧
  f.mSwapUsed ≤ f.mSwapSize ∧
  readBytes (f.region f.mSwapIndex) f.mSwapUsed (f.mSwapSize - f.mSwapUsed)
    = List.replicate (f.mSwapSize - f.mSwapUsed) 255

instance (f : Flash) : Decidable (FrontierInv f) := by
  unfold FrontierInv
  infer_instance

theorem FrontierInv_Wipe (f : Flash) (h4 : 4 ≤ f.mSwapSize) :
    FrontierInv (Flash.Wipe f) := by
  refine ⟨?_, ?_, ?_, ?_⟩
  · show 4 % 4 = 0
    rfl
  · show (4 : Nat) ≤ 4
    exact Nat.le_refl 4
  · show (4 : Nat) ≤ f.mSwapSize
    exact h4
  · show readBytes (writeBytes (List.replicate f.mSwapSize 255) 0 (encodeU32 kActive)) 4
        (f.mSwapSize - 4) = List.replicate (f.mSwapSize - 4) 255
    rw [readBytes_writeBytes_beyond _ _ _ _ _ (by rw [encodeU32_length])
      (Nat.zero_le _), readBytes_replicate]
    congr 1
    omega

theorem FrontierInv_appendState (g : Flash) (rs : List Rec) (c : Rec)
    (hm : g.Models rs) (hinv : FrontierInv g) (hwfc : RecWf c)
    (hfit : g.mSwapUsed + c.hdr.GetSize ≤ g.mSwapSize) :
    FrontierInv (appendState g c) := by
  obtain ⟨hhdr, hidx, hrlen, hused, hle, hsz32, hcontent, hwf⟩ := hm
  obtain ⟨h4, hh, hlelt, htail⟩ := hinv
  have hrbc : (recBytes c).length = c.hdr.GetSize := recBytes_length c hwfc
  have hmod := GetSize_mod_four c.hdr hwfc.1.2.2.1
  refine ⟨?_, ?_, ?_, ?_⟩
  · rw [appendState_mSwapUsed]
    omega
  · rw [appendState_mSwapUsed, appendState_mSwapHeaderSize]
    omega
  · rw [appendState_mSwapUsed, appendState_mSwapSize]
    exact hfit
  · rw [appendState_mSwapUsed, appendState_mSwapSize, appendState_mSwapIndex,
      appendState_region_active]
    rw [readBytes_writeBytes_beyond _ _ _ _ _ (by rw [hrbc]) (by omega)]
    have h := readBytes_within (g.region g.mSwapIndex) _ g.mSwapUsed
      (g.mSwapSize - g.mSwapUsed) c.hdr.GetSize
      (g.mSwapSize - (g.mSwapUsed + c.hdr.GetSize)) htail (by omega)
    rw [h, List.drop_replicate, List.take_replicate]
    congr 1
    omega

theorem FrontierInv_Swap (f : Flash) (rs : List Rec) (hm : f.Models rs)
    (hflags : ∀ r ∈ rs, r.hdr.IsAddBeginSet = true) :
    FrontierInv f.Swap := by
  have hspec := Swap_spec f rs hm hflags
  obtain ⟨hhdr, hidx, hrlen, hused, hle, hsz32, hcontent, hwf⟩ := hm
  have hwf' : ∀ r ∈ swapRecs rs, RecWf r :=
    fun r hr => hwf r ((swapRecs_sublist rs).subset hr)
  have hmod := encodeRecs_length_mod4 (swapRecs rs) hwf'
  have hlsw := swapRecs_encLength_le rs
  rw [hspec]
  refine ⟨?_, ?_, ?_, ?_⟩
  · dsimp only
    omega
  · dsimp only
    rw [setRegion_mSwapHeaderSize, setRegion_mSwapHeaderSize, hhdr]
    omega
  · dsimp only
    rw [setRegion_mSwapSize, setRegion_mSwapSize]
    omega
  · rcases hidx with h0 | h1
    · rw [h0]
      simp only [reduceIte]
      simp [Flash.region]
      rw [setRegion_pair_r1, setRegion_mSwapSize, setRegion_mSwapSize]
      rw [readBytes_writeBytes_beyond _ _ _ _ _ (by rw [encodeU32_length]; omega)
        (Nat.zero_le _)]
      rw [readBytes_writeBytes_beyond _ _ _ _ _ (by omega)
        (by rw [List.length_replicate]; omega)]
      rw [readBytes_replicate]
      congr 1
      omega
    · rw [h1]
      simp only [reduceIte]
      simp [Flash.region]
      rw [setRegion_pair_r0, setRegion_mSwapSize, setRegion_mSwapSize]
      rw [readBytes_writeBytes_beyond _ _ _ _ _ (by rw [encodeU32_length]; omega)
        (Nat.zero_le _)]
      rw [readBytes_writeBytes_beyond _ _ _ _ _ (by omega)
        (by rw [List.length_replicate]; omega)]
      rw [readBytes_replicate]
      congr 1
      omega

theorem FrontierInv_Delete (f : Flash) (rs : List Rec) (aKey : Nat) (aIndex : Int)
    (hm : f.Models rs) (hinv : FrontierInv f) :
    FrontierInv ((f.Delete aKey aIndex).1) := by
  have hspec := Delete_spec f rs aKey aIndex hm
  obtain ⟨hhdr, hidx, hrlen, hused, hle, hsz32, hcontent, hwf⟩ := hm
  obtain ⟨h4, hh, hlelt, htail⟩ := hinv
  have hencl := deleteRecs_encLength aKey aIndex rs 0 false
  rw [hspec]
  dsimp only
  refine ⟨?_, ?_, ?_, ?_⟩
  · rw [setRegion_mSwapUsed]
    exact h4
  · rw [setRegion_mSwapUsed, setRegion_mSwapHeaderSize]
    exact hh
  · rw [setRegion_mSwapUsed, setRegion_mSwapSize]
    exact hlelt
  · rw [setRegion_mSwapUsed, setRegion_mSwapSize, setRegion_mSwapIndex,
      setRegion_region_self]
    rw [readBytes_writeBytes_beyond _ _ _ _ _ (by rw [hencl]; omega) (by omega)]
    exact htail

theorem FrontierInv_AddImpl (f : Flash) (rs : List Rec) (aKey : Nat) (aFirst : Bool)
    (aValue : List Nat) (hm : f.Models rs) (hinv : FrontierInv f)
    (hflags : ∀ r ∈ rs, r.hdr.IsAddBeginSet = true)
    (hkey : aKey < 65536) (hlen : aValue.length ≤ 256) (hbytes : ∀ b ∈ aValue, b < 256)
    (hassert : (Flash.mkRecord aKey aFirst aValue).hdr.GetSize + 4 ≤ f.mSwapSize) :
    FrontierInv ((f.AddImpl aKey aFirst aValue).1) := by
  have hwfc := committedRec_wf aKey aFirst aValue hkey hlen hbytes
  have hcsize := committedRec_GetSize aKey aFirst aValue
  by_cases hfit : f.mSwapUsed + (Flash.mkRecord aKey aFirst aValue).hdr.GetSize
      ≤ f.mSwapSize
  · rw [AddImpl_fits f rs aKey aFirst aValue hm hkey hlen hbytes hfit]
    exact FrontierInv_appendState f rs _ hm hinv hwfc (by rw [hcsize]; exact hfit)
  · have hnofit : f.mSwapSize < f.mSwapUsed + (Flash.mkRecord aKey aFirst aValue).hdr.GetSize := by
      omega
    by_cases hfit2 : f.Swap.mSwapUsed + (Flash.mkRecord aKey aFirst aValue).hdr.GetSize
        ≤ f.mSwapSize
    · rw [AddImpl_swap_fits f rs aKey aFirst aValue hm hflags hkey hlen hbytes hassert
        hnofit hfit2]
      exact FrontierInv_appendState f.Swap (swapRecs rs) _ (Swap_models f rs hm hflags)
        (FrontierInv_Swap f rs hm hflags) hwfc
        (by rw [hcsize, Swap_mSwapSize]; exact hfit2)
    · rw [AddImpl_nobufs f rs aKey aFirst aValue hm hassert hnofit (by omega)]
      exact FrontierInv_Swap f rs hm hflags

/-- Claim C9: the frontier invariant — `mSwapUsed` is a multiple of 4, lies
between `mSwapHeaderSize` and `mSwapSize`, and the active region is erased from
`mSwapUsed` to `mSwapSize` — is established by `Wipe` and by `Init` on a
well-formed boot image, and is preserved by `Set`, `Add` and `Delete` on any
state satisfying it together with the record-list abstraction.  (`Get` takes no
`Flash` state to a new one in this embedding — `Flash::Get` is `const` and
performs no writes — so there is nothing to preserve.) -/
theorem C9_frontier (f : Flash) (rs : List Rec) (aKey : Nat) (aValue : List Nat)
    (aIndex : Int) (hm : f.Models rs) (hinv : FrontierInv f)
    (hflags : ∀ r ∈ rs, r.hdr.IsAddBeginSet = true)
    (hkey : aKey < 65536) (hlen : aValue.length ≤ 256) (hbytes : ∀ b ∈ aValue, b < 256)
    (hassertT : (Flash.mkRecord aKey true aValue).hdr.GetSize + 4 ≤ f.mSwapSize)
    (hassertF : (Flash.mkRecord aKey false aValue).hdr.GetSize + 4 ≤ f.mSwapSize) :
    FrontierInv (Flash.Wipe f) ∧
    FrontierInv ((f.Set aKey aValue).1) ∧
    FrontierInv ((f.Add aKey aValue).1) ∧
    FrontierInv ((f.Delete aKey aIndex).1) ∧
    (∀ (r0 r1 : List Nat) (swapSize : Nat) (rs0 : List Rec),
      8 ≤ swapSize → swapSize % 4 = 0 → swapSize < 4294967296 →
      decodeU32 (readBytes r0 0 4) = kActive →
      (∀ r ∈ rs0, RecWf r) →
      (∀ r ∈ rs0, r.hdr.IsAddBeginSet = true ∧ r.hdr.IsAddCompleteSet = true) →
      readBytes r0 4 (encodeRecs rs0).length = encodeRecs rs0 →
      4 + (encodeRecs rs0).length ≤ swapSize →
      readBytes r0 (4 + (encodeRecs rs0).length)
          (swapSize - (4 + (encodeRecs rs0).length))
        = List.replicate (swapSize - (4 + (encodeRecs rs0).length)) 255 →
      FrontierInv (Flash.Init r0 r1 swapSize)) := by
  have h4 : 4 ≤ f.mSwapSize := by
    have h1 := hm.2.2.2.1
    have h2 := hm.2.2.2.2.1
    omega
  refine ⟨FrontierInv_Wipe f h4, ?_, ?_, FrontierInv_Delete f rs aKey aIndex hm hinv, ?_⟩
  · have hset : f.Set aKey aValue = f.AddImpl aKey true aValue := rfl
    rw [hset]
    exact FrontierInv_AddImpl f rs aKey true aValue hm hinv hflags hkey hlen hbytes hassertT
  · have hadd : f.Add aKey aValue
        = f.AddImpl aKey ((f.Get aKey 0 none none).1 == OtError.NotFound) aValue := rfl
    rw [hadd]
    cases hprobe : ((f.Get aKey 0 none none).1 == OtError.NotFound) with
    | false =>
      exact FrontierInv_AddImpl f rs aKey false aValue hm hinv hflags hkey hlen hbytes
        hassertF
    | true =>
      exact FrontierInv_AddImpl f rs aKey true aValue hm hinv hflags hkey hlen hbytes
        hassertT
  · intro r0 r1 swapSize rs0 hsz8 hsz4 hsz32 h0 hwf0 hflags0 hcontent0 hle0 htail0
    rw [Init_active0_spec r0 r1 swapSize rs0 hsz8 hsz4 hsz32 h0 hwf0 hflags0 hcontent0
      hle0 htail0]
    have hmod := encodeRecs_length_mod4 rs0 hwf0
    refine ⟨?_, ?_, ?_, ?_⟩
    · dsimp only
      omega
    · dsimp only
      omega
    · dsimp only
      omega
    · exact htail0

theorem C9_frontier_witness :
    FrontierInv (Flash.Wipe C5pre) ∧
    FrontierInv ((C5pre.Set 7 [5]).1) ∧
    FrontierInv ((C5pre.Add 7 [5]).1) ∧
    FrontierInv ((C5pre.Delete 7 0).1) ∧
    (∀ (r0 r1 : List Nat) (swapSize : Nat) (rs0 : List Rec),
      8 ≤ swapSize → swapSize % 4 = 0 → swapSize < 4294967296 →
      decodeU32 (readBytes r0 0 4) = kActive →
      (∀ r ∈ rs0, RecWf r) →
      (∀ r ∈ rs0, r.hdr.IsAddBeginSet = true ∧ r.hdr.IsAddCompleteSet = true) →
      readBytes r0 4 (encodeRecs rs0).length = encodeRecs rs0 →
      4 + (encodeRecs rs0).length ≤ swapSize →
      readBytes r0 (4 + (encodeRecs rs0).length)
          (swapSize - (4 + (encodeRecs rs0).length))
        = List.replicate (swapSize - (4 + (encodeRecs rs0).length)) 255 →
      FrontierInv (Flash.Init r0 r1 swapSize)) :=
  C9_frontier C5pre C5rs 7 [5] 0 (by decide) (by decide) (by decide) (by decide)
    (by decide) (by decide) (by decide) (by decide)

end OtFlash
